import Mathlib

set_option linter.unreachableTactic false
set_option linter.unusedTactic false
set_option linter.unnecessarySeqFocus false

/-!
Verification development for the Hua Rong Dao sliding-puzzle solver
(`solution.py`).  The Python source is embedded shallowly: Python lists
become Lean lists, Python integers become `ℤ`, fallible operations
(list index assignment, which can raise `IndexError`) return `Option`,
and the built-in string hash — which Python salts per process — is a
parameter `pyhash : String → ℤ` of every definition that reads
`State.id`.
-/

/-! ## Definitions: the embedded program, specification-side notions, and concrete instances -/

/-- Grid cell coordinate `(x, y)`. -/
abbrev Cell := ℤ × ℤ

/-- Python read `l[i]`: non-negative indices from the front, negative
indices wrap from the back, anything else is an `IndexError` (`none`). -/
def pyGet {α : Type} (l : List α) (i : ℤ) : Option α :=
  if 0 ≤ i then l.get? i.toNat
  else if 0 ≤ i + l.length then l.get? (i + l.length).toNat
  else none

/-- Python assignment `l[i] = a`, with the same index semantics as `pyGet`. -/
def pySet {α : Type} (l : List α) (i : ℤ) (a : α) : Option (List α) :=
  if 0 ≤ i then (if i < l.length then some (l.set i.toNat a) else none)
  else if 0 ≤ i + l.length then some (l.set (i + l.length).toNat a) else none

/-- Python `grid[y][x]`. -/
def pyGet2 (g : List (List Char)) (y x : ℤ) : Option Char :=
  (pyGet g y).bind fun row => pyGet row x

/-- Python `grid[y][x] = c`: the row object is updated in place, which in
value semantics replaces row `y` of the grid. -/
def pySet2 (g : List (List Char)) (y x : ℤ) (c : Char) : Option (List (List Char)) := do
  let row ← pyGet g y
  let row2 ← pySet row x c
  pySet g y row2

/-- `char_goal = '1'` -/
def char_goal : Char := '1'

/-- `char_single = '2'` -/
def char_single : Char := '2'

/-- `char_empty = '.'` -/
def char_empty : Char := '.'

/-- A piece on the Hua Rong Dao board (class `Piece`).  `orientation` is
`some 'h'` or `some 'v'` for 1x2 pieces and `none` (`None`) otherwise. -/
structure Piece where
  is_goal : Bool
  is_single : Bool
  coord_x : ℤ
  coord_y : ℤ
  orientation : Option Char
deriving DecidableEq

/-- The board (class `Board`): the piece list together with the derived
grid and the cached `goal_piece_coordinates` list `[x, y]` that
`__construct_grid` maintains. -/
structure Board where
  pieces : List Piece
  grid : List (List Char)
  goal_piece_coordinates : List ℤ
deriving DecidableEq

/-- `self.width = 4`, a constant instance attribute. -/
def Board.width (_ : Board) : ℤ := 4

/-- `self.height = 5`, a constant instance attribute. -/
def Board.height (_ : Board) : ℤ := 5

/-- The empty 5-row / 4-column grid that `__construct_grid` starts from. -/
def emptyGrid : List (List Char) :=
  List.replicate 5 (List.replicate 4 char_empty)

/-- One iteration of the `for piece in self.pieces` loop of
`Board.__construct_grid`: perform this piece's grid writes (in source
order) and update `goal_piece_coordinates` when the piece is the goal. -/
def placePiece (acc : List (List Char) × List ℤ) (p : Piece) :
    Option (List (List Char) × List ℤ) :=
  if p.is_goal then do
    let g1 ← pySet2 acc.1 p.coord_y p.coord_x char_goal
    let g2 ← pySet2 g1 p.coord_y (p.coord_x + 1) char_goal
    let g3 ← pySet2 g2 (p.coord_y + 1) p.coord_x char_goal
    let g4 ← pySet2 g3 (p.coord_y + 1) (p.coord_x + 1) char_goal
    some (g4, [p.coord_x, p.coord_y])
  else if p.is_single then do
    let g1 ← pySet2 acc.1 p.coord_y p.coord_x char_single
    some (g1, acc.2)
  else if p.orientation = some 'h' then do
    let g1 ← pySet2 acc.1 p.coord_y p.coord_x '<'
    let g2 ← pySet2 g1 p.coord_y (p.coord_x + 1) '>'
    some (g2, acc.2)
  else if p.orientation = some 'v' then do
    let g1 ← pySet2 acc.1 p.coord_y p.coord_x '^'
    let g2 ← pySet2 g1 (p.coord_y + 1) p.coord_x 'v'
    some (g2, acc.2)
  else some acc

/-- `Board(pieces)`: `__init__` plus `__construct_grid`.  An out-of-range
grid write raises `IndexError`, modelled by `none`.  No other validation
is performed. -/
def Board.build (pieces : List Piece) : Option Board :=
  (pieces.foldlM placePiece (emptyGrid, [0, 0])).map fun acc =>
    { pieces := pieces, grid := acc.1, goal_piece_coordinates := acc.2 }

/-- A search state (class `State`): a board, the `f` value, the depth and
the parent link. -/
inductive State where
  | mk (board : Board) (f : ℤ) (depth : ℤ) (parent : Option State)

def State.board : State → Board
  | .mk b _ _ _ => b

def State.f : State → ℤ
  | .mk _ f _ _ => f

def State.depth : State → ℤ
  | .mk _ _ d _ => d

def State.parent : State → Option State
  | .mk _ _ _ p => p

/-- Python `repr` of a one-character string, `'c'`. -/
def reprChar (c : Char) : List Char := [Char.ofNat 39, c, Char.ofNat 39]

/-- Join string pieces with `", "`, as Python does inside a list display. -/
def commaJoin : List (List Char) → List Char
  | [] => []
  | [x] => x
  | x :: y :: xs => x ++ ',' :: ' ' :: commaJoin (y :: xs)

/-- Python `repr` of one grid row (a list of one-character strings). -/
def pyReprRow (row : List Char) : List Char :=
  '[' :: commaJoin (row.map reprChar) ++ [']']

/-- Python `str(board.grid)` for a grid (list of lists of characters). -/
def pyStrGrid (g : List (List Char)) : String :=
  String.mk ('[' :: commaJoin (g.map pyReprRow) ++ [']'])

/-- `self.id = hash(str(board.grid))` — the state identity, a function of
the run's string hash `pyhash` and of the grid alone. -/
def State.idval (pyhash : String → ℤ) (s : State) : ℤ :=
  pyhash (pyStrGrid s.board.grid)

/-- `State.__lt__`: order by `f`, ties broken by `id`. -/
def stateLtb (pyhash : String → ℤ) (a b : State) : Bool :=
  if a.f = b.f then decide (a.idval pyhash < b.idval pyhash)
  else decide (a.f < b.f)

/-- `manhattan_distance(board)`: distance of the tracked goal-piece
top-left corner from the target `(1, 3)`. -/
def manhattan_distance (board : Board) : ℤ :=
  |board.goal_piece_coordinates.getD 0 0 - 1| +
    |board.goal_piece_coordinates.getD 1 0 - 3|

/-- `goal_test(state)`: the tracked goal coordinates equal `[1, 3]`. -/
def goal_test (state : State) : Bool :=
  decide (state.board.goal_piece_coordinates = [1, 3])

/-- `check_valid_spot(state, x, y)`: in bounds and empty.  (The Python
function returns `None`, which is falsy, when the spot is in bounds but
occupied.) -/
def check_valid_spot (state : State) (x y : ℤ) : Bool :=
  if 0 ≤ x ∧ x < state.board.width ∧ 0 ≤ y ∧ y < state.board.height then
    pyGet2 state.board.grid y x == some char_empty
  else false

/-- Move a piece one cell in a direction (`"left"`, `"right"`, `"up"`,
anything else means down), as in the body of `get_new_state`. -/
def movePiece (p : Piece) (direction : String) : Piece :=
  if direction = "left" then { p with coord_x := p.coord_x - 1 }
  else if direction = "right" then { p with coord_x := p.coord_x + 1 }
  else if direction = "up" then { p with coord_y := p.coord_y - 1 }
  else { p with coord_y := p.coord_y + 1 }

/-- The `for piece in new_board.pieces` loop of `get_new_state`: move the
first piece whose top-left corner is `(px, py)` and keep the rest. -/
def movePieceList (pieces : List Piece) (px py : ℤ) (direction : String) :
    List Piece :=
  match pieces with
  | [] => []
  | p :: rest =>
    if p.coord_x = px ∧ p.coord_y = py then movePiece p direction :: rest
    else p :: movePieceList rest px py direction

/-- `get_new_state(state, piece_x, piece_y, direction)`: copy the board,
move the matching piece, rebuild the grid (`Board(new_board.pieces)`), and
wrap it in a new state with depth `+1`, `f = depth + h` and the input
state as parent. -/
def get_new_state (state : State) (piece_x piece_y : ℤ) (direction : String) :
    Option State :=
  (Board.build (movePieceList state.board.pieces piece_x piece_y direction)).map
    fun test_board =>
      State.mk test_board (state.depth + 1 + manhattan_distance test_board)
        (state.depth + 1) (some state)

/-- One guarded move attempt inside `generate_successors`: when the
validity checks pass, produce the singleton new state. -/
def tryDir (state : State) (p : Piece) (cond : Bool) (direction : String) :
    Option (List State) :=
  if cond then (get_new_state state p.coord_x p.coord_y direction).map fun s => [s]
  else some []

/-- The body of the `for piece in curr_pieces` loop of
`generate_successors`: the four direction attempts for one piece, with the
source's per-kind validity checks, in source order up, down, left, right. -/
def pieceMoves (state : State) (p : Piece) : Option (List State) :=
  let x := p.coord_x
  let y := p.coord_y
  if p.is_goal then do
    let u ← tryDir state p
      (check_valid_spot state x (y - 1) && check_valid_spot state (x + 1) (y - 1)) "up"
    let d ← tryDir state p
      (check_valid_spot state x (y + 2) && check_valid_spot state (x + 1) (y + 2)) "down"
    let l ← tryDir state p
      (check_valid_spot state (x - 1) y && check_valid_spot state (x - 1) (y + 1)) "left"
    let r ← tryDir state p
      (check_valid_spot state (x + 2) y && check_valid_spot state (x + 2) (y + 1)) "right"
    pure (u ++ d ++ l ++ r)
  else if p.orientation = some 'h' then do
    let u ← tryDir state p
      (check_valid_spot state x (y - 1) && check_valid_spot state (x + 1) (y - 1)) "up"
    let d ← tryDir state p
      (check_valid_spot state x (y + 1) && check_valid_spot state (x + 1) (y + 1)) "down"
    let l ← tryDir state p (check_valid_spot state (x - 1) y) "left"
    let r ← tryDir state p (check_valid_spot state (x + 2) y) "right"
    pure (u ++ d ++ l ++ r)
  else if p.orientation = some 'v' then do
    let u ← tryDir state p (check_valid_spot state x (y - 1)) "up"
    let d ← tryDir state p (check_valid_spot state x (y + 2)) "down"
    let l ← tryDir state p
      (check_valid_spot state (x - 1) y && check_valid_spot state (x - 1) (y + 1)) "left"
    let r ← tryDir state p
      (check_valid_spot state (x + 1) y && check_valid_spot state (x + 1) (y + 1)) "right"
    pure (u ++ d ++ l ++ r)
  else do
    let u ← tryDir state p (check_valid_spot state x (y - 1)) "up"
    let d ← tryDir state p (check_valid_spot state x (y + 1)) "down"
    let l ← tryDir state p (check_valid_spot state (x - 1) y) "left"
    let r ← tryDir state p (check_valid_spot state (x + 1) y) "right"
    pure (u ++ d ++ l ++ r)

/-- `generate_successors(state)`: all guarded single-cell moves of all
pieces, in piece order. -/
def generate_successors (state : State) : Option (List State) :=
  state.board.pieces.foldlM (fun acc p => (pieceMoves state p).map fun l => acc ++ l) []

/-- Outcome of one search run: a returned goal state, the `return None`
"no solution" branch, or a propagated Python exception. -/
inductive SearchOutcome where
  | found (s : State)
  | noSolution
  | fault

/-- The `while frontier` loop of `DFS`, with explicit fuel; `none` means
the fuel ran out before the loop exited.  `frontier.pop()` removes the
last element; successors whose identity has been visited are not pushed. -/
def dfsLoop (pyhash : String → ℤ) :
    ℕ → List State → List ℤ → Option SearchOutcome
  | 0, _, _ => none
  | n + 1, frontier, visited =>
    match frontier.getLast? with
    | none => some SearchOutcome.noSolution
    | some curr =>
      if curr.idval pyhash ∈ visited then dfsLoop pyhash n frontier.dropLast visited
      else if goal_test curr then some (SearchOutcome.found curr)
      else
        match generate_successors curr with
        | none => some SearchOutcome.fault
        | some succs =>
          dfsLoop pyhash n
            (frontier.dropLast ++
              succs.filter fun s => !decide (s.idval pyhash ∈ visited))
            (curr.idval pyhash :: visited)

/-- `DFS(state)`. -/
def DFS (pyhash : String → ℤ) (fuel : ℕ) (state : State) : Option SearchOutcome :=
  dfsLoop pyhash fuel [state] []

/-- The heap order used by `heapq` through `State.__lt__`:
`a` may come no later than `b`. -/
def stateLe (pyhash : String → ℤ) (a b : State) : Prop :=
  stateLtb pyhash b a = false

instance (pyhash : String → ℤ) : DecidableRel (stateLe pyhash) := fun _ _ =>
  instDecidableEqBool _ _

/-- `heappush(frontier, item)`.  Modelled from the `heapq` contract: the
frontier is a priority structure whose pop returns a smallest element
under `State.__lt__`; here it is realised as an ordered list and `push`
as ordered insertion. -/
def heappush (pyhash : String → ℤ) (frontier : List State) (item : State) :
    List State :=
  frontier.orderedInsert (stateLe pyhash) item

/-- The `while frontier` loop of `A_star`, with explicit fuel.  `heappop`
takes the head of the ordered frontier; the visited mark is made before
the goal test; all successors are pushed unconditionally. -/
def astarLoop (pyhash : String → ℤ) :
    ℕ → List State → List ℤ → Option SearchOutcome
  | 0, _, _ => none
  | _ + 1, [], _ => some SearchOutcome.noSolution
  | n + 1, curr :: rest, visited =>
    if curr.idval pyhash ∈ visited then astarLoop pyhash n rest visited
    else if goal_test curr then some (SearchOutcome.found curr)
    else
      match generate_successors curr with
      | none => some SearchOutcome.fault
      | some succs =>
        astarLoop pyhash n (succs.foldl (heappush pyhash) rest)
          (curr.idval pyhash :: visited)

/-- `A_star(state)`: push the initial state and run the loop. -/
def A_star (pyhash : String → ℤ) (fuel : ℕ) (state : State) : Option SearchOutcome :=
  astarLoop pyhash fuel (heappush pyhash [] state) []

/-- The `while solution.parent != None` loop of `write_to_file`: the
terminal state's ancestors up to, but excluding, the root. -/
def collectStates : State → List State
  | State.mk _ _ _ none => []
  | State.mk b f d (some p) => State.mk b f d (some p) :: collectStates p

/-- `all_states` after the `reverse()` call in `write_to_file`: the
solution path from the first move to the terminal state. -/
def all_states (solution : State) : List State := (collectStates solution).reverse

/-- The set of cells a piece occupies, per the data model: exactly the
cells `__construct_grid` writes for it. -/
def cells (p : Piece) : List Cell :=
  if p.is_goal then
    [(p.coord_x, p.coord_y), (p.coord_x + 1, p.coord_y),
     (p.coord_x, p.coord_y + 1), (p.coord_x + 1, p.coord_y + 1)]
  else if p.is_single then [(p.coord_x, p.coord_y)]
  else if p.orientation = some 'h' then
    [(p.coord_x, p.coord_y), (p.coord_x + 1, p.coord_y)]
  else if p.orientation = some 'v' then
    [(p.coord_x, p.coord_y), (p.coord_x, p.coord_y + 1)]
  else []

/-- The character `__construct_grid` writes for piece `p` at cell `c`
(meaningful when `c ∈ cells p`). -/
def cellChar (p : Piece) (c : Cell) : Char :=
  if p.is_goal then char_goal
  else if p.is_single then char_single
  else if p.orientation = some 'h' then (if c.1 = p.coord_x then '<' else '>')
  else (if c.2 = p.coord_y then '^' else 'v')

/-- A cell lies on the 4-wide, 5-tall board. -/
def inGrid (c : Cell) : Prop := 0 ≤ c.1 ∧ c.1 < 4 ∧ 0 ≤ c.2 ∧ c.2 < 5

instance (c : Cell) : Decidable (inGrid c) := by unfold inGrid; infer_instance

/-- A piece is one of the four legal kinds. -/
def wellFormedPiece (p : Piece) : Prop :=
  (p.is_goal = true ∧ p.is_single = false ∧ p.orientation = none) ∨
  (p.is_goal = false ∧ p.is_single = true ∧ p.orientation = none) ∨
  (p.is_goal = false ∧ p.is_single = false ∧
    (p.orientation = some 'h' ∨ p.orientation = some 'v'))

instance (p : Piece) : Decidable (wellFormedPiece p) := by
  unfold wellFormedPiece; infer_instance

/-- The piece-placement invariants of the data model: well-formed pieces,
all occupied cells on the board, pairwise disjoint footprints, exactly one
goal piece. -/
def piecesOk (ps : List Piece) : Prop :=
  (∀ p ∈ ps, wellFormedPiece p ∧ ∀ c ∈ cells p, inGrid c) ∧
  ps.Pairwise (fun p q => ∀ c ∈ cells p, c ∉ cells q) ∧
  (ps.filter fun p => p.is_goal).length = 1

instance (ps : List Piece) : Decidable (piecesOk ps) := by
  unfold piecesOk; infer_instance

/-- A `Board` value that satisfies the invariants and is consistent: it is
exactly what `Board(pieces)` constructs from its own piece list. -/
def goodBoard (b : Board) : Prop :=
  piecesOk b.pieces ∧ Board.build b.pieces = some b

instance (b : Board) : Decidable (goodBoard b) := by
  unfold goodBoard; infer_instance

/-- The grid has 5 rows of 4 cells. -/
def gridShape (g : List (List Char)) : Prop :=
  g.length = 5 ∧ ∀ row ∈ g, row.length = 4

/-- Grid lookup at a cell, `grid[c.2][c.1]`. -/
def cellAt (g : List (List Char)) (c : Cell) : Option Char := pyGet2 g c.2 c.1

/-- The goal-coordinate tracking fold of `__construct_grid`. -/
def goalCoordsFold (ps : List Piece) (a : List ℤ) : List ℤ :=
  ps.foldl (fun a p => if p.is_goal = true then [p.coord_x, p.coord_y] else a) a

/-- The four slide directions, in the order `generate_successors` tries
them. -/
def slideDirs : List String := ["up", "down", "left", "right"]

/-- The destination cells a slide requires: the moved footprint minus the
cells the piece already occupies. -/
def newCells (p : Piece) (direction : String) : List Cell :=
  (cells (movePiece p direction)).filter fun c => decide (c ∉ cells p)

/-- Legality of a slide per the specification: every required destination
cell is inside the grid and occupied by no piece. -/
def slideOk (b : Board) (p : Piece) (direction : String) : Prop :=
  ∀ c ∈ newCells p direction, inGrid c ∧ ∀ q ∈ b.pieces, c ∉ cells q

instance (b : Board) (p : Piece) (direction : String) :
    Decidable (slideOk b p direction) := by
  unfold slideOk; infer_instance

/-- The board obtained by sliding piece `p` of `b` one cell. -/
def slideBoard (b : Board) (p : Piece) (direction : String) : Option Board :=
  Board.build (b.pieces.map fun q => if q = p then movePiece p direction else q)

/-- All boards one legal slide of one given piece away. -/
def slideBoardsOfPiece (b : Board) (p : Piece) : List Board :=
  (slideDirs.filter fun d => decide (slideOk b p d)).filterMap (slideBoard b p)

/-- All boards one legal slide away, enumerated piece by piece. -/
def slideBoards (b : Board) : List Board :=
  (b.pieces.map (slideBoardsOfPiece b)).join

/-- The boards of the successor states, as used by search reachability.
The wrapper state's `f`, depth and parent do not affect them. -/
def succBoards (b : Board) : List Board :=
  match generate_successors (State.mk b 0 0 none) with
  | none => []
  | some l => l.map State.board

/-- `n`-step reachability along generated successors, first step in front. -/
inductive BReachN : ℕ → Board → Board → Prop where
  | refl (b : Board) : BReachN 0 b b
  | step {b c2 c : Board} {n : ℕ} :
      c2 ∈ succBoards b → BReachN n c2 c → BReachN (n + 1) b c

/-- A board satisfying the goal predicate of `goal_test`. -/
def isGoalBoard (b : Board) : Prop := b.goal_piece_coordinates = [1, 3]

instance (b : Board) : Decidable (isGoalBoard b) := by
  unfold isGoalBoard; infer_instance

/-- All placements of one piece inside the grid's coordinate box. -/
def pieceVariants (p : Piece) : List Piece :=
  ([0, 1, 2, 3] : List ℤ).bind fun x => ([0, 1, 2, 3, 4] : List ℤ).map fun y =>
    { p with coord_x := x, coord_y := y }

/-- All piece lists obtained by repositioning each piece of `ps` inside
the coordinate box. -/
def candLists : List Piece → List (List Piece)
  | [] => [[]]
  | p :: rest => (pieceVariants p).bind fun q => (candLists rest).map fun l => q :: l

/-- All boards such piece lists construct. -/
def candBoards (ps : List Piece) : List Board := (candLists ps).filterMap Board.build

/-- The identity values those boards can produce in a given run. -/
def candIds (pyhash : String → ℤ) (ps : List Piece) : List ℤ :=
  ((candBoards ps).map fun b => pyhash (pyStrGrid b.grid)).dedup

/-- Same piece kinds, position by position. -/
def kindsMatch (ps qs : List Piece) : Prop :=
  List.Forall₂ (fun p q =>
    p.is_goal = q.is_goal ∧ p.is_single = q.is_single ∧ p.orientation = q.orientation) ps qs

/-- Being generated from the root by repeated successor expansion. -/
inductive Lineage (root : State) : State → Prop where
  | base : Lineage root root
  | step {s t : State} : Lineage root s →
      (∃ l, generate_successors s = some l ∧ t ∈ l) → Lineage root t

/-- The termination measure of both search loops. -/
def searchMeasure (pyhash : String → ℤ) (ps0 : List Piece)
    (frontier : List State) (visited : List ℤ) : ℕ :=
  ((candIds pyhash ps0).filter fun i => decide (i ∉ visited)).length *
    (4 * ps0.length + 1) + frontier.length

/-- Walk parent links to the root (the state whose parent is `None`). -/
def rootOf : State → State
  | State.mk b f d none => State.mk b f d none
  | State.mk _ _ _ (some p) => rootOf p

instance (pyhash : String → ℤ) : IsTotal State (stateLe pyhash) := by
  constructor
  intro a b
  unfold stateLe stateLtb
  split_ifs <;> simp_all <;> omega

instance (pyhash : String → ℤ) : IsTrans State (stateLe pyhash) := by
  constructor
  intro a b c h1 h2
  unfold stateLe stateLtb at h1 h2 ⊢
  split_ifs at h1 h2 ⊢ <;> simp_all <;> omega

/-- The (piece, direction) tags of the legal slides, in generation order. -/
def slideTags (b : Board) : List (Piece × String) :=
  (b.pieces.map fun p =>
    (slideDirs.filter fun d => decide (slideOk b p d)).map fun d => (p, d)).join

/-! ## Concrete instances used by witnesses and counterexamples -/

def pGoalAt (x y : ℤ) : Piece :=
  { is_goal := true, is_single := false, coord_x := x, coord_y := y, orientation := none }

def pSingleAt (x y : ℤ) : Piece :=
  { is_goal := false, is_single := true, coord_x := x, coord_y := y, orientation := none }

def emptyBoard : Board := { pieces := [], grid := [], goal_piece_coordinates := [] }

/-- A board with only the goal piece, one slide above the target. -/
def bG12 : Board := (Board.build [pGoalAt 1 2]).getD emptyBoard

/-- The solved board with only the goal piece. -/
def bG13 : Board := (Board.build [pGoalAt 1 3]).getD emptyBoard

def sG12 : State := State.mk bG12 0 0 none

/-- An overlapping (invalid) configuration that still constructs. -/
def bOv1 : Board := (Board.build [pGoalAt 0 0, pSingleAt 0 0]).getD emptyBoard

/-- The same overlapping pieces in the other order. -/
def bOv2 : Board := (Board.build [pSingleAt 0 0, pGoalAt 0 0]).getD emptyBoard

/-- Two valid boards with permuted piece lists. -/
def bP1 : Board := (Board.build [pGoalAt 1 3, pSingleAt 0 0]).getD emptyBoard

def bP2 : Board := (Board.build [pSingleAt 0 0, pGoalAt 1 3]).getD emptyBoard

/-- A hash function standing for one interpreter run. -/
def hashRunA : String → ℤ := fun _ => 0

/-- A hash function standing for a second run with another seed. -/
def hashRunB : String → ℤ := fun _ => 1

/-- A simple content-sensitive string hash. -/
def hashCount : String → ℤ := fun s => (s.data.count '2' : ℤ)

/-- A content hash that separates the goal positions: the index of the
first goal character in the grid string. -/
def hashPos : String → ℤ := fun s => ((s.data.findIdx fun c => c = '1') : ℤ)

def dfsOut : Option SearchOutcome := DFS hashPos 40 (State.mk bG12 0 0 none)

/-- The state the sample DFS run returns. -/
def rDFS : State :=
  match dfsOut with
  | some (SearchOutcome.found t) => t
  | _ => sG12

/-- Reachability from a fixed initial board. -/
def ReachB (b0 b : Board) : Prop := ∃ n, BReachN n b0 b

/-- The no-collision hypothesis the optimality argument needs: on boards
reachable from the initial one, equal identity hashes imply equal grids.
A canonical content hash has this property; Python's salted `hash(str(...))`
need not. -/
def GridInj (pyhash : String → ℤ) (b0 : Board) : Prop :=
  ∀ b1 b2 : Board, ReachB b0 b1 → ReachB b0 b2 →
    pyhash (pyStrGrid b1.grid) = pyhash (pyStrGrid b2.grid) → b1.grid = b2.grid

/-- Per-state frontier invariant of the A* loop: good reachable board of
the root's piece kinds, recorded depth is an exact path length, and `f` is
depth plus heuristic (except for the root state, which carries `f = 0`). -/
def frontInv (b0 : Board) (s : State) : Prop :=
  goodBoard s.board ∧ kindsMatch b0.pieces s.board.pieces ∧
  (∃ m : ℕ, (m : ℤ) = s.depth ∧ BReachN m b0 s.board) ∧
  (s.f = s.depth + manhattan_distance s.board ∨ (s.depth = 0 ∧ s.f = 0))

/-- Ghost record for one expanded (visited) state: the expanded board, at
a grid-minimal depth, was not a goal, and each of its slide successors is
either itself visited or still on the frontier at depth at most one more. -/
def recInv (pyhash : String → ℤ) (b0 : Board) (V : List ℤ) (F : List State)
    (e : Board × ℕ) : Prop :=
  goodBoard e.1 ∧ BReachN e.2 b0 e.1 ∧ ¬ isGoalBoard e.1 ∧
  (∀ m b, BReachN m b0 b → b.grid = e.1.grid → e.2 ≤ m) ∧
  (∀ c ∈ slideBoards e.1, pyhash (pyStrGrid c.grid) ∈ V ∨
    ∃ s ∈ F, s.board.grid = c.grid ∧ s.depth ≤ (e.2 : ℤ) + 1)

/-- The loop invariant of `A_star`: sorted frontier, per-state facts, a
ghost expansion record justifying every visited identity, and coverage of
the initial board. -/
def astarInv (pyhash : String → ℤ) (b0 : Board) (F : List State)
    (V : List ℤ) : Prop :=
  List.Sorted (stateLe pyhash) F ∧
  (∀ s ∈ F, frontInv b0 s) ∧
  (∃ E : List (Board × ℕ),
    (∀ v, v ∈ V ↔ ∃ e ∈ E, v = pyhash (pyStrGrid e.1.grid)) ∧
    ∀ e ∈ E, recInv pyhash b0 V F e) ∧
  (pyhash (pyStrGrid b0.grid) ∈ V ∨
    ∃ s ∈ F, s.board.grid = b0.grid ∧ s.depth ≤ 0)

/-- The twelve goal-only boards: the reachable set of `bG12`. -/
def RG : List Board :=
  (([0, 1, 2] : List ℤ).bind fun x => ([0, 1, 2, 3] : List ℤ).map fun y =>
    (Board.build [pGoalAt x y]).getD emptyBoard)

/-! ## Theorems -/

/-! ## Python list access lemmas -/

theorem pyGet_nonneg {α : Type} (l : List α) (i : ℤ) (h : 0 ≤ i) :
    pyGet l i = l.get? i.toNat := by
  simp [pyGet, h]

theorem pyGet_of_lt {α : Type} (l : List α) (i : ℤ) (h0 : 0 ≤ i)
    (h1 : i < l.length) : ∃ a, pyGet l i = some a ∧ l.get? i.toNat = some a := by
  rw [pyGet_nonneg l i h0]
  have : i.toNat < l.length := by omega
  rcases List.get?_eq_get this with h
  exact ⟨l.get ⟨i.toNat, this⟩, h, h⟩

theorem pySet_of_lt {α : Type} (l : List α) (i : ℤ) (a : α) (h0 : 0 ≤ i)
    (h1 : i < l.length) : pySet l i a = some (l.set i.toNat a) := by
  simp [pySet, h0, h1]

theorem gridShape_emptyGrid : gridShape emptyGrid := by
  constructor
  · simp [emptyGrid]
  · intro row hrow
    simp [emptyGrid] at hrow
    simp [hrow]

theorem cellAt_emptyGrid (c : Cell) (h : inGrid c) :
    cellAt emptyGrid c = some char_empty := by
  obtain ⟨h1, h2, h3, h4⟩ := h
  have hy : c.2.toNat < 5 := by omega
  have hx : c.1.toNat < 4 := by omega
  have hrep : ∀ (n : ℕ) (k : ℕ) (c0 : Char), n < k →
      (List.replicate k c0).get? n = some c0 := by
    intro n k c0 hn
    rw [List.get?_eq_get (by simpa using hn)]
    simp
  unfold cellAt pyGet2 emptyGrid
  rw [pyGet_nonneg _ _ h3]
  rw [List.get?_eq_get (by simpa using hy)]
  simp only [List.get_replicate, Option.some_bind]
  rw [pyGet_nonneg _ _ h1]
  exact hrep _ _ _ hx

/-- A single in-bounds grid write: success, shape preservation, and the
pointwise effect. -/
theorem pySet2_spec (g : List (List Char)) (x y : ℤ) (ch : Char)
    (hg : gridShape g) (hx0 : 0 ≤ x) (hx : x < 4) (hy0 : 0 ≤ y) (hy : y < 5) :
    ∃ g2, pySet2 g y x ch = some g2 ∧ gridShape g2 ∧
      ∀ c : Cell, inGrid c →
        cellAt g2 c = if c = (x, y) then some ch else cellAt g c := by
  obtain ⟨hlen, hrows⟩ := hg
  have hylen : y < (g.length : ℤ) := by omega
  obtain ⟨row, hrowget, hrowget2⟩ := pyGet_of_lt g y hy0 hylen
  have hrowmem : row ∈ g := List.get?_mem hrowget2
  have hrowlen : row.length = 4 := hrows row hrowmem
  have hxlen : x < (row.length : ℤ) := by omega
  have hset : pySet row x ch = some (row.set x.toNat ch) := pySet_of_lt _ _ _ hx0 hxlen
  have hset2 : pySet g y (row.set x.toNat ch) = some (g.set y.toNat (row.set x.toNat ch)) :=
    pySet_of_lt _ _ _ hy0 hylen
  refine ⟨g.set y.toNat (row.set x.toNat ch), ?_, ?_, ?_⟩
  · simp [pySet2, hrowget, hset, hset2]
  · constructor
    · simp [hlen]
    · intro row2 hrow2
      rcases List.mem_or_eq_of_mem_set hrow2 with h | h
      · exact hrows row2 h
      · subst h; simp [hrowlen]
  · intro c hc
    obtain ⟨hc1, hc2, hc3, hc4⟩ := hc
    unfold cellAt pyGet2
    rw [pyGet_nonneg _ _ hc3, pyGet_nonneg _ _ hc3]
    by_cases hyeq : c.2 = y
    · have : c.2.toNat = y.toNat := by omega
      rw [this]
      rw [List.get?_set_eq_of_lt _ (by omega)]
      rw [hrowget2]
      simp only [Option.bind_eq_bind, Option.some_bind]
      rw [pyGet_nonneg _ _ hc1, pyGet_nonneg _ _ hc1]
      by_cases hxeq : c.1 = x
      · have hxn : c.1.toNat = x.toNat := by omega
        rw [hxn]
        rw [List.get?_set_eq_of_lt _ (by omega)]
        have : c = (x, y) := by
          cases c; simp_all
        simp [this]
      · have hxn : x.toNat ≠ c.1.toNat := by omega
        rw [List.get?_set_ne _ _ hxn]
        have : ¬(c = (x, y)) := by
          cases c; simp_all
        simp [this]
    · have hyn : y.toNat ≠ c.2.toNat := by omega
      rw [List.get?_set_ne _ _ hyn]
      have : ¬(c = (x, y)) := by
        cases c; simp_all
      simp [this]

/-- `placePiece` on a well-formed, in-bounds piece: success, shape
preservation, pointwise grid effect and goal-coordinate update. -/
theorem placePiece_spec (acc : List (List Char) × List ℤ) (p : Piece)
    (hg : gridShape acc.1) (hwf : wellFormedPiece p)
    (hin : ∀ c ∈ cells p, inGrid c) :
    ∃ g2, placePiece acc p =
        some (g2, if p.is_goal = true then [p.coord_x, p.coord_y] else acc.2) ∧
      gridShape g2 ∧
      ∀ c : Cell, inGrid c →
        cellAt g2 c = if c ∈ cells p then some (cellChar p c) else cellAt acc.1 c := by
  rcases hwf with ⟨hb1, hb2, hb3⟩ | ⟨hb1, hb2, hb3⟩ | ⟨hb1, hb2, hb3⟩
  · -- goal piece
    simp [cells, hb1] at hin
    obtain ⟨hi1, hi2, hi3, hi4⟩ := hin
    unfold inGrid at hi1 hi2 hi3 hi4
    obtain ⟨w1, hw1, hs1, hp1⟩ := pySet2_spec acc.1 p.coord_x p.coord_y char_goal hg
      (by omega) (by omega) (by omega) (by omega)
    obtain ⟨w2, hw2, hs2, hp2⟩ := pySet2_spec w1 (p.coord_x + 1) p.coord_y char_goal hs1
      (by omega) (by omega) (by omega) (by omega)
    obtain ⟨w3, hw3, hs3, hp3⟩ := pySet2_spec w2 p.coord_x (p.coord_y + 1) char_goal hs2
      (by omega) (by omega) (by omega) (by omega)
    obtain ⟨w4, hw4, hs4, hp4⟩ := pySet2_spec w3 (p.coord_x + 1) (p.coord_y + 1) char_goal hs3
      (by omega) (by omega) (by omega) (by omega)
    refine ⟨w4, ?_, hs4, ?_⟩
    · simp [placePiece, hb1, hw1, hw2, hw3, hw4]
    · intro c hc
      rw [hp4 c hc, hp3 c hc, hp2 c hc, hp1 c hc]
      simp only [cells, cellChar, hb1, if_true, List.mem_cons, List.mem_singleton,
        List.not_mem_nil, or_false]
      split_ifs <;> tauto
  · -- single piece
    simp [cells, hb1, hb2] at hin
    unfold inGrid at hin
    obtain ⟨w1, hw1, hs1, hp1⟩ := pySet2_spec acc.1 p.coord_x p.coord_y char_single hg
      (by omega) (by omega) (by omega) (by omega)
    refine ⟨w1, ?_, hs1, ?_⟩
    · simp [placePiece, hb1, hb2, hw1]
    · intro c hc
      rw [hp1 c hc]
      simp only [cells, cellChar, hb1, hb2, Bool.false_eq_true, if_false, if_true,
        List.mem_singleton]
  · rcases hb3 with hb3 | hb3
    · -- horizontal piece
      simp [cells, hb1, hb2, hb3] at hin
      obtain ⟨hi1, hi2⟩ := hin
      unfold inGrid at hi1 hi2
      obtain ⟨w1, hw1, hs1, hp1⟩ := pySet2_spec acc.1 p.coord_x p.coord_y '<' hg
        (by omega) (by omega) (by omega) (by omega)
      obtain ⟨w2, hw2, hs2, hp2⟩ := pySet2_spec w1 (p.coord_x + 1) p.coord_y '>' hs1
        (by omega) (by omega) (by omega) (by omega)
      refine ⟨w2, ?_, hs2, ?_⟩
      · simp [placePiece, hb1, hb2, hb3, hw1, hw2]
      · intro c hc
        rw [hp2 c hc, hp1 c hc]
        simp only [cells, cellChar, hb1, hb2, hb3, Bool.false_eq_true, if_false, if_true,
          List.mem_cons, List.mem_singleton, List.not_mem_nil, or_false]
        rcases c with ⟨cx, cy⟩
        split_ifs with h1 h2 h3 h3 h4 <;> simp_all
    · -- vertical piece
      have hb3' : ¬(p.orientation = some 'h') := by simp [hb3]
      simp [cells, hb1, hb2, hb3] at hin
      obtain ⟨hi1, hi2⟩ := hin
      unfold inGrid at hi1 hi2
      obtain ⟨w1, hw1, hs1, hp1⟩ := pySet2_spec acc.1 p.coord_x p.coord_y '^' hg
        (by omega) (by omega) (by omega) (by omega)
      obtain ⟨w2, hw2, hs2, hp2⟩ := pySet2_spec w1 p.coord_x (p.coord_y + 1) 'v' hs1
        (by omega) (by omega) (by omega) (by omega)
      refine ⟨w2, ?_, hs2, ?_⟩
      · simp [placePiece, hb1, hb2, hb3, hb3', hw1, hw2]
      · intro c hc
        rw [hp2 c hc, hp1 c hc]
        simp only [cells, cellChar, hb1, hb2, hb3, hb3', Bool.false_eq_true, if_false,
          if_true, List.mem_cons, List.mem_singleton, List.not_mem_nil, or_false]
        rcases c with ⟨cx, cy⟩
        split_ifs with h1 h2 h3 h3 h4 <;> simp_all

/-- The `for piece in self.pieces` loop over a whole well-formed,
in-bounds, disjoint piece list. -/
theorem foldPlace_spec (ps : List Piece) (acc : List (List Char) × List ℤ)
    (hg : gridShape acc.1)
    (hwf : ∀ p ∈ ps, wellFormedPiece p ∧ ∀ c ∈ cells p, inGrid c)
    (hdisj : ps.Pairwise fun p q => ∀ c ∈ cells p, c ∉ cells q) :
    ∃ res, ps.foldlM placePiece acc = some res ∧ gridShape res.1 ∧
      res.2 = goalCoordsFold ps acc.2 ∧
      ∀ c : Cell, inGrid c →
        ((∀ p ∈ ps, c ∉ cells p) → cellAt res.1 c = cellAt acc.1 c) ∧
        (∀ p ∈ ps, c ∈ cells p → cellAt res.1 c = some (cellChar p c)) := by
  induction ps generalizing acc with
  | nil =>
    refine ⟨acc, rfl, hg, rfl, ?_⟩
    intro c _
    exact ⟨fun _ => rfl, fun p hp => absurd hp (List.not_mem_nil p)⟩
  | cons p rest ih =>
    obtain ⟨hwfp, hrest⟩ : (wellFormedPiece p ∧ ∀ c ∈ cells p, inGrid c) ∧
        ∀ q ∈ rest, wellFormedPiece q ∧ ∀ c ∈ cells q, inGrid c := by
      constructor
      · exact hwf p (List.mem_cons_self p rest)
      · intro q hq; exact hwf q (List.mem_cons_of_mem p hq)
    obtain ⟨hdp, hdrest⟩ := List.pairwise_cons.mp hdisj
    obtain ⟨g1, hw1, hs1, hp1⟩ := placePiece_spec acc p hg hwfp.1 hwfp.2
    obtain ⟨res, hres, hsres, hgcres, hcellres⟩ :=
      ih (g1, if p.is_goal = true then [p.coord_x, p.coord_y] else acc.2) hs1 hrest hdrest
    refine ⟨res, ?_, hsres, ?_, ?_⟩
    · rw [List.foldlM_cons, hw1]
      simpa using hres
    · rw [hgcres]
      simp [goalCoordsFold]
    · intro c hc
      obtain ⟨hunc, hcov⟩ := hcellres c hc
      constructor
      · intro hnone
        have h1 : ∀ q ∈ rest, c ∉ cells q := fun q hq =>
          hnone q (List.mem_cons_of_mem p hq)
        rw [hunc h1, hp1 c hc]
        have : ¬(c ∈ cells p) := hnone p (List.mem_cons_self p rest)
        simp [this]
      · intro q hq hcq
        rcases List.mem_cons.mp hq with rfl | hq2
        · have h1 : ∀ r ∈ rest, c ∉ cells r := by
            intro r hr
            exact fun hcr => (hdp r hr c hcq) hcr
          rw [hunc h1, hp1 c hc]
          simp [hcq]
        · exact hcov q hq2 hcq

/-- The tracking fold ignores non-goal pieces. -/
theorem goalCoordsFold_no_goal (ps : List Piece) (a : List ℤ)
    (h : ∀ q ∈ ps, ¬(q.is_goal = true)) : goalCoordsFold ps a = a := by
  induction ps generalizing a with
  | nil => rfl
  | cons p rest ih =>
    have hp : ¬(p.is_goal = true) := h p (List.mem_cons_self p rest)
    have hrest : ∀ q ∈ rest, ¬(q.is_goal = true) := fun q hq =>
      h q (List.mem_cons_of_mem p hq)
    unfold goalCoordsFold
    rw [List.foldl_cons]
    simp only [hp, if_false]
    exact ih a hrest

/-- With exactly one goal piece the tracking fold yields its corner. -/
theorem goalCoordsFold_unique (ps : List Piece) (a : List ℤ)
    (h : (ps.filter fun p => p.is_goal).length = 1) :
    ∃ gp ∈ ps, gp.is_goal = true ∧ goalCoordsFold ps a = [gp.coord_x, gp.coord_y] ∧
      ∀ q ∈ ps, q.is_goal = true → q = gp := by
  induction ps generalizing a with
  | nil => simp at h
  | cons p rest ih =>
    by_cases hpg : p.is_goal = true
    · have hrest : (rest.filter fun p => p.is_goal).length = 0 := by
        rw [List.filter_cons] at h
        simp only [hpg, if_true, List.length_cons] at h
        omega
      have hnog : ∀ q ∈ rest, ¬(q.is_goal = true) := by
        intro q hq hqg
        have hmem : q ∈ rest.filter fun p => p.is_goal :=
          List.mem_filter.mpr ⟨hq, by simp [hqg]⟩
        rw [List.length_eq_zero.mp hrest] at hmem
        exact List.not_mem_nil q hmem
      refine ⟨p, List.mem_cons_self p rest, hpg, ?_, ?_⟩
      · unfold goalCoordsFold
        rw [List.foldl_cons]
        simp only [hpg, if_true]
        exact goalCoordsFold_no_goal rest _ hnog
      · intro q hq hqg
        rcases List.mem_cons.mp hq with rfl | hq2
        · rfl
        · exact absurd hqg (hnog q hq2)
    · have hrest : (rest.filter fun p => p.is_goal).length = 1 := by
        rw [List.filter_cons] at h
        simp only [hpg] at h
        simpa using h
      obtain ⟨gp, hgp1, hgp2, hgp3, hgp4⟩ := ih a hrest
      refine ⟨gp, List.mem_cons_of_mem p hgp1, hgp2, ?_, ?_⟩
      · unfold goalCoordsFold
        rw [List.foldl_cons]
        simp only [hpg, if_false]
        exact hgp3
      · intro q hq hqg
        rcases List.mem_cons.mp hq with rfl | hq2
        · exact absurd hqg hpg
        · exact hgp4 q hq2 hqg

/-- The character written for any piece cell is never the empty marker. -/
theorem cellChar_ne_empty (p : Piece) (c : Cell) : cellChar p c ≠ char_empty := by
  unfold cellChar char_goal char_single char_empty
  split_ifs <;> decide

/-- `Board(pieces)` on an invariant-satisfying piece list: success and
full characterisation of the stored grid and goal coordinates. -/
theorem build_spec (ps : List Piece) (h : piecesOk ps) :
    ∃ b, Board.build ps = some b ∧ b.pieces = ps ∧ gridShape b.grid ∧
      (∃ gp ∈ ps, gp.is_goal = true ∧
        b.goal_piece_coordinates = [gp.coord_x, gp.coord_y] ∧
        ∀ q ∈ ps, q.is_goal = true → q = gp) ∧
      ∀ c : Cell, inGrid c →
        ((∀ p ∈ ps, c ∉ cells p) → cellAt b.grid c = some char_empty) ∧
        (∀ p ∈ ps, c ∈ cells p → cellAt b.grid c = some (cellChar p c)) := by
  obtain ⟨hwf, hdisj, hone⟩ := h
  obtain ⟨res, hres, hshape, hgc, hcell⟩ :=
    foldPlace_spec ps (emptyGrid, [0, 0]) gridShape_emptyGrid hwf hdisj
  obtain ⟨gp, hgp1, hgp2, hgp3, hgp4⟩ := goalCoordsFold_unique ps [0, 0] hone
  refine ⟨{ pieces := ps, grid := res.1, goal_piece_coordinates := res.2 }, ?_, rfl,
    hshape, ⟨gp, hgp1, hgp2, ?_, hgp4⟩, ?_⟩
  · unfold Board.build
    rw [hres]
    rfl
  · simpa [hgc] using hgp3
  · intro c hc
    obtain ⟨hunc, hcov⟩ := hcell c hc
    constructor
    · intro hnone
      rw [hunc hnone]
      exact cellAt_emptyGrid c hc
    · exact hcov

/-- A piece list accepted by `piecesOk` builds a `goodBoard`. -/
theorem build_good (ps : List Piece) (h : piecesOk ps) :
    ∃ b, Board.build ps = some b ∧ goodBoard b ∧ b.pieces = ps := by
  obtain ⟨b, hb, hbp, _⟩ := build_spec ps h
  exact ⟨b, hb, ⟨by rwa [hbp], by rwa [hbp]⟩, hbp⟩

theorem good_gridShape (b : Board) (h : goodBoard b) : gridShape b.grid := by
  obtain ⟨hok, hb⟩ := h
  obtain ⟨b2, hb2, _, hsh, _, _⟩ := build_spec b.pieces hok
  rw [hb, Option.some.injEq] at hb2
  rw [hb2]
  exact hsh

theorem good_cell_facts (b : Board) (h : goodBoard b) :
    ∀ c : Cell, inGrid c →
      ((∀ p ∈ b.pieces, c ∉ cells p) → cellAt b.grid c = some char_empty) ∧
      (∀ p ∈ b.pieces, c ∈ cells p → cellAt b.grid c = some (cellChar p c)) := by
  obtain ⟨hok, hb⟩ := h
  obtain ⟨b2, hb2, _, _, _, hcell⟩ := build_spec b.pieces hok
  rw [hb, Option.some.injEq] at hb2
  rw [← hb2] at hcell
  exact hcell

/-- The unique goal piece of a good board, with the cached coordinates. -/
theorem good_goal (b : Board) (h : goodBoard b) :
    ∃ gp ∈ b.pieces, gp.is_goal = true ∧
      b.goal_piece_coordinates = [gp.coord_x, gp.coord_y] ∧
      ∀ q ∈ b.pieces, q.is_goal = true → q = gp := by
  obtain ⟨hok, hb⟩ := h
  obtain ⟨b2, hb2, _, _, hgoal, _⟩ := build_spec b.pieces hok
  rw [hb, Option.some.injEq] at hb2
  rw [← hb2] at hgoal
  exact hgoal

/-- The central emptiness bridge: on a good board, a cell reads as the
empty marker exactly when no piece occupies it. -/
theorem good_cell_empty_iff (b : Board) (h : goodBoard b) (c : Cell) (hc : inGrid c) :
    cellAt b.grid c = some char_empty ↔ ∀ p ∈ b.pieces, c ∉ cells p := by
  obtain ⟨hunc, hcov⟩ := good_cell_facts b h c hc
  constructor
  · intro heq p hp hcp
    rw [hcov p hp hcp] at heq
    exact cellChar_ne_empty p c (Option.some.inj heq)
  · exact hunc

/-- On a good board, `check_valid_spot` tests exactly "in the grid and
occupied by no piece". -/
theorem check_valid_spot_iff (s : State) (h : goodBoard s.board) (x y : ℤ) :
    check_valid_spot s x y = true ↔
      inGrid (x, y) ∧ ∀ p ∈ s.board.pieces, (x, y) ∉ cells p := by
  unfold check_valid_spot Board.width Board.height
  by_cases hb : inGrid (x, y)
  · have hb2 : 0 ≤ x ∧ x < 4 ∧ 0 ≤ y ∧ y < 5 := hb
    rw [if_pos hb2]
    have : pyGet2 s.board.grid y x = cellAt s.board.grid (x, y) := rfl
    rw [this]
    rw [beq_iff_eq]
    rw [good_cell_empty_iff s.board h (x, y) hb]
    simp [hb]
  · have hb2 : ¬(0 ≤ x ∧ x < 4 ∧ 0 ≤ y ∧ y < 5) := hb
    rw [if_neg hb2]
    simp [hb]

/-- The top-left corner of a well-formed piece is among its cells. -/
theorem anchor_mem_cells (p : Piece) (h : wellFormedPiece p) :
    (p.coord_x, p.coord_y) ∈ cells p := by
  rcases h with ⟨h1, h2, h3⟩ | ⟨h1, h2, h3⟩ | ⟨h1, h2, h3⟩
  · simp [cells, h1]
  · simp [cells, h1, h2]
  · rcases h3 with h3 | h3 <;> simp [cells, h1, h2, h3]

/-- Good piece lists have pairwise distinct top-left corners. -/
theorem piecesOk_anchors (ps : List Piece) (h : piecesOk ps) :
    ps.Pairwise fun p q => ¬(p.coord_x = q.coord_x ∧ p.coord_y = q.coord_y) := by
  obtain ⟨hwf, hdisj, _⟩ := h
  have := hdisj
  refine List.Pairwise.imp_of_mem ?_ hdisj
  intro p q hp hq hcells ⟨hx, hy⟩
  have hmem : (p.coord_x, p.coord_y) ∈ cells p := anchor_mem_cells p (hwf p hp).1
  have hmem2 : (p.coord_x, p.coord_y) ∈ cells q := by
    rw [hx, hy]
    exact anchor_mem_cells q (hwf q hq).1
  exact hcells _ hmem hmem2

/-- Good piece lists contain no duplicate piece. -/
theorem piecesOk_nodup (ps : List Piece) (h : piecesOk ps) : ps.Nodup := by
  have hanch := piecesOk_anchors ps h
  refine List.Pairwise.imp ?_ hanch
  intro p q hne heq
  rw [heq] at hne
  exact hne ⟨rfl, rfl⟩

theorem map_replace_not_mem (l : List Piece) (p : Piece) (x : Piece)
    (h : p ∉ l) : (l.map fun q => if q = p then x else q) = l := by
  induction l with
  | nil => rfl
  | cons a rest ih =>
    have ha : ¬(a = p) := fun heq => h (heq ▸ List.mem_cons_self a rest)
    have hrest : p ∉ rest := fun hm => h (List.mem_cons_of_mem a hm)
    simp only [List.map_cons, if_neg ha, ih hrest]

/-- On a good piece list, the first-anchor-match loop of `get_new_state`
replaces exactly the requested piece. -/
theorem movePieceList_eq (ps : List Piece) (h : piecesOk ps) (p : Piece)
    (hp : p ∈ ps) (direction : String) :
    movePieceList ps p.coord_x p.coord_y direction =
      ps.map fun q => if q = p then movePiece p direction else q := by
  have hanch := piecesOk_anchors ps h
  have hnd := piecesOk_nodup ps h
  clear h
  induction ps with
  | nil => rfl
  | cons a rest ih =>
    rcases List.mem_cons.mp hp with heq | hp2
    · rw [heq]
      have hrest : a ∉ rest := (List.nodup_cons.mp hnd).1
      unfold movePieceList
      rw [if_pos ⟨rfl, rfl⟩]
      simp only [List.map_cons, if_pos rfl]
      rw [map_replace_not_mem rest a _ hrest]
      simp
    · have hane : ¬(a.coord_x = p.coord_x ∧ a.coord_y = p.coord_y) :=
        (List.pairwise_cons.mp hanch).1 p hp2
      have hanep : ¬(a = p) := fun heq => hane (heq ▸ ⟨rfl, rfl⟩)
      unfold movePieceList
      rw [if_neg hane]
      simp only [List.map_cons, if_neg hanep]
      rw [ih hp2 (List.pairwise_cons.mp hanch).2 (List.nodup_cons.mp hnd).2]

theorem movePiece_up (p : Piece) : movePiece p "up" = { p with coord_y := p.coord_y - 1 } := by
  unfold movePiece
  rw [if_neg (by decide), if_neg (by decide), if_pos rfl]

theorem movePiece_down (p : Piece) : movePiece p "down" = { p with coord_y := p.coord_y + 1 } := by
  unfold movePiece
  rw [if_neg (by decide), if_neg (by decide), if_neg (by decide)]

theorem movePiece_left (p : Piece) : movePiece p "left" = { p with coord_x := p.coord_x - 1 } := by
  unfold movePiece
  rw [if_pos rfl]

theorem movePiece_right (p : Piece) : movePiece p "right" = { p with coord_x := p.coord_x + 1 } := by
  unfold movePiece
  rw [if_neg (by decide), if_pos rfl]

/-- Moving a piece changes only its coordinates. -/
theorem movePiece_kind (p : Piece) (direction : String) :
    (movePiece p direction).is_goal = p.is_goal ∧
    (movePiece p direction).is_single = p.is_single ∧
    (movePiece p direction).orientation = p.orientation := by
  unfold movePiece
  split_ifs <;> exact ⟨rfl, rfl, rfl⟩

theorem newCells_goal_up (p : Piece) (h : p.is_goal = true) :
    newCells p "up" = [(p.coord_x, p.coord_y - 1), (p.coord_x + 1, p.coord_y - 1)] := by
  unfold newCells
  rw [movePiece_up]
  have hc : cells { p with coord_y := p.coord_y - 1 } = [(p.coord_x, p.coord_y - 1), (p.coord_x + 1, p.coord_y - 1), (p.coord_x, p.coord_y), (p.coord_x + 1, p.coord_y)] := by
    simp [cells, h]
  rw [hc]
  rw [List.filter_cons]
  rw [if_pos (by simp [cells, h, Prod.ext_iff] <;> omega)]
  rw [List.filter_cons]
  rw [if_pos (by simp [cells, h, Prod.ext_iff] <;> omega)]
  rw [List.filter_cons]
  rw [if_neg (by simp [cells, h, Prod.ext_iff] <;> omega)]
  rw [List.filter_cons]
  rw [if_neg (by simp [cells, h, Prod.ext_iff] <;> omega)]
  rw [List.filter_nil]

theorem newCells_goal_down (p : Piece) (h : p.is_goal = true) :
    newCells p "down" = [(p.coord_x, p.coord_y + 2), (p.coord_x + 1, p.coord_y + 2)] := by
  unfold newCells
  rw [movePiece_down]
  have hc : cells { p with coord_y := p.coord_y + 1 } = [(p.coord_x, p.coord_y + 1), (p.coord_x + 1, p.coord_y + 1), (p.coord_x, p.coord_y + 1 + 1), (p.coord_x + 1, p.coord_y + 1 + 1)] := by
    simp [cells, h]
  rw [hc]
  rw [List.filter_cons]
  rw [if_neg (by simp [cells, h, Prod.ext_iff] <;> omega)]
  rw [List.filter_cons]
  rw [if_neg (by simp [cells, h, Prod.ext_iff] <;> omega)]
  rw [List.filter_cons]
  rw [if_pos (by simp [cells, h, Prod.ext_iff] <;> omega)]
  rw [List.filter_cons]
  rw [if_pos (by simp [cells, h, Prod.ext_iff] <;> omega)]
  rw [List.filter_nil]
  simp only [List.cons.injEq, Prod.mk.injEq, and_true, true_and]
  omega

theorem newCells_goal_left (p : Piece) (h : p.is_goal = true) :
    newCells p "left" = [(p.coord_x - 1, p.coord_y), (p.coord_x - 1, p.coord_y + 1)] := by
  unfold newCells
  rw [movePiece_left]
  have hc : cells { p with coord_x := p.coord_x - 1 } = [(p.coord_x - 1, p.coord_y), (p.coord_x, p.coord_y), (p.coord_x - 1, p.coord_y + 1), (p.coord_x, p.coord_y + 1)] := by
    simp [cells, h]
  rw [hc]
  rw [List.filter_cons]
  rw [if_pos (by simp [cells, h, Prod.ext_iff] <;> omega)]
  rw [List.filter_cons]
  rw [if_neg (by simp [cells, h, Prod.ext_iff] <;> omega)]
  rw [List.filter_cons]
  rw [if_pos (by simp [cells, h, Prod.ext_iff] <;> omega)]
  rw [List.filter_cons]
  rw [if_neg (by simp [cells, h, Prod.ext_iff] <;> omega)]
  rw [List.filter_nil]

theorem newCells_goal_right (p : Piece) (h : p.is_goal = true) :
    newCells p "right" = [(p.coord_x + 2, p.coord_y), (p.coord_x + 2, p.coord_y + 1)] := by
  unfold newCells
  rw [movePiece_right]
  have hc : cells { p with coord_x := p.coord_x + 1 } = [(p.coord_x + 1, p.coord_y), (p.coord_x + 1 + 1, p.coord_y), (p.coord_x + 1, p.coord_y + 1), (p.coord_x + 1 + 1, p.coord_y + 1)] := by
    simp [cells, h]
  rw [hc]
  rw [List.filter_cons]
  rw [if_neg (by simp [cells, h, Prod.ext_iff] <;> omega)]
  rw [List.filter_cons]
  rw [if_pos (by simp [cells, h, Prod.ext_iff] <;> omega)]
  rw [List.filter_cons]
  rw [if_neg (by simp [cells, h, Prod.ext_iff] <;> omega)]
  rw [List.filter_cons]
  rw [if_pos (by simp [cells, h, Prod.ext_iff] <;> omega)]
  rw [List.filter_nil]
  simp only [List.cons.injEq, Prod.mk.injEq, and_true, true_and]
  omega

theorem newCells_single_up (p : Piece) (h1 : p.is_goal = false) (h2 : p.is_single = true) :
    newCells p "up" = [(p.coord_x, p.coord_y - 1)] := by
  unfold newCells
  rw [movePiece_up]
  have hc : cells { p with coord_y := p.coord_y - 1 } = [(p.coord_x, p.coord_y - 1)] := by
    simp [cells, h1, h2]
  rw [hc]
  rw [List.filter_cons]
  rw [if_pos (by simp [cells, h1, h2, Prod.ext_iff] <;> omega)]
  rw [List.filter_nil]

theorem newCells_single_down (p : Piece) (h1 : p.is_goal = false) (h2 : p.is_single = true) :
    newCells p "down" = [(p.coord_x, p.coord_y + 1)] := by
  unfold newCells
  rw [movePiece_down]
  have hc : cells { p with coord_y := p.coord_y + 1 } = [(p.coord_x, p.coord_y + 1)] := by
    simp [cells, h1, h2]
  rw [hc]
  rw [List.filter_cons]
  rw [if_pos (by simp [cells, h1, h2, Prod.ext_iff] <;> omega)]
  rw [List.filter_nil]

theorem newCells_single_left (p : Piece) (h1 : p.is_goal = false) (h2 : p.is_single = true) :
    newCells p "left" = [(p.coord_x - 1, p.coord_y)] := by
  unfold newCells
  rw [movePiece_left]
  have hc : cells { p with coord_x := p.coord_x - 1 } = [(p.coord_x - 1, p.coord_y)] := by
    simp [cells, h1, h2]
  rw [hc]
  rw [List.filter_cons]
  rw [if_pos (by simp [cells, h1, h2, Prod.ext_iff] <;> omega)]
  rw [List.filter_nil]

theorem newCells_single_right (p : Piece) (h1 : p.is_goal = false) (h2 : p.is_single = true) :
    newCells p "right" = [(p.coord_x + 1, p.coord_y)] := by
  unfold newCells
  rw [movePiece_right]
  have hc : cells { p with coord_x := p.coord_x + 1 } = [(p.coord_x + 1, p.coord_y)] := by
    simp [cells, h1, h2]
  rw [hc]
  rw [List.filter_cons]
  rw [if_pos (by simp [cells, h1, h2, Prod.ext_iff] <;> omega)]
  rw [List.filter_nil]

theorem newCells_hor_up (p : Piece) (h1 : p.is_goal = false) (h2 : p.is_single = false)
    (h3 : p.orientation = some 'h') :
    newCells p "up" = [(p.coord_x, p.coord_y - 1), (p.coord_x + 1, p.coord_y - 1)] := by
  unfold newCells
  rw [movePiece_up]
  have hc : cells { p with coord_y := p.coord_y - 1 } = [(p.coord_x, p.coord_y - 1), (p.coord_x + 1, p.coord_y - 1)] := by
    simp [cells, h1, h2, h3]
  rw [hc]
  rw [List.filter_cons]
  rw [if_pos (by simp [cells, h1, h2, h3, Prod.ext_iff] <;> omega)]
  rw [List.filter_cons]
  rw [if_pos (by simp [cells, h1, h2, h3, Prod.ext_iff] <;> omega)]
  rw [List.filter_nil]

theorem newCells_hor_down (p : Piece) (h1 : p.is_goal = false) (h2 : p.is_single = false)
    (h3 : p.orientation = some 'h') :
    newCells p "down" = [(p.coord_x, p.coord_y + 1), (p.coord_x + 1, p.coord_y + 1)] := by
  unfold newCells
  rw [movePiece_down]
  have hc : cells { p with coord_y := p.coord_y + 1 } = [(p.coord_x, p.coord_y + 1), (p.coord_x + 1, p.coord_y + 1)] := by
    simp [cells, h1, h2, h3]
  rw [hc]
  rw [List.filter_cons]
  rw [if_pos (by simp [cells, h1, h2, h3, Prod.ext_iff] <;> omega)]
  rw [List.filter_cons]
  rw [if_pos (by simp [cells, h1, h2, h3, Prod.ext_iff] <;> omega)]
  rw [List.filter_nil]

theorem newCells_hor_left (p : Piece) (h1 : p.is_goal = false) (h2 : p.is_single = false)
    (h3 : p.orientation = some 'h') :
    newCells p "left" = [(p.coord_x - 1, p.coord_y)] := by
  unfold newCells
  rw [movePiece_left]
  have hc : cells { p with coord_x := p.coord_x - 1 } = [(p.coord_x - 1, p.coord_y), (p.coord_x, p.coord_y)] := by
    simp [cells, h1, h2, h3]
  rw [hc]
  rw [List.filter_cons]
  rw [if_pos (by simp [cells, h1, h2, h3, Prod.ext_iff] <;> omega)]
  rw [List.filter_cons]
  rw [if_neg (by simp [cells, h1, h2, h3, Prod.ext_iff] <;> omega)]
  rw [List.filter_nil]

theorem newCells_hor_right (p : Piece) (h1 : p.is_goal = false) (h2 : p.is_single = false)
    (h3 : p.orientation = some 'h') :
    newCells p "right" = [(p.coord_x + 2, p.coord_y)] := by
  unfold newCells
  rw [movePiece_right]
  have hc : cells { p with coord_x := p.coord_x + 1 } = [(p.coord_x + 1, p.coord_y), (p.coord_x + 1 + 1, p.coord_y)] := by
    simp [cells, h1, h2, h3]
  rw [hc]
  rw [List.filter_cons]
  rw [if_neg (by simp [cells, h1, h2, h3, Prod.ext_iff] <;> omega)]
  rw [List.filter_cons]
  rw [if_pos (by simp [cells, h1, h2, h3, Prod.ext_iff] <;> omega)]
  rw [List.filter_nil]
  simp only [List.cons.injEq, Prod.mk.injEq, and_true, true_and]
  omega

theorem newCells_ver_up (p : Piece) (h1 : p.is_goal = false) (h2 : p.is_single = false)
    (h3 : p.orientation = some 'v') :
    newCells p "up" = [(p.coord_x, p.coord_y - 1)] := by
  unfold newCells
  rw [movePiece_up]
  have hc : cells { p with coord_y := p.coord_y - 1 } = [(p.coord_x, p.coord_y - 1), (p.coord_x, p.coord_y)] := by
    simp [cells, h1, h2, h3]
  rw [hc]
  rw [List.filter_cons]
  rw [if_pos (by simp [cells, h1, h2, h3, Prod.ext_iff] <;> omega)]
  rw [List.filter_cons]
  rw [if_neg (by simp [cells, h1, h2, h3, Prod.ext_iff] <;> omega)]
  rw [List.filter_nil]

theorem newCells_ver_down (p : Piece) (h1 : p.is_goal = false) (h2 : p.is_single = false)
    (h3 : p.orientation = some 'v') :
    newCells p "down" = [(p.coord_x, p.coord_y + 2)] := by
  unfold newCells
  rw [movePiece_down]
  have hc : cells { p with coord_y := p.coord_y + 1 } = [(p.coord_x, p.coord_y + 1), (p.coord_x, p.coord_y + 1 + 1)] := by
    simp [cells, h1, h2, h3]
  rw [hc]
  rw [List.filter_cons]
  rw [if_neg (by simp [cells, h1, h2, h3, Prod.ext_iff] <;> omega)]
  rw [List.filter_cons]
  rw [if_pos (by simp [cells, h1, h2, h3, Prod.ext_iff] <;> omega)]
  rw [List.filter_nil]
  simp only [List.cons.injEq, Prod.mk.injEq, and_true, true_and]
  omega

theorem newCells_ver_left (p : Piece) (h1 : p.is_goal = false) (h2 : p.is_single = false)
    (h3 : p.orientation = some 'v') :
    newCells p "left" = [(p.coord_x - 1, p.coord_y), (p.coord_x - 1, p.coord_y + 1)] := by
  unfold newCells
  rw [movePiece_left]
  have hc : cells { p with coord_x := p.coord_x - 1 } = [(p.coord_x - 1, p.coord_y), (p.coord_x - 1, p.coord_y + 1)] := by
    simp [cells, h1, h2, h3]
  rw [hc]
  rw [List.filter_cons]
  rw [if_pos (by simp [cells, h1, h2, h3, Prod.ext_iff] <;> omega)]
  rw [List.filter_cons]
  rw [if_pos (by simp [cells, h1, h2, h3, Prod.ext_iff] <;> omega)]
  rw [List.filter_nil]

theorem newCells_ver_right (p : Piece) (h1 : p.is_goal = false) (h2 : p.is_single = false)
    (h3 : p.orientation = some 'v') :
    newCells p "right" = [(p.coord_x + 1, p.coord_y), (p.coord_x + 1, p.coord_y + 1)] := by
  unfold newCells
  rw [movePiece_right]
  have hc : cells { p with coord_x := p.coord_x + 1 } = [(p.coord_x + 1, p.coord_y), (p.coord_x + 1, p.coord_y + 1)] := by
    simp [cells, h1, h2, h3]
  rw [hc]
  rw [List.filter_cons]
  rw [if_pos (by simp [cells, h1, h2, h3, Prod.ext_iff] <;> omega)]
  rw [List.filter_cons]
  rw [if_pos (by simp [cells, h1, h2, h3, Prod.ext_iff] <;> omega)]
  rw [List.filter_nil]

/-- Every cell of a moved piece is an old cell or a required destination
cell. -/
theorem cells_movePiece_subset (p : Piece) (direction : String) (c : Cell)
    (hc : c ∈ cells (movePiece p direction)) :
    c ∈ cells p ∨ c ∈ newCells p direction := by
  by_cases hm : c ∈ cells p
  · exact Or.inl hm
  · right
    unfold newCells
    rw [List.mem_filter]
    exact ⟨hc, by simpa using hm⟩

/-- Sliding a piece to a legal spot preserves all placement invariants. -/
theorem slide_piecesOk (ps : List Piece) (h : piecesOk ps) (p : Piece)
    (hp : p ∈ ps) (direction : String)
    (hok : ∀ c ∈ newCells p direction, inGrid c ∧ ∀ q ∈ ps, c ∉ cells q) :
    piecesOk (ps.map fun q => if q = p then movePiece p direction else q) := by
  obtain ⟨hwf, hdisj, hone⟩ := h
  have hknd := movePiece_kind p direction
  have hwfm : wellFormedPiece (movePiece p direction) := by
    have := (hwf p hp).1
    unfold wellFormedPiece at this ⊢
    rw [hknd.1, hknd.2.1, hknd.2.2]
    exact this
  refine ⟨?_, ?_, ?_⟩
  · intro q hq
    rw [List.mem_map] at hq
    obtain ⟨q0, hq0, hq0e⟩ := hq
    by_cases he : q0 = p
    · rw [he, if_pos rfl] at hq0e
      refine hq0e ▸ ⟨hwfm, ?_⟩
      intro c hc
      rcases cells_movePiece_subset p direction c hc with hcp | hcn
      · exact (hwf p hp).2 c hcp
      · exact (hok c hcn).1
    · rw [if_neg he] at hq0e
      exact hq0e ▸ hwf q0 hq0
  · rw [List.pairwise_map]
    have hnd := piecesOk_nodup ps ⟨hwf, hdisj, hone⟩
    have hcomb : ps.Pairwise fun q r =>
        (∀ c ∈ cells q, c ∉ cells r) ∧ q ≠ r := hdisj.and hnd
    refine List.Pairwise.imp_of_mem ?_ hcomb
    intro q r hq hr ⟨hqr, hne⟩
    intro c hcq hcr
    by_cases heq : q = p
    · have hner : ¬(r = p) := fun hrp => hne (heq.trans hrp.symm)
      rw [if_pos heq] at hcq
      rw [if_neg hner] at hcr
      rcases cells_movePiece_subset p direction c hcq with hcp | hcn
      · exact (heq ▸ hqr) c hcp hcr
      · exact (hok c hcn).2 r hr hcr
    · rw [if_neg heq] at hcq
      by_cases her : r = p
      · rw [if_pos her] at hcr
        rcases cells_movePiece_subset p direction c hcr with hcp | hcn
        · exact (her ▸ hqr) c hcq hcp
        · exact (hok c hcn).2 q hq hcq
      · rw [if_neg her] at hcr
        exact hqr c hcq hcr
  · rw [← hone]
    rw [← List.countP_eq_length_filter, ← List.countP_eq_length_filter, List.countP_map]
    apply List.countP_congr
    intro q hq
    by_cases he : q = p
    · simp [he, hknd.1]
    · simp only [Function.comp_apply, if_neg he]

/-- `get_new_state` on a legal slide: builds exactly the slid board and
wraps it with depth `+1`, recomputed `f`, and the parent link. -/
theorem get_new_state_spec (s : State) (hb : goodBoard s.board) (p : Piece)
    (hp : p ∈ s.board.pieces) (direction : String)
    (hok : slideOk s.board p direction) :
    ∃ b2, slideBoard s.board p direction = some b2 ∧ goodBoard b2 ∧
      b2.pieces = (s.board.pieces.map fun q => if q = p then movePiece p direction else q) ∧
      get_new_state s p.coord_x p.coord_y direction =
        some (State.mk b2 (s.depth + 1 + manhattan_distance b2) (s.depth + 1) (some s)) := by
  have hmoved : piecesOk (s.board.pieces.map fun q => if q = p then movePiece p direction else q) :=
    slide_piecesOk s.board.pieces hb.1 p hp direction hok
  obtain ⟨b2, hbuild, hgood, hpieces⟩ := build_good _ hmoved
  refine ⟨b2, hbuild, hgood, hpieces, ?_⟩
  unfold get_new_state
  rw [movePieceList_eq s.board.pieces hb.1 p hp direction, hbuild]
  rfl

theorem ite_cons_append {α : Type} (c : Prop) [Decidable c] (a : α) (l : List α) :
    (if c then a :: l else l) = (if c then [a] else []) ++ l := by
  split_ifs <;> simp

/-- One guarded `tryDir` call, for a guard equivalent to spec legality. -/
theorem tryDir_spec (s : State) (hb : goodBoard s.board) (p : Piece)
    (hp : p ∈ s.board.pieces) (direction : String) (cond : Bool)
    (hcond : cond = true ↔ slideOk s.board p direction) :
    ∃ u, tryDir s p cond direction = some u ∧
      u.map State.board =
        ((if decide (slideOk s.board p direction) = true then [direction] else []).filterMap
          (slideBoard s.board p)) ∧
      ∀ t ∈ u, ∃ b2, goodBoard b2 ∧ slideBoard s.board p direction = some b2 ∧
        t = State.mk b2 (s.depth + 1 + manhattan_distance b2) (s.depth + 1) (some s) := by
  by_cases hok : slideOk s.board p direction
  · obtain ⟨b2, hsb, hgood, _, hgns⟩ := get_new_state_spec s hb p hp direction hok
    have hct : cond = true := hcond.mpr hok
    refine ⟨[State.mk b2 (s.depth + 1 + manhattan_distance b2) (s.depth + 1) (some s)],
      ?_, ?_, ?_⟩
    · unfold tryDir
      rw [hct, if_pos rfl, hgns]
      rfl
    · have hd : decide (slideOk s.board p direction) = true := decide_eq_true hok
      rw [if_pos hd]
      simp only [List.map_cons, List.map_nil, List.filterMap_cons, hsb, List.filterMap_nil]
      rfl
    · intro t ht
      rw [List.mem_singleton] at ht
      exact ⟨b2, hgood, hsb, ht⟩
  · have hcf : cond = false := by
      cases hcb : cond with
      | false => rfl
      | true => exact absurd (hcond.mp hcb) hok
    refine ⟨[], ?_, ?_, ?_⟩
    · unfold tryDir
      rw [hcf]
      simp
    · simp [hok]
    · intro t ht
      exact absurd ht (List.not_mem_nil t)

/-- Splitting the spec-side enumeration of one piece into its four
direction summands. -/
theorem slideBoardsOfPiece_eq (b : Board) (p : Piece) :
    slideBoardsOfPiece b p =
      ((if decide (slideOk b p "up") = true then ["up"] else []).filterMap (slideBoard b p)) ++
      ((if decide (slideOk b p "down") = true then ["down"] else []).filterMap (slideBoard b p)) ++
      ((if decide (slideOk b p "left") = true then ["left"] else []).filterMap (slideBoard b p)) ++
      ((if decide (slideOk b p "right") = true then ["right"] else []).filterMap (slideBoard b p)) := by
  have hfil : List.filter (fun d => decide (slideOk b p d)) slideDirs =
      (if decide (slideOk b p "up") = true then ["up"] else []) ++
      (if decide (slideOk b p "down") = true then ["down"] else []) ++
      (if decide (slideOk b p "left") = true then ["left"] else []) ++
      (if decide (slideOk b p "right") = true then ["right"] else []) := by
    unfold slideDirs
    split_ifs <;> simp_all [List.filter_cons]
  unfold slideBoardsOfPiece
  rw [hfil]
  simp only [List.filterMap_append, List.append_assoc]

theorem pieceMoves_goal (s : State) (hb : goodBoard s.board) (p : Piece)
    (hp : p ∈ s.board.pieces) (h : p.is_goal = true) :
    ∃ L, pieceMoves s p = some L ∧
      L.map State.board = slideBoardsOfPiece s.board p ∧
      ∀ t ∈ L, ∃ b2, goodBoard b2 ∧
        t = State.mk b2 (s.depth + 1 + manhattan_distance b2) (s.depth + 1) (some s) := by
  have hgu : (check_valid_spot s (p.coord_x) (p.coord_y - 1) && check_valid_spot s (p.coord_x + 1) (p.coord_y - 1)) = true ↔ slideOk s.board p "up" := by
    rw [Bool.and_eq_true, check_valid_spot_iff s hb, check_valid_spot_iff s hb]
    unfold slideOk
    rw [newCells_goal_up p h]
    simp only [List.forall_mem_cons, List.forall_mem_singleton]
    tauto
  have hgd : (check_valid_spot s (p.coord_x) (p.coord_y + 2) && check_valid_spot s (p.coord_x + 1) (p.coord_y + 2)) = true ↔ slideOk s.board p "down" := by
    rw [Bool.and_eq_true, check_valid_spot_iff s hb, check_valid_spot_iff s hb]
    unfold slideOk
    rw [newCells_goal_down p h]
    simp only [List.forall_mem_cons, List.forall_mem_singleton]
    tauto
  have hgl : (check_valid_spot s (p.coord_x - 1) (p.coord_y) && check_valid_spot s (p.coord_x - 1) (p.coord_y + 1)) = true ↔ slideOk s.board p "left" := by
    rw [Bool.and_eq_true, check_valid_spot_iff s hb, check_valid_spot_iff s hb]
    unfold slideOk
    rw [newCells_goal_left p h]
    simp only [List.forall_mem_cons, List.forall_mem_singleton]
    tauto
  have hgr : (check_valid_spot s (p.coord_x + 2) (p.coord_y) && check_valid_spot s (p.coord_x + 2) (p.coord_y + 1)) = true ↔ slideOk s.board p "right" := by
    rw [Bool.and_eq_true, check_valid_spot_iff s hb, check_valid_spot_iff s hb]
    unfold slideOk
    rw [newCells_goal_right p h]
    simp only [List.forall_mem_cons, List.forall_mem_singleton]
    tauto
  obtain ⟨u, hu, hmu, hfu⟩ := tryDir_spec s hb p hp "up" _ hgu
  obtain ⟨v, hv, hmv, hfv⟩ := tryDir_spec s hb p hp "down" _ hgd
  obtain ⟨w, hw, hmw, hfw⟩ := tryDir_spec s hb p hp "left" _ hgl
  obtain ⟨r, hr, hmr, hfr⟩ := tryDir_spec s hb p hp "right" _ hgr
  refine ⟨u ++ v ++ w ++ r, ?_, ?_, ?_⟩
  · simp only [pieceMoves, h, eq_self_iff_true, if_true]
    rw [hu]
    simp only [Option.bind_eq_bind, Option.some_bind]
    rw [hv]
    simp only [Option.bind_eq_bind, Option.some_bind]
    rw [hw]
    simp only [Option.bind_eq_bind, Option.some_bind]
    rw [hr]
    simp only [Option.bind_eq_bind, Option.some_bind]
    rfl
  · rw [List.map_append, List.map_append, List.map_append, hmu, hmv, hmw, hmr,
      slideBoardsOfPiece_eq]
  · intro t ht
    rcases List.mem_append.mp ht with ht2 | htr
    · rcases List.mem_append.mp ht2 with ht3 | htw
      · rcases List.mem_append.mp ht3 with htu | htv
        · obtain ⟨b2, hgb, _, hte⟩ := hfu t htu
          exact ⟨b2, hgb, hte⟩
        · obtain ⟨b2, hgb, _, hte⟩ := hfv t htv
          exact ⟨b2, hgb, hte⟩
      · obtain ⟨b2, hgb, _, hte⟩ := hfw t htw
        exact ⟨b2, hgb, hte⟩
    · obtain ⟨b2, hgb, _, hte⟩ := hfr t htr
      exact ⟨b2, hgb, hte⟩

theorem pieceMoves_hor (s : State) (hb : goodBoard s.board) (p : Piece)
    (hp : p ∈ s.board.pieces) (h1 : p.is_goal = false) (h2 : p.is_single = false)
    (h3 : p.orientation = some 'h') :
    ∃ L, pieceMoves s p = some L ∧
      L.map State.board = slideBoardsOfPiece s.board p ∧
      ∀ t ∈ L, ∃ b2, goodBoard b2 ∧
        t = State.mk b2 (s.depth + 1 + manhattan_distance b2) (s.depth + 1) (some s) := by
  have hgu : (check_valid_spot s (p.coord_x) (p.coord_y - 1) && check_valid_spot s (p.coord_x + 1) (p.coord_y - 1)) = true ↔ slideOk s.board p "up" := by
    rw [Bool.and_eq_true, check_valid_spot_iff s hb, check_valid_spot_iff s hb]
    unfold slideOk
    rw [newCells_hor_up p h1 h2 h3]
    simp only [List.forall_mem_cons, List.forall_mem_singleton]
    tauto
  have hgd : (check_valid_spot s (p.coord_x) (p.coord_y + 1) && check_valid_spot s (p.coord_x + 1) (p.coord_y + 1)) = true ↔ slideOk s.board p "down" := by
    rw [Bool.and_eq_true, check_valid_spot_iff s hb, check_valid_spot_iff s hb]
    unfold slideOk
    rw [newCells_hor_down p h1 h2 h3]
    simp only [List.forall_mem_cons, List.forall_mem_singleton]
    tauto
  have hgl : (check_valid_spot s (p.coord_x - 1) (p.coord_y)) = true ↔ slideOk s.board p "left" := by
    rw [check_valid_spot_iff s hb]
    unfold slideOk
    rw [newCells_hor_left p h1 h2 h3]
    simp only [List.forall_mem_singleton]
  have hgr : (check_valid_spot s (p.coord_x + 2) (p.coord_y)) = true ↔ slideOk s.board p "right" := by
    rw [check_valid_spot_iff s hb]
    unfold slideOk
    rw [newCells_hor_right p h1 h2 h3]
    simp only [List.forall_mem_singleton]
  obtain ⟨u, hu, hmu, hfu⟩ := tryDir_spec s hb p hp "up" _ hgu
  obtain ⟨v, hv, hmv, hfv⟩ := tryDir_spec s hb p hp "down" _ hgd
  obtain ⟨w, hw, hmw, hfw⟩ := tryDir_spec s hb p hp "left" _ hgl
  obtain ⟨r, hr, hmr, hfr⟩ := tryDir_spec s hb p hp "right" _ hgr
  refine ⟨u ++ v ++ w ++ r, ?_, ?_, ?_⟩
  · simp only [pieceMoves, h1, h3, Bool.false_eq_true, if_false, eq_self_iff_true, if_true]
    rw [hu]
    simp only [Option.bind_eq_bind, Option.some_bind]
    rw [hv]
    simp only [Option.bind_eq_bind, Option.some_bind]
    rw [hw]
    simp only [Option.bind_eq_bind, Option.some_bind]
    rw [hr]
    simp only [Option.bind_eq_bind, Option.some_bind]
    rfl
  · rw [List.map_append, List.map_append, List.map_append, hmu, hmv, hmw, hmr,
      slideBoardsOfPiece_eq]
  · intro t ht
    rcases List.mem_append.mp ht with ht2 | htr
    · rcases List.mem_append.mp ht2 with ht3 | htw
      · rcases List.mem_append.mp ht3 with htu | htv
        · obtain ⟨b2, hgb, _, hte⟩ := hfu t htu
          exact ⟨b2, hgb, hte⟩
        · obtain ⟨b2, hgb, _, hte⟩ := hfv t htv
          exact ⟨b2, hgb, hte⟩
      · obtain ⟨b2, hgb, _, hte⟩ := hfw t htw
        exact ⟨b2, hgb, hte⟩
    · obtain ⟨b2, hgb, _, hte⟩ := hfr t htr
      exact ⟨b2, hgb, hte⟩

theorem pieceMoves_ver (s : State) (hb : goodBoard s.board) (p : Piece)
    (hp : p ∈ s.board.pieces) (h1 : p.is_goal = false) (h2 : p.is_single = false)
    (h3 : p.orientation = some 'v') :
    ∃ L, pieceMoves s p = some L ∧
      L.map State.board = slideBoardsOfPiece s.board p ∧
      ∀ t ∈ L, ∃ b2, goodBoard b2 ∧
        t = State.mk b2 (s.depth + 1 + manhattan_distance b2) (s.depth + 1) (some s) := by
  have hgu : (check_valid_spot s (p.coord_x) (p.coord_y - 1)) = true ↔ slideOk s.board p "up" := by
    rw [check_valid_spot_iff s hb]
    unfold slideOk
    rw [newCells_ver_up p h1 h2 h3]
    simp only [List.forall_mem_singleton]
  have hgd : (check_valid_spot s (p.coord_x) (p.coord_y + 2)) = true ↔ slideOk s.board p "down" := by
    rw [check_valid_spot_iff s hb]
    unfold slideOk
    rw [newCells_ver_down p h1 h2 h3]
    simp only [List.forall_mem_singleton]
  have hgl : (check_valid_spot s (p.coord_x - 1) (p.coord_y) && check_valid_spot s (p.coord_x - 1) (p.coord_y + 1)) = true ↔ slideOk s.board p "left" := by
    rw [Bool.and_eq_true, check_valid_spot_iff s hb, check_valid_spot_iff s hb]
    unfold slideOk
    rw [newCells_ver_left p h1 h2 h3]
    simp only [List.forall_mem_cons, List.forall_mem_singleton]
    tauto
  have hgr : (check_valid_spot s (p.coord_x + 1) (p.coord_y) && check_valid_spot s (p.coord_x + 1) (p.coord_y + 1)) = true ↔ slideOk s.board p "right" := by
    rw [Bool.and_eq_true, check_valid_spot_iff s hb, check_valid_spot_iff s hb]
    unfold slideOk
    rw [newCells_ver_right p h1 h2 h3]
    simp only [List.forall_mem_cons, List.forall_mem_singleton]
    tauto
  obtain ⟨u, hu, hmu, hfu⟩ := tryDir_spec s hb p hp "up" _ hgu
  obtain ⟨v, hv, hmv, hfv⟩ := tryDir_spec s hb p hp "down" _ hgd
  obtain ⟨w, hw, hmw, hfw⟩ := tryDir_spec s hb p hp "left" _ hgl
  obtain ⟨r, hr, hmr, hfr⟩ := tryDir_spec s hb p hp "right" _ hgr
  refine ⟨u ++ v ++ w ++ r, ?_, ?_, ?_⟩
  · have hvh : ¬(p.orientation = some 'h') := by rw [h3]; decide
    simp only [pieceMoves, h1, h3, hvh, Bool.false_eq_true, if_false, eq_self_iff_true, if_true]
    rw [hu]
    simp only [Option.bind_eq_bind, Option.some_bind]
    rw [hv]
    simp only [Option.bind_eq_bind, Option.some_bind]
    rw [hw]
    simp only [Option.bind_eq_bind, Option.some_bind]
    rw [hr]
    simp only [Option.bind_eq_bind, Option.some_bind]
    rfl
  · rw [List.map_append, List.map_append, List.map_append, hmu, hmv, hmw, hmr,
      slideBoardsOfPiece_eq]
  · intro t ht
    rcases List.mem_append.mp ht with ht2 | htr
    · rcases List.mem_append.mp ht2 with ht3 | htw
      · rcases List.mem_append.mp ht3 with htu | htv
        · obtain ⟨b2, hgb, _, hte⟩ := hfu t htu
          exact ⟨b2, hgb, hte⟩
        · obtain ⟨b2, hgb, _, hte⟩ := hfv t htv
          exact ⟨b2, hgb, hte⟩
      · obtain ⟨b2, hgb, _, hte⟩ := hfw t htw
        exact ⟨b2, hgb, hte⟩
    · obtain ⟨b2, hgb, _, hte⟩ := hfr t htr
      exact ⟨b2, hgb, hte⟩

theorem pieceMoves_single (s : State) (hb : goodBoard s.board) (p : Piece)
    (hp : p ∈ s.board.pieces) (h1 : p.is_goal = false) (h2 : p.is_single = true)
    (h3 : p.orientation = none) :
    ∃ L, pieceMoves s p = some L ∧
      L.map State.board = slideBoardsOfPiece s.board p ∧
      ∀ t ∈ L, ∃ b2, goodBoard b2 ∧
        t = State.mk b2 (s.depth + 1 + manhattan_distance b2) (s.depth + 1) (some s) := by
  have hgu : (check_valid_spot s (p.coord_x) (p.coord_y - 1)) = true ↔ slideOk s.board p "up" := by
    rw [check_valid_spot_iff s hb]
    unfold slideOk
    rw [newCells_single_up p h1 h2]
    simp only [List.forall_mem_singleton]
  have hgd : (check_valid_spot s (p.coord_x) (p.coord_y + 1)) = true ↔ slideOk s.board p "down" := by
    rw [check_valid_spot_iff s hb]
    unfold slideOk
    rw [newCells_single_down p h1 h2]
    simp only [List.forall_mem_singleton]
  have hgl : (check_valid_spot s (p.coord_x - 1) (p.coord_y)) = true ↔ slideOk s.board p "left" := by
    rw [check_valid_spot_iff s hb]
    unfold slideOk
    rw [newCells_single_left p h1 h2]
    simp only [List.forall_mem_singleton]
  have hgr : (check_valid_spot s (p.coord_x + 1) (p.coord_y)) = true ↔ slideOk s.board p "right" := by
    rw [check_valid_spot_iff s hb]
    unfold slideOk
    rw [newCells_single_right p h1 h2]
    simp only [List.forall_mem_singleton]
  obtain ⟨u, hu, hmu, hfu⟩ := tryDir_spec s hb p hp "up" _ hgu
  obtain ⟨v, hv, hmv, hfv⟩ := tryDir_spec s hb p hp "down" _ hgd
  obtain ⟨w, hw, hmw, hfw⟩ := tryDir_spec s hb p hp "left" _ hgl
  obtain ⟨r, hr, hmr, hfr⟩ := tryDir_spec s hb p hp "right" _ hgr
  refine ⟨u ++ v ++ w ++ r, ?_, ?_, ?_⟩
  · have hsh : ¬(p.orientation = some 'h') := by rw [h3]; decide
    have hsv : ¬(p.orientation = some 'v') := by rw [h3]; decide
    simp only [pieceMoves, h1, h3, hsh, hsv, Bool.false_eq_true, if_false, eq_self_iff_true, if_true]
    rw [hu]
    simp only [Option.bind_eq_bind, Option.some_bind]
    rw [hv]
    simp only [Option.bind_eq_bind, Option.some_bind]
    rw [hw]
    simp only [Option.bind_eq_bind, Option.some_bind]
    rw [hr]
    simp only [Option.bind_eq_bind, Option.some_bind]
    rfl
  · rw [List.map_append, List.map_append, List.map_append, hmu, hmv, hmw, hmr,
      slideBoardsOfPiece_eq]
  · intro t ht
    rcases List.mem_append.mp ht with ht2 | htr
    · rcases List.mem_append.mp ht2 with ht3 | htw
      · rcases List.mem_append.mp ht3 with htu | htv
        · obtain ⟨b2, hgb, _, hte⟩ := hfu t htu
          exact ⟨b2, hgb, hte⟩
        · obtain ⟨b2, hgb, _, hte⟩ := hfv t htv
          exact ⟨b2, hgb, hte⟩
      · obtain ⟨b2, hgb, _, hte⟩ := hfw t htw
        exact ⟨b2, hgb, hte⟩
    · obtain ⟨b2, hgb, _, hte⟩ := hfr t htr
      exact ⟨b2, hgb, hte⟩

/-- `pieceMoves` for any piece of a good board. -/
theorem pieceMoves_spec (s : State) (hb : goodBoard s.board) (p : Piece)
    (hp : p ∈ s.board.pieces) :
    ∃ L, pieceMoves s p = some L ∧
      L.map State.board = slideBoardsOfPiece s.board p ∧
      ∀ t ∈ L, ∃ b2, goodBoard b2 ∧
        t = State.mk b2 (s.depth + 1 + manhattan_distance b2) (s.depth + 1) (some s) := by
  have hwf := (hb.1.1 p hp).1
  rcases hwf with ⟨ha1, ha2, ha3⟩ | ⟨ha1, ha2, ha3⟩ | ⟨ha1, ha2, ha3⟩
  · exact pieceMoves_goal s hb p hp ha1
  · exact pieceMoves_single s hb p hp ha1 ha2 ha3
  · rcases ha3 with h3 | h3
    · exact pieceMoves_hor s hb p hp ha1 ha2 h3
    · exact pieceMoves_ver s hb p hp ha1 ha2 h3

theorem genSucc_fold (s : State) (hb : goodBoard s.board) (ps : List Piece)
    (hsub : ∀ p ∈ ps, p ∈ s.board.pieces) (acc : List State) :
    ∃ L, ps.foldlM (fun acc p => (pieceMoves s p).map fun l => acc ++ l) acc = some L ∧
      L.map State.board = acc.map State.board ++ (ps.map (slideBoardsOfPiece s.board)).join ∧
      ∀ t ∈ L, t ∈ acc ∨ ∃ b2, goodBoard b2 ∧
        t = State.mk b2 (s.depth + 1 + manhattan_distance b2) (s.depth + 1) (some s) := by
  induction ps generalizing acc with
  | nil =>
    refine ⟨acc, rfl, by simp, fun t ht => Or.inl ht⟩
  | cons p rest ih =>
    obtain ⟨Lp, hLp, hmp, hfp⟩ := pieceMoves_spec s hb p (hsub p (List.mem_cons_self p rest))
    obtain ⟨L, hL, hmL, hfL⟩ := ih (fun q hq => hsub q (List.mem_cons_of_mem p hq)) (acc ++ Lp)
    refine ⟨L, ?_, ?_, ?_⟩
    · rw [List.foldlM_cons, hLp]
      simpa using hL
    · rw [hmL, List.map_append, hmp]
      simp [List.append_assoc]
    · intro t ht
      rcases hfL t ht with hta | htn
      · rcases List.mem_append.mp hta with h1 | h2
        · exact Or.inl h1
        · exact Or.inr (hfp t h2)
      · exact Or.inr htn

/-- `generate_successors` on a good board: it succeeds, its boards are
exactly the specification's slide enumeration, and every successor state
carries depth `+1`, recomputed `f`, a good board and the parent link. -/
theorem generate_successors_spec (s : State) (hb : goodBoard s.board) :
    ∃ L, generate_successors s = some L ∧
      L.map State.board = slideBoards s.board ∧
      ∀ t ∈ L, ∃ b2, goodBoard b2 ∧
        t = State.mk b2 (s.depth + 1 + manhattan_distance b2) (s.depth + 1) (some s) := by
  obtain ⟨L, hL, hm, hf⟩ := genSucc_fold s hb s.board.pieces (fun _ h => h) []
  refine ⟨L, hL, ?_, ?_⟩
  · rw [hm]
    simp [slideBoards]
  · intro t ht
    rcases hf t ht with h1 | h2
    · exact absurd h1 (List.not_mem_nil t)
    · exact h2

/-- Membership in the slide enumeration. -/
theorem mem_slideBoards_iff (b : Board) (b2 : Board) :
    b2 ∈ slideBoards b ↔
      ∃ p ∈ b.pieces, ∃ d ∈ slideDirs, slideOk b p d ∧ slideBoard b p d = some b2 := by
  unfold slideBoards slideBoardsOfPiece
  rw [List.mem_join]
  constructor
  · rintro ⟨l, hl, hbl⟩
    rw [List.mem_map] at hl
    obtain ⟨p, hp, rfl⟩ := hl
    rw [List.mem_filterMap] at hbl
    obtain ⟨d, hd, hsb⟩ := hbl
    rw [List.mem_filter] at hd
    exact ⟨p, hp, d, hd.1, of_decide_eq_true hd.2, hsb⟩
  · rintro ⟨p, hp, d, hd, hok, hsb⟩
    refine ⟨_, List.mem_map_of_mem _ hp, ?_⟩
    rw [List.mem_filterMap]
    exact ⟨d, List.mem_filter.mpr ⟨hd, decide_eq_true hok⟩, hsb⟩

/-- Every slide result of a good board is itself a good board whose piece
list is the one-piece replacement. -/
theorem slideBoards_good (b : Board) (hb : goodBoard b) (b2 : Board)
    (h : b2 ∈ slideBoards b) :
    goodBoard b2 ∧ ∃ p ∈ b.pieces, ∃ d ∈ slideDirs, slideOk b p d ∧
      b2.pieces = b.pieces.map fun q => if q = p then movePiece p d else q := by
  rw [mem_slideBoards_iff] at h
  obtain ⟨p, hp, d, hd, hok, hsb⟩ := h
  have hmoved : piecesOk (b.pieces.map fun q => if q = p then movePiece p d else q) :=
    slide_piecesOk b.pieces hb.1 p hp d hok
  obtain ⟨b3, hb3, hgood, hpieces⟩ := build_good _ hmoved
  unfold slideBoard at hsb
  rw [hb3, Option.some.injEq] at hsb
  rw [← hsb]
  exact ⟨hgood, p, hp, d, hd, hok, hpieces⟩

theorem succBoards_eq (b : Board) (hb : goodBoard b) : succBoards b = slideBoards b := by
  obtain ⟨L, hL, hm, _⟩ :=
    generate_successors_spec (State.mk b 0 0 none) (by exact hb)
  unfold succBoards
  rw [hL]
  exact hm

theorem manhattan_eq_of_coords (b : Board) (x y : ℤ)
    (h : b.goal_piece_coordinates = [x, y]) :
    manhattan_distance b = |x - 1| + |y - 3| := by
  unfold manhattan_distance
  rw [h]
  rfl

/-- One slide changes the heuristic by at most one. -/
theorem manhattan_step (b : Board) (hb : goodBoard b) (b2 : Board)
    (h : b2 ∈ slideBoards b) :
    manhattan_distance b ≤ manhattan_distance b2 + 1 := by
  obtain ⟨hgood2, p, hp, d, hd, hok, hpieces⟩ := slideBoards_good b hb b2 h
  obtain ⟨gp, hgp, hgpg, hgpc, hgpu⟩ := good_goal b hb
  obtain ⟨gp2, hgp2, hgp2g, hgp2c, hgp2u⟩ := good_goal b2 hgood2
  have hknd := movePiece_kind p d
  -- the image of the original goal piece is a goal piece of the new list
  have hmem : (if gp = p then movePiece p d else gp) ∈ b2.pieces := by
    rw [hpieces, List.mem_map]
    exact ⟨gp, hgp, rfl⟩
  have hgoal2 : (if gp = p then movePiece p d else gp).is_goal = true := by
    split_ifs with he
    · rw [hknd.1, ← he]; exact hgpg
    · exact hgpg
  have hgp2e : gp2 = if gp = p then movePiece p d else gp := (hgp2u _ hmem hgoal2).symm
  rw [manhattan_eq_of_coords b _ _ hgpc, manhattan_eq_of_coords b2 _ _ hgp2c]
  rw [hgp2e]
  by_cases he : gp = p
  · rw [if_pos he, ← he]
    have habs : ∀ a b2 : ℤ, |a - b2| - |a - 1 - b2| ≤ |a - 1 - a| := by
      intro a c
      have := abs_sub_abs_le_abs_sub (a - c) (a - 1 - c)
      have h2 : a - c - (a - 1 - c) = a - (a - 1) := by ring
      rw [h2] at this
      calc |a - c| - |a - 1 - c| ≤ |a - (a - 1)| := this
        _ = |a - 1 - a| := by rw [abs_sub_comm]
    rcases List.mem_cons.mp hd with rfl | hd2
    · -- up
      rw [movePiece_up]
      have := abs_sub_abs_le_abs_sub (gp.coord_y - 3) (gp.coord_y - 1 - 3)
      have h2 : gp.coord_y - 3 - (gp.coord_y - 1 - 3) = 1 := by ring
      rw [h2] at this
      simp only []
      have h3 : |(1 : ℤ)| = 1 := by decide
      rw [h3] at this
      linarith
    rcases List.mem_cons.mp hd2 with rfl | hd3
    · -- down
      rw [movePiece_down]
      have := abs_sub_abs_le_abs_sub (gp.coord_y - 3) (gp.coord_y + 1 - 3)
      have h2 : gp.coord_y - 3 - (gp.coord_y + 1 - 3) = -1 := by ring
      rw [h2] at this
      have h3 : |(-1 : ℤ)| = 1 := by decide
      rw [h3] at this
      linarith
    rcases List.mem_cons.mp hd3 with rfl | hd4
    · -- left
      rw [movePiece_left]
      have := abs_sub_abs_le_abs_sub (gp.coord_x - 1) (gp.coord_x - 1 - 1)
      have h2 : gp.coord_x - 1 - (gp.coord_x - 1 - 1) = 1 := by ring
      rw [h2] at this
      have h3 : |(1 : ℤ)| = 1 := by decide
      rw [h3] at this
      linarith
    rcases List.mem_cons.mp hd4 with rfl | hd5
    · -- right
      rw [movePiece_right]
      have := abs_sub_abs_le_abs_sub (gp.coord_x - 1) (gp.coord_x + 1 - 1)
      have h2 : gp.coord_x - 1 - (gp.coord_x + 1 - 1) = -1 := by ring
      rw [h2] at this
      have h3 : |(-1 : ℤ)| = 1 := by decide
      rw [h3] at this
      linarith
    · exact absurd hd5 (List.not_mem_nil _)
  · rw [if_neg he]
    linarith [abs_nonneg (gp.coord_x - 1), abs_nonneg (gp.coord_y - 3)]

theorem kindsMatch_refl (ps : List Piece) : kindsMatch ps ps := by
  unfold kindsMatch
  induction ps with
  | nil => exact List.Forall₂.nil
  | cons p rest ih => exact List.Forall₂.cons ⟨rfl, rfl, rfl⟩ ih

/-- A successor's piece list keeps every kind in place. -/
theorem kindsMatch_map_replace (ps0 ps : List Piece) (h : kindsMatch ps0 ps)
    (p : Piece) (d : String) :
    kindsMatch ps0 (ps.map fun q => if q = p then movePiece p d else q) := by
  unfold kindsMatch at h ⊢
  rw [List.forall₂_map_right_iff]
  refine h.imp ?_
  intro a b hab
  by_cases he : b = p
  · rw [if_pos he]
    have hk := movePiece_kind p d
    rw [hk.1, hk.2.1, hk.2.2, ← he]
    exact hab
  · rw [if_neg he]
    exact hab

/-- A well-formed in-bounds piece has its anchor inside the coordinate
box. -/
theorem anchor_inGrid (p : Piece) (hwf : wellFormedPiece p)
    (hin : ∀ c ∈ cells p, inGrid c) :
    0 ≤ p.coord_x ∧ p.coord_x < 4 ∧ 0 ≤ p.coord_y ∧ p.coord_y < 5 :=
  hin _ (anchor_mem_cells p hwf)

theorem mem_pieceVariants (p0 p : Piece)
    (hk : p.is_goal = p0.is_goal ∧ p.is_single = p0.is_single ∧
      p.orientation = p0.orientation)
    (hx : 0 ≤ p.coord_x ∧ p.coord_x < 4) (hy : 0 ≤ p.coord_y ∧ p.coord_y < 5) :
    p ∈ pieceVariants p0 := by
  unfold pieceVariants
  rw [List.mem_bind]
  refine ⟨p.coord_x, ?_, ?_⟩
  · have : p.coord_x = 0 ∨ p.coord_x = 1 ∨ p.coord_x = 2 ∨ p.coord_x = 3 := by omega
    rcases this with h | h | h | h <;> simp [h]
  · rw [List.mem_map]
    refine ⟨p.coord_y, ?_, ?_⟩
    · have : p.coord_y = 0 ∨ p.coord_y = 1 ∨ p.coord_y = 2 ∨ p.coord_y = 3 ∨
        p.coord_y = 4 := by omega
      rcases this with h | h | h | h | h <;> simp [h]
    · cases p
      cases p0
      simp_all

theorem mem_candLists (ps0 ps : List Piece) (hk : kindsMatch ps0 ps)
    (hgood : ∀ p ∈ ps, wellFormedPiece p ∧ ∀ c ∈ cells p, inGrid c) :
    ps ∈ candLists ps0 := by
  induction hk with
  | nil => simp [candLists]
  | @cons p0 p rest0 rest hpk hrk ih =>
    unfold candLists
    rw [List.mem_bind]
    have hp := hgood p (List.mem_cons_self p rest)
    have hanch := anchor_inGrid p hp.1 hp.2
    refine ⟨p, mem_pieceVariants p0 p ⟨hpk.1.symm, hpk.2.1.symm, hpk.2.2.symm⟩
      ⟨hanch.1, hanch.2.1⟩ ⟨hanch.2.2.1, hanch.2.2.2⟩, ?_⟩
    rw [List.mem_map]
    exact ⟨rest, ih (fun q hq => hgood q (List.mem_cons_of_mem p hq)), rfl⟩

/-- Any good board with the root's piece kinds is a candidate board. -/
theorem mem_candBoards (ps0 : List Piece) (b : Board) (hb : goodBoard b)
    (hk : kindsMatch ps0 b.pieces) : b ∈ candBoards ps0 := by
  unfold candBoards
  rw [List.mem_filterMap]
  exact ⟨b.pieces, mem_candLists ps0 b.pieces hk hb.1.1, hb.2⟩

theorem mem_candIds (pyhash : String → ℤ) (ps0 : List Piece) (b : Board)
    (hb : goodBoard b) (hk : kindsMatch ps0 b.pieces) :
    pyhash (pyStrGrid b.grid) ∈ candIds pyhash ps0 := by
  unfold candIds
  rw [List.mem_dedup, List.mem_map]
  exact ⟨b, mem_candBoards ps0 b hb hk, rfl⟩

/-- Successor count is at most four per piece. -/
theorem slideBoards_length (b : Board) :
    (slideBoards b).length ≤ 4 * b.pieces.length := by
  unfold slideBoards
  rw [List.length_join]
  have h1 : ∀ l ∈ (b.pieces.map (slideBoardsOfPiece b)).map List.length, l ≤ 4 := by
    intro l hl
    rw [List.map_map, List.mem_map] at hl
    obtain ⟨p, _, rfl⟩ := hl
    have h2 : (slideBoardsOfPiece b p).length ≤
        ((slideDirs.filter fun d => decide (slideOk b p d))).length :=
      List.length_filterMap_le _ _
    have h3 : ((slideDirs.filter fun d => decide (slideOk b p d))).length ≤
        slideDirs.length := List.length_filter_le _ _
    simpa [slideDirs] using le_trans h2 h3
  calc ((b.pieces.map (slideBoardsOfPiece b)).map List.length).sum
      ≤ ((b.pieces.map (slideBoardsOfPiece b)).map List.length).length * 4 := by
        apply List.sum_le_card_nsmul _ 4 h1
    _ = 4 * b.pieces.length := by simp [Nat.mul_comm]

/-- Removing one present, unvisited identity strictly shrinks the
unvisited candidate count. -/
theorem filter_unvisited_drop (cand : List ℤ) (v : List ℤ)
    (a : ℤ) (ha : a ∈ cand) (hav : a ∉ v) :
    ((cand.filter fun i => decide (i ∉ a :: v))).length + 1 ≤
      ((cand.filter fun i => decide (i ∉ v))).length := by
  have hsplit : (cand.filter fun i => decide (i ∉ a :: v)) =
      (cand.filter fun i => decide (i ∉ v)).filter fun i => decide (i ≠ a) := by
    rw [List.filter_filter]
    apply List.filter_congr
    intro x _
    rw [Bool.eq_iff_iff]
    simp only [decide_eq_true_eq, Bool.and_eq_true, List.mem_cons]
    tauto
  have hmem : a ∈ cand.filter fun i => decide (i ∉ v) := by
    rw [List.mem_filter]
    exact ⟨ha, decide_eq_true hav⟩
  have hlt : ((cand.filter fun i => decide (i ∉ v)).filter fun i => decide (i ≠ a)).length <
      (cand.filter fun i => decide (i ∉ v)).length := by
    rw [List.length_filter_lt_length_iff_exists]
    exact ⟨a, hmem, by simp⟩
  rw [hsplit]
  omega

theorem dfsLoop_pop (pyhash : String → ℤ) (n : ℕ) (frontier : List State)
    (visited : List ℤ) (curr : State) (h : frontier.getLast? = some curr) :
    dfsLoop pyhash (n + 1) frontier visited =
      if curr.idval pyhash ∈ visited then dfsLoop pyhash n frontier.dropLast visited
      else if goal_test curr then some (SearchOutcome.found curr)
      else
        match generate_successors curr with
        | none => some SearchOutcome.fault
        | some succs =>
          dfsLoop pyhash n
            (frontier.dropLast ++ succs.filter fun s => !decide (s.idval pyhash ∈ visited))
            (curr.idval pyhash :: visited) := by
  conv_lhs => rw [dfsLoop]
  rw [h]

theorem dfsLoop_empty (pyhash : String → ℤ) (n : ℕ) (visited : List ℤ) :
    dfsLoop pyhash (n + 1) [] visited = some SearchOutcome.noSolution := by
  conv_lhs => rw [dfsLoop]
  rfl

theorem measure_lt (P Q K F F2 n : ℕ) (h1 : P + (4 * K + 1) ≤ Q)
    (h2 : F2 + 1 ≤ F + 4 * K) (_h3 : 1 ≤ F) (hm : Q + F < n + 1) : P + F2 < n := by
  omega

/-- The DFS loop terminates within the search measure, never faults, and
returns either "no solution" or a goal state generated from the root. -/
theorem dfsLoop_total (pyhash : String → ℤ) (ps0 : List Piece) (root : State)
    (n : ℕ) :
    ∀ (frontier : List State) (visited : List ℤ),
      (∀ t ∈ frontier, goodBoard t.board ∧ kindsMatch ps0 t.board.pieces ∧ Lineage root t) →
      searchMeasure pyhash ps0 frontier visited < n →
      ∃ r, dfsLoop pyhash n frontier visited = some r ∧
        (r = SearchOutcome.noSolution ∨
          ∃ t, r = SearchOutcome.found t ∧ goal_test t = true ∧ goodBoard t.board ∧
            kindsMatch ps0 t.board.pieces ∧ Lineage root t) := by
  induction n with
  | zero =>
    intro frontier visited _ hm
    omega
  | succ n ih =>
    intro frontier visited hinv hm
    rcases hlast : frontier.getLast? with _ | curr
    · refine ⟨SearchOutcome.noSolution, ?_, Or.inl rfl⟩
      have hne : frontier = [] := List.getLast?_eq_none_iff.mp hlast
      rw [hne]
      exact dfsLoop_empty pyhash n visited
    · have hcur : curr ∈ frontier := by
        have h1 : curr ∈ frontier.getLast? := hlast
        obtain ⟨hne, heq⟩ := List.mem_getLast?_eq_getLast h1
        rw [heq]
        exact List.getLast_mem hne
      have hfne : frontier ≠ [] := by
        intro h
        rw [h] at hlast
        simp at hlast
      have hlen : frontier.dropLast.length = frontier.length - 1 := by
        simp [List.length_dropLast]
      have hlenpos : 1 ≤ frontier.length := by
        cases frontier with
        | nil => exact absurd rfl hfne
        | cons a l => simp
      obtain ⟨hgood, hkinds, hlin⟩ := hinv curr hcur
      have hdropinv : ∀ t ∈ frontier.dropLast,
          goodBoard t.board ∧ kindsMatch ps0 t.board.pieces ∧ Lineage root t :=
        fun t ht => hinv t ((List.dropLast_sublist frontier).subset ht)
      by_cases hv : curr.idval pyhash ∈ visited
      · have hm2 : searchMeasure pyhash ps0 frontier.dropLast visited < n := by
          unfold searchMeasure at hm ⊢
          omega
        obtain ⟨r, hr, hp⟩ := ih frontier.dropLast visited hdropinv hm2
        refine ⟨r, ?_, hp⟩
        rw [dfsLoop_pop pyhash n frontier visited curr hlast, if_pos hv]
        exact hr
      · by_cases hg : goal_test curr = true
        · refine ⟨SearchOutcome.found curr, ?_,
            Or.inr ⟨curr, rfl, hg, hgood, hkinds, hlin⟩⟩
          rw [dfsLoop_pop pyhash n frontier visited curr hlast, if_neg hv, if_pos hg]
        · obtain ⟨L, hL, hmL, hfL⟩ := generate_successors_spec curr hgood
          have hLinv : ∀ t ∈ L,
              goodBoard t.board ∧ kindsMatch ps0 t.board.pieces ∧ Lineage root t := by
            intro t ht
            obtain ⟨b2, hb2good, hte⟩ := hfL t ht
            have htb : t.board = b2 := by rw [hte]; rfl
            have hbmem : t.board ∈ slideBoards curr.board := by
              rw [← hmL]
              exact List.mem_map_of_mem State.board ht
            obtain ⟨_, p, hp, d, hd, hok, hpieces⟩ :=
              slideBoards_good curr.board hgood t.board hbmem
            refine ⟨htb ▸ hb2good, ?_, Lineage.step hlin ⟨L, hL, ht⟩⟩
            rw [hpieces]
            exact kindsMatch_map_replace ps0 curr.board.pieces hkinds p d
          have hsuccinv : ∀ t ∈ frontier.dropLast ++
              L.filter fun s => !decide (s.idval pyhash ∈ visited),
              goodBoard t.board ∧ kindsMatch ps0 t.board.pieces ∧ Lineage root t := by
            intro t ht
            rcases List.mem_append.mp ht with h1 | h2
            · exact hdropinv t h1
            · exact hLinv t (List.mem_of_mem_filter h2)
          have hLlen : L.length ≤ 4 * ps0.length := by
            have h1 : L.length = (slideBoards curr.board).length := by
              rw [← hmL, List.length_map]
            have h2 := slideBoards_length curr.board
            have h3 : curr.board.pieces.length = ps0.length := hkinds.length_eq.symm
            omega
          have hdrop := filter_unvisited_drop (candIds pyhash ps0) visited
            (curr.idval pyhash) (mem_candIds pyhash ps0 curr.board hgood hkinds) hv
          have hm2 : searchMeasure pyhash ps0
              (frontier.dropLast ++ L.filter fun s => !decide (s.idval pyhash ∈ visited))
              (curr.idval pyhash :: visited) < n := by
            unfold searchMeasure at hm ⊢
            rw [List.length_append]
            have hfl : (L.filter fun s => !decide (s.idval pyhash ∈ visited)).length ≤
                L.length := List.length_filter_le _ _
            have hids : curr.idval pyhash = pyhash (pyStrGrid curr.board.grid) := rfl
            rw [hids] at hdrop
            have hmul := Nat.mul_le_mul_right (4 * ps0.length + 1) hdrop
            rw [Nat.succ_mul] at hmul
            exact measure_lt _ _ ps0.length frontier.length _ n hmul (by omega) hlenpos hm
          obtain ⟨r, hr, hp⟩ := ih _ _ hsuccinv hm2
          refine ⟨r, ?_, hp⟩
          rw [dfsLoop_pop pyhash n frontier visited curr hlast, if_neg hv, if_neg hg, hL]
          exact hr

/-- Goodness is preserved along reachability. -/
theorem BReachN_good {n : ℕ} {b g : Board} (h : BReachN n b g) (hb : goodBoard b) :
    goodBoard g := by
  induction h with
  | refl => exact hb
  | step hstep _ ih =>
    rename_i b2 c2 c m
    rw [succBoards_eq _ hb] at hstep
    exact ih (slideBoards_good _ hb _ hstep).1

/-- Admissibility: the heuristic never exceeds the length of any move
sequence that reaches a goal configuration. -/
theorem manhattan_admissible (b : Board) (n : ℕ) (g : Board)
    (hreach : BReachN n b g) (hgoal : isGoalBoard g) (hb : goodBoard b) :
    manhattan_distance b ≤ n := by
  revert hgoal hb
  induction hreach with
  | refl b0 =>
    intro hgoal _
    rw [manhattan_eq_of_coords b0 1 3 hgoal]
    decide
  | step hstep hrest ih =>
    rename_i b0 c2 c m
    intro hgoal hb
    have hmem : c2 ∈ slideBoards b0 := by rwa [succBoards_eq _ hb] at hstep
    have hc2 : goodBoard c2 := (slideBoards_good _ hb _ hmem).1
    have h1 := manhattan_step b0 hb c2 hmem
    have h2 := ih hgoal hc2
    push_cast
    push_cast at h2
    linarith

theorem collectStates_parent_none (s : State) (h : s.parent = none) :
    collectStates s = [] := by
  cases s with
  | mk b f d par =>
    cases par with
    | none => rfl
    | some p => simp [State.parent] at h

theorem collectStates_parent_some (b : Board) (f d : ℤ) (p : State) :
    collectStates (State.mk b f d (some p)) =
      State.mk b f d (some p) :: collectStates p := rfl

/-- Everything `write_to_file`'s walk guarantees for a state generated
from the root: ancestry ends at the root, the reconstructed board list is
a chain of legal slides from the root board ending at the terminal board,
and its length is the depth difference. -/
theorem lineage_props (root : State) (hgood : goodBoard root.board)
    (hroot : root.parent = none) (t : State) (h : Lineage root t) :
    goodBoard t.board ∧
    rootOf t = rootOf root ∧
    root.depth ≤ t.depth ∧
    ((all_states t).length : ℤ) = t.depth - root.depth ∧
    List.Chain' (fun b b2 => b2 ∈ slideBoards b)
      (root.board :: (all_states t).map State.board) ∧
    (root.board :: (all_states t).map State.board).getLast? = some t.board := by
  induction h with
  | base =>
    have hc : collectStates root = [] := collectStates_parent_none root hroot
    unfold all_states
    rw [hc]
    refine ⟨hgood, rfl, le_refl _, by simp, by simp, by simp⟩
  | step hlin hsucc ih =>
    rename_i s t2
    obtain ⟨hsgood, hsroot, hsdep, hslen, hschain, hslast⟩ := ih
    obtain ⟨l, hl, htl⟩ := hsucc
    obtain ⟨L, hL, hmL, hfL⟩ := generate_successors_spec s hsgood
    rw [hL, Option.some.injEq] at hl
    rw [← hl] at htl
    obtain ⟨b2, hb2good, hte⟩ := hfL t2 htl
    have hb2mem : b2 ∈ slideBoards s.board := by
      rw [← hmL]
      rw [hte] at htl
      have := List.mem_map_of_mem State.board htl
      simpa using this
    have hcol : collectStates t2 = t2 :: collectStates s := by
      rw [hte]
      rw [collectStates_parent_some]
    have hall : all_states t2 = all_states s ++ [t2] := by
      unfold all_states
      rw [hcol]
      simp
    have htb : t2.board = b2 := by rw [hte]; rfl
    have htd : t2.depth = s.depth + 1 := by rw [hte]; rfl
    have htp : t2.parent = some s := by rw [hte]; rfl
    refine ⟨htb ▸ hb2good, ?_, ?_, ?_, ?_, ?_⟩
    · rw [← hsroot]
      cases ht2 : t2 with
      | mk bb ff dd pp =>
        rw [ht2] at htp
        simp only [State.parent] at htp
        rw [htp]
        rfl
    · omega
    · have hlen2 : (all_states t2).length = (all_states s).length + 1 := by
        rw [hall]
        simp
      rw [hlen2, htd]
      push_cast
      omega
    · rw [hall, List.map_append]
      rw [← List.cons_append]
      rw [List.chain'_append]
      refine ⟨hschain, by simp, ?_⟩
      intro x hx y hy
      simp only [List.map_cons, List.map_nil, List.head?_cons, Option.mem_def,
        Option.some.injEq] at hy
      have hxl : x = s.board := by
        have h1 : (root.board :: (all_states s).map State.board).getLast? = some x := hx
        rw [hslast, Option.some.injEq] at h1
        exact h1.symm
      rw [hxl, ← hy, htb]
      exact hb2mem
    · rw [hall, List.map_append]
      rw [← List.cons_append]
      simp only [List.map_cons, List.map_nil]
      rw [List.getLast?_append_cons]
      rfl

/-- All successor states inherit goodness, kinds and lineage. -/
theorem succs_inv (ps0 : List Piece) (root curr : State)
    (L : List State) (hgood : goodBoard curr.board)
    (hkinds : kindsMatch ps0 curr.board.pieces) (hlin : Lineage root curr)
    (hL : generate_successors curr = some L) :
    ∀ t ∈ L, goodBoard t.board ∧ kindsMatch ps0 t.board.pieces ∧ Lineage root t := by
  obtain ⟨L2, hL2, hmL, hfL⟩ := generate_successors_spec curr hgood
  rw [hL2, Option.some.injEq] at hL
  rw [← hL]
  intro t ht
  obtain ⟨b2, hb2good, hte⟩ := hfL t ht
  have htb : t.board = b2 := by rw [hte]; rfl
  have hbmem : t.board ∈ slideBoards curr.board := by
    rw [← hmL]
    exact List.mem_map_of_mem State.board ht
  obtain ⟨_, p, hp, d, hd, hok, hpieces⟩ :=
    slideBoards_good curr.board hgood t.board hbmem
  refine ⟨htb ▸ hb2good, ?_, Lineage.step hlin ⟨L2, hL2, hL ▸ ht⟩⟩
  rw [hpieces]
  exact kindsMatch_map_replace ps0 curr.board.pieces hkinds p d

theorem stateLtb_both_false (pyhash : String → ℤ) (a b : State) :
    ¬(stateLtb pyhash a b = true ∧ stateLtb pyhash b a = true) := by
  unfold stateLtb
  split_ifs with h1 h2 h2 <;> simp_all <;> omega

theorem stateLtb_trans_false (pyhash : String → ℤ) (a b c : State)
    (h1 : stateLtb pyhash b a = false) (h2 : stateLtb pyhash c b = false) :
    stateLtb pyhash c a = false := by
  unfold stateLtb at h1 h2 ⊢
  split_ifs at h1 h2 ⊢ with ha hb hc <;> simp_all <;> omega

theorem heappush_perm (pyhash : String → ℤ) (frontier : List State) (item : State) :
    List.Perm (heappush pyhash frontier item) (item :: frontier) :=
  List.perm_orderedInsert _ _ _

theorem foldl_heappush_perm (pyhash : String → ℤ) (succs frontier : List State) :
    List.Perm (succs.foldl (heappush pyhash) frontier) (frontier ++ succs) := by
  induction succs generalizing frontier with
  | nil => simp
  | cons s rest ih =>
    rw [List.foldl_cons]
    refine (ih (heappush pyhash frontier s)).trans ?_
    refine (((heappush_perm pyhash frontier s).append_right rest)).trans ?_
    simp only [List.cons_append]
    exact List.perm_middle.symm

theorem mem_foldl_heappush (pyhash : String → ℤ) (succs frontier : List State)
    (t : State) (h : t ∈ succs.foldl (heappush pyhash) frontier) :
    t ∈ frontier ∨ t ∈ succs := by
  have := (foldl_heappush_perm pyhash succs frontier).mem_iff.mp h
  rwa [List.mem_append] at this

theorem astarLoop_pop (pyhash : String → ℤ) (n : ℕ) (curr : State)
    (rest : List State) (visited : List ℤ) :
    astarLoop pyhash (n + 1) (curr :: rest) visited =
      if curr.idval pyhash ∈ visited then astarLoop pyhash n rest visited
      else if goal_test curr then some (SearchOutcome.found curr)
      else
        match generate_successors curr with
        | none => some SearchOutcome.fault
        | some succs =>
          astarLoop pyhash n (succs.foldl (heappush pyhash) rest)
            (curr.idval pyhash :: visited) := by
  rfl

theorem astarLoop_empty (pyhash : String → ℤ) (n : ℕ) (visited : List ℤ) :
    astarLoop pyhash (n + 1) [] visited = some SearchOutcome.noSolution := rfl

/-- Whatever fuel it is given, when the A* loop returns a found state that
state passes the goal test and descends from the root. -/
theorem astarLoop_sound (pyhash : String → ℤ) (ps0 : List Piece) (root : State) :
    ∀ (n : ℕ) (frontier : List State) (visited : List ℤ),
      (∀ t ∈ frontier, goodBoard t.board ∧ kindsMatch ps0 t.board.pieces ∧ Lineage root t) →
      ∀ r, astarLoop pyhash n frontier visited = some (SearchOutcome.found r) →
        goal_test r = true ∧ goodBoard r.board ∧ kindsMatch ps0 r.board.pieces ∧
          Lineage root r := by
  intro n
  induction n with
  | zero =>
    intro frontier visited _ r hr
    simp [astarLoop] at hr
  | succ n ih =>
    intro frontier visited hinv r hr
    cases frontier with
    | nil =>
      rw [astarLoop_empty] at hr
      simp at hr
    | cons curr rest =>
      rw [astarLoop_pop] at hr
      obtain ⟨hgood, hkinds, hlin⟩ := hinv curr (List.mem_cons_self curr rest)
      have hrestinv : ∀ t ∈ rest,
          goodBoard t.board ∧ kindsMatch ps0 t.board.pieces ∧ Lineage root t :=
        fun t ht => hinv t (List.mem_cons_of_mem curr ht)
      by_cases hv : curr.idval pyhash ∈ visited
      · rw [if_pos hv] at hr
        exact ih rest visited hrestinv r hr
      · rw [if_neg hv] at hr
        by_cases hg : goal_test curr = true
        · rw [if_pos hg] at hr
          simp only [Option.some.injEq, SearchOutcome.found.injEq] at hr
          rw [← hr]
          exact ⟨hg, hgood, hkinds, hlin⟩
        · rw [if_neg hg] at hr
          rcases hL : generate_successors curr with _ | L
          · rw [hL] at hr
            simp at hr
          · rw [hL] at hr
            have hLinv := succs_inv ps0 root curr L hgood hkinds hlin hL
            refine ih _ _ ?_ r hr
            intro t ht
            rcases mem_foldl_heappush pyhash L rest t ht with h1 | h2
            · exact hrestinv t h1
            · exact hLinv t h2

/-- The matching soundness statement for the DFS loop. -/
theorem dfsLoop_sound (pyhash : String → ℤ) (ps0 : List Piece) (root : State) :
    ∀ (n : ℕ) (frontier : List State) (visited : List ℤ),
      (∀ t ∈ frontier, goodBoard t.board ∧ kindsMatch ps0 t.board.pieces ∧ Lineage root t) →
      ∀ r, dfsLoop pyhash n frontier visited = some (SearchOutcome.found r) →
        goal_test r = true ∧ goodBoard r.board ∧ kindsMatch ps0 r.board.pieces ∧
          Lineage root r := by
  intro n
  induction n with
  | zero =>
    intro frontier visited _ r hr
    simp [dfsLoop] at hr
  | succ n ih =>
    intro frontier visited hinv r hr
    rcases hlast : frontier.getLast? with _ | curr
    · have hne : frontier = [] := List.getLast?_eq_none_iff.mp hlast
      rw [hne, dfsLoop_empty] at hr
      simp at hr
    · have hcur : curr ∈ frontier := by
        have h1 : curr ∈ frontier.getLast? := hlast
        obtain ⟨hne, heq⟩ := List.mem_getLast?_eq_getLast h1
        rw [heq]
        exact List.getLast_mem hne
      rw [dfsLoop_pop pyhash n frontier visited curr hlast] at hr
      obtain ⟨hgood, hkinds, hlin⟩ := hinv curr hcur
      have hdropinv : ∀ t ∈ frontier.dropLast,
          goodBoard t.board ∧ kindsMatch ps0 t.board.pieces ∧ Lineage root t :=
        fun t ht => hinv t ((List.dropLast_sublist frontier).subset ht)
      by_cases hv : curr.idval pyhash ∈ visited
      · rw [if_pos hv] at hr
        exact ih frontier.dropLast visited hdropinv r hr
      · rw [if_neg hv] at hr
        by_cases hg : goal_test curr = true
        · rw [if_pos hg] at hr
          simp only [Option.some.injEq, SearchOutcome.found.injEq] at hr
          rw [← hr]
          exact ⟨hg, hgood, hkinds, hlin⟩
        · rw [if_neg hg] at hr
          rcases hL : generate_successors curr with _ | L
          · rw [hL] at hr
            simp at hr
          · rw [hL] at hr
            have hLinv := succs_inv ps0 root curr L hgood hkinds hlin hL
            refine ih _ _ ?_ r hr
            intro t ht
            rcases List.mem_append.mp ht with h1 | h2
            · exact hdropinv t h1
            · exact hLinv t (List.mem_of_mem_filter h2)

theorem length_filterMap_of_some {α β : Type} (f : α → Option β) (l : List α)
    (h : ∀ a ∈ l, ∃ b2, f a = some b2) : (l.filterMap f).length = l.length := by
  induction l with
  | nil => rfl
  | cons a rest ih =>
    obtain ⟨b2, hb2⟩ := h a (List.mem_cons_self a rest)
    rw [List.filterMap_cons, hb2]
    simp only [List.length_cons]
    rw [ih fun x hx => h x (List.mem_cons_of_mem a hx)]

/-- Each legal slide produces exactly one successor board, so the
enumeration has one entry per legal (piece, direction) tag. -/
theorem slideBoards_length_eq_tags (b : Board) (hb : goodBoard b) :
    (slideBoards b).length = (slideTags b).length := by
  unfold slideBoards slideTags
  rw [List.length_join, List.length_join]
  congr 1
  rw [List.map_map, List.map_map]
  apply List.map_congr_left
  intro p hp
  simp only [Function.comp_apply]
  rw [List.length_map]
  apply length_filterMap_of_some
  intro d hd
  rw [List.mem_filter] at hd
  have hok := of_decide_eq_true hd.2
  have hmoved : piecesOk (b.pieces.map fun q => if q = p then movePiece p d else q) :=
    slide_piecesOk b.pieces hb.1 p hp d hok
  obtain ⟨b2, hb2, _, _⟩ := build_good _ hmoved
  exact ⟨b2, hb2⟩

/-- No tag repeats: every (piece, direction) pair appears at most once. -/
theorem slideTags_nodup (b : Board) (hb : goodBoard b) : (slideTags b).Nodup := by
  unfold slideTags
  rw [List.nodup_join]
  constructor
  · intro l hl
    rw [List.mem_map] at hl
    obtain ⟨p, _, rfl⟩ := hl
    refine List.Nodup.map ?_ (List.Nodup.filter _ (by decide))
    intro d1 d2 h
    simpa using h
  · have hnd := piecesOk_nodup b.pieces hb.1
    rw [List.pairwise_map]
    refine hnd.imp_of_mem ?_
    intro p q _ _ hne
    rw [List.disjoint_left]
    intro tg h1 h2
    rw [List.mem_map] at h1 h2
    obtain ⟨d1, _, he1⟩ := h1
    obtain ⟨d2, _, he2⟩ := h2
    rw [← he1] at he2
    exact hne (congrArg Prod.fst he2.symm)

/-- Moving a piece always changes one coordinate by one. -/
theorem movePiece_ne (p : Piece) (d : String) : movePiece p d ≠ p := by
  intro h
  unfold movePiece at h
  split_ifs at h <;>
    first
      | (have h2 := congrArg Piece.coord_x h
         simp only [] at h2
         omega)
      | (have h2 := congrArg Piece.coord_y h
         simp only [] at h2
         omega)

theorem map_replace_ne (ps : List Piece) (p : Piece) (hp : p ∈ ps) (x : Piece)
    (hx : x ≠ p) : (ps.map fun q => if q = p then x else q) ≠ ps := by
  induction ps with
  | nil => exact absurd hp (List.not_mem_nil p)
  | cons a rest ih =>
    rw [List.map_cons]
    by_cases he : a = p
    · rw [if_pos he]
      intro hcontra
      rw [List.cons.injEq] at hcontra
      exact hx (hcontra.1.trans he)
    · rw [if_neg he]
      rcases List.mem_cons.mp hp with h1 | h2
      · exact absurd h1.symm he
      · intro hcontra
        rw [List.cons.injEq] at hcontra
        exact ih h2 hcontra.2

/-- Every legal slide needs at least one destination cell. -/
theorem newCells_ne_nil (p : Piece) (hwf : wellFormedPiece p) (d : String)
    (hd : d ∈ slideDirs) : newCells p d ≠ [] := by
  have hds : d = "up" ∨ d = "down" ∨ d = "left" ∨ d = "right" := by
    simpa [slideDirs] using hd
  rcases hwf with ⟨h1, h2, h3⟩ | ⟨h1, h2, h3⟩ | ⟨h1, h2, h3⟩
  · rcases hds with rfl | rfl | rfl | rfl
    · rw [newCells_goal_up p h1]; simp
    · rw [newCells_goal_down p h1]; simp
    · rw [newCells_goal_left p h1]; simp
    · rw [newCells_goal_right p h1]; simp
  · rcases hds with rfl | rfl | rfl | rfl
    · rw [newCells_single_up p h1 h2]; simp
    · rw [newCells_single_down p h1 h2]; simp
    · rw [newCells_single_left p h1 h2]; simp
    · rw [newCells_single_right p h1 h2]; simp
  · rcases h3 with h3 | h3 <;> rcases hds with rfl | rfl | rfl | rfl
    · rw [newCells_hor_up p h1 h2 h3]; simp
    · rw [newCells_hor_down p h1 h2 h3]; simp
    · rw [newCells_hor_left p h1 h2 h3]; simp
    · rw [newCells_hor_right p h1 h2 h3]; simp
    · rw [newCells_ver_up p h1 h2 h3]; simp
    · rw [newCells_ver_down p h1 h2 h3]; simp
    · rw [newCells_ver_left p h1 h2 h3]; simp
    · rw [newCells_ver_right p h1 h2 h3]; simp

/-- A slide changes the stored grid: some required destination cell reads
empty before and occupied after. -/
theorem slide_grid_ne (b : Board) (hb : goodBoard b) (b2 : Board)
    (h : b2 ∈ slideBoards b) : b2.grid ≠ b.grid := by
  rw [mem_slideBoards_iff] at h
  obtain ⟨p, hp, d, hd, hok, hsb⟩ := h
  have hwf := (hb.1.1 p hp).1
  have hne := newCells_ne_nil p hwf d hd
  obtain ⟨c, hc⟩ : ∃ c, c ∈ newCells p d := by
    cases hcs : newCells p d with
    | nil => exact absurd hcs hne
    | cons a l => exact ⟨a, hcs ▸ List.mem_cons_self a l⟩
  obtain ⟨hcin, hcfree⟩ := hok c hc
  -- before: the cell is empty
  have hbefore : cellAt b.grid c = some char_empty :=
    (good_cell_empty_iff b hb c hcin).mpr hcfree
  -- after: the moved piece occupies it
  have hmoved : piecesOk (b.pieces.map fun q => if q = p then movePiece p d else q) :=
    slide_piecesOk b.pieces hb.1 p hp d hok
  obtain ⟨b3, hb3, hgood3, hpieces3⟩ := build_good _ hmoved
  unfold slideBoard at hsb
  rw [hb3, Option.some.injEq] at hsb
  have hmp : movePiece p d ∈ b2.pieces := by
    rw [← hsb, hpieces3, List.mem_map]
    exact ⟨p, hp, by rw [if_pos rfl]⟩
  have hcmp : c ∈ cells (movePiece p d) := by
    unfold newCells at hc
    exact (List.mem_filter.mp hc).1
  have hafter : cellAt b2.grid c = some (cellChar (movePiece p d) c) :=
    (good_cell_facts b2 (hsb ▸ hgood3) c hcin).2 (movePiece p d) hmp hcmp
  intro hcontra
  rw [hcontra, hbefore, Option.some.injEq] at hafter
  exact cellChar_ne_empty (movePiece p d) c hafter.symm

/-- Construction succeeds for any piece list whose written cells are all
inside the grid, regardless of overlap or goal count. -/
theorem placePiece_succeeds (acc : List (List Char) × List ℤ) (p : Piece)
    (hg : gridShape acc.1) (hin : ∀ c ∈ cells p, inGrid c) :
    ∃ acc2, placePiece acc p = some acc2 ∧ gridShape acc2.1 := by
  by_cases h1 : p.is_goal = true
  · simp only [cells, h1, if_true] at hin
    simp at hin
    obtain ⟨hi1, hi2, hi3, hi4⟩ := hin
    unfold inGrid at hi1 hi2 hi3 hi4
    obtain ⟨w1, hw1, hs1, _⟩ := pySet2_spec acc.1 p.coord_x p.coord_y char_goal hg
      (by omega) (by omega) (by omega) (by omega)
    obtain ⟨w2, hw2, hs2, _⟩ := pySet2_spec w1 (p.coord_x + 1) p.coord_y char_goal hs1
      (by omega) (by omega) (by omega) (by omega)
    obtain ⟨w3, hw3, hs3, _⟩ := pySet2_spec w2 p.coord_x (p.coord_y + 1) char_goal hs2
      (by omega) (by omega) (by omega) (by omega)
    obtain ⟨w4, hw4, hs4, _⟩ := pySet2_spec w3 (p.coord_x + 1) (p.coord_y + 1) char_goal hs3
      (by omega) (by omega) (by omega) (by omega)
    refine ⟨(w4, [p.coord_x, p.coord_y]), ?_, hs4⟩
    simp [placePiece, h1, hw1, hw2, hw3, hw4]
  · by_cases h2 : p.is_single = true
    · simp only [cells, h1, h2, Bool.false_eq_true, if_false, if_true] at hin
      simp at hin
      unfold inGrid at hin
      obtain ⟨w1, hw1, hs1, _⟩ := pySet2_spec acc.1 p.coord_x p.coord_y char_single hg
        (by omega) (by omega) (by omega) (by omega)
      refine ⟨(w1, acc.2), ?_, hs1⟩
      simp [placePiece, h1, h2, hw1]
    · by_cases h3 : p.orientation = some 'h'
      · simp only [cells, h1, h2, h3, Bool.false_eq_true, if_false, if_true] at hin
        simp at hin
        obtain ⟨hi1, hi2⟩ := hin
        unfold inGrid at hi1 hi2
        obtain ⟨w1, hw1, hs1, _⟩ := pySet2_spec acc.1 p.coord_x p.coord_y '<' hg
          (by omega) (by omega) (by omega) (by omega)
        obtain ⟨w2, hw2, hs2, _⟩ := pySet2_spec w1 (p.coord_x + 1) p.coord_y '>' hs1
          (by omega) (by omega) (by omega) (by omega)
        refine ⟨(w2, acc.2), ?_, hs2⟩
        simp [placePiece, h1, h2, h3, hw1, hw2]
      · by_cases h4 : p.orientation = some 'v'
        · simp only [cells, h1, h2, h3, h4, Bool.false_eq_true, if_false, if_true] at hin
          simp at hin
          obtain ⟨hi1, hi2⟩ := hin
          unfold inGrid at hi1 hi2
          obtain ⟨w1, hw1, hs1, _⟩ := pySet2_spec acc.1 p.coord_x p.coord_y '^' hg
            (by omega) (by omega) (by omega) (by omega)
          obtain ⟨w2, hw2, hs2, _⟩ := pySet2_spec w1 p.coord_x (p.coord_y + 1) 'v' hs1
            (by omega) (by omega) (by omega) (by omega)
          refine ⟨(w2, acc.2), ?_, hs2⟩
          simp [placePiece, h1, h2, h3, h4, hw1, hw2]
        · refine ⟨acc, ?_, hg⟩
          simp [placePiece, h1, h2, h3, h4]

theorem build_succeeds (ps : List Piece)
    (h : ∀ p ∈ ps, ∀ c ∈ cells p, inGrid c) :
    ∃ b, Board.build ps = some b ∧ b.pieces = ps := by
  have hfold : ∀ (qs : List Piece), (∀ p ∈ qs, ∀ c ∈ cells p, inGrid c) →
      ∀ acc : List (List Char) × List ℤ, gridShape acc.1 →
      ∃ res, qs.foldlM placePiece acc = some res := by
    intro qs
    induction qs with
    | nil =>
      intro _ acc _
      exact ⟨acc, rfl⟩
    | cons p rest ih =>
      intro hq acc hacc
      obtain ⟨acc2, hacc2, hs2⟩ :=
        placePiece_succeeds acc p hacc (hq p (List.mem_cons_self p rest))
      obtain ⟨res, hres⟩ := ih (fun q hqm => hq q (List.mem_cons_of_mem p hqm)) acc2 hs2
      refine ⟨res, ?_⟩
      rw [List.foldlM_cons, hacc2]
      simpa using hres
  obtain ⟨res, hres⟩ := hfold ps h (emptyGrid, [0, 0]) gridShape_emptyGrid
  refine ⟨{ pieces := ps, grid := res.1, goal_piece_coordinates := res.2 }, ?_, rfl⟩
  unfold Board.build
  rw [hres]
  rfl

/-- Two well-shaped grids that agree on every board cell are equal. -/
theorem grid_ext (g1 g2 : List (List Char)) (h1 : gridShape g1) (h2 : gridShape g2)
    (h : ∀ c : Cell, inGrid c → cellAt g1 c = cellAt g2 c) : g1 = g2 := by
  obtain ⟨hl1, hr1⟩ := h1
  obtain ⟨hl2, hr2⟩ := h2
  apply List.ext_get?
  intro y
  by_cases hy : y < 5
  · have hy1 : y < g1.length := by omega
    have hy2 : y < g2.length := by omega
    rw [List.get?_eq_get hy1, List.get?_eq_get hy2]
    congr 1
    apply List.ext_get?
    intro x
    by_cases hx : x < 4
    · have hcell := h ((x : ℤ), (y : ℤ)) ⟨by omega, by omega, by omega, by omega⟩
      unfold cellAt pyGet2 at hcell
      rw [pyGet_nonneg _ _ (by omega), pyGet_nonneg _ _ (by omega)] at hcell
      have hyn : ((y : ℤ)).toNat = y := by omega
      have hxn : ((x : ℤ)).toNat = x := by omega
      rw [hyn] at hcell
      rw [List.get?_eq_get hy1, List.get?_eq_get hy2] at hcell
      simp only [Option.some_bind] at hcell
      rw [pyGet_nonneg _ _ (by omega), pyGet_nonneg _ _ (by omega), hxn] at hcell
      exact hcell
    · have hx1 : (g1.get ⟨y, hy1⟩).length = 4 := hr1 _ (g1.get_mem y hy1)
      have hx2 : (g2.get ⟨y, hy2⟩).length = 4 := hr2 _ (g2.get_mem y hy2)
      rw [List.get?_eq_none.mpr (by omega), List.get?_eq_none.mpr (by omega)]
  · rw [List.get?_eq_none.mpr (by omega), List.get?_eq_none.mpr (by omega)]

/-- On good boards the grid is a function of the piece set. -/
theorem grid_eq_of_set (b1 b2 : Board) (h1 : goodBoard b1) (h2 : goodBoard b2)
    (hmem : ∀ p, p ∈ b1.pieces ↔ p ∈ b2.pieces) : b1.grid = b2.grid := by
  apply grid_ext _ _ (good_gridShape b1 h1) (good_gridShape b2 h2)
  intro c hc
  by_cases hcov : ∃ p ∈ b1.pieces, c ∈ cells p
  · obtain ⟨p, hp, hcp⟩ := hcov
    rw [(good_cell_facts b1 h1 c hc).2 p hp hcp,
      (good_cell_facts b2 h2 c hc).2 p ((hmem p).mp hp) hcp]
  · push_neg at hcov
    rw [(good_cell_facts b1 h1 c hc).1 hcov,
      (good_cell_facts b2 h2 c hc).1 fun p hp => hcov p ((hmem p).mpr hp)]

/-- C2: `manhattan_distance` computes the Manhattan distance of the goal
piece's top-left corner from the target corner `(1, 3)`, and on boards
satisfying the placement invariants it never exceeds the length of any
slide sequence that reaches a goal configuration, hence never exceeds the
true minimum remaining move count (admissibility). -/
theorem claim_C2 :
    (∀ b : Board, goodBoard b → ∀ gp ∈ b.pieces, gp.is_goal = true →
      manhattan_distance b = |gp.coord_x - 1| + |gp.coord_y - 3|) ∧
    (∀ b : Board, goodBoard b → ∀ (n : ℕ) (g : Board),
      BReachN n b g → isGoalBoard g → manhattan_distance b ≤ n) := by
  constructor
  · intro b hb gp hgp hgpg
    obtain ⟨gp2, hgp2, hgp2g, hgp2c, hgp2u⟩ := good_goal b hb
    rw [hgp2u gp hgp hgpg, manhattan_eq_of_coords b _ _ hgp2c]
  · intro b hb n g hr hg
    exact manhattan_admissible b n g hr hg hb

/-- C2 witness: the one-piece board with the goal at (1, 2). -/
theorem claim_C2_witness :
    goodBoard bG12 ∧ pGoalAt 1 2 ∈ bG12.pieces ∧ (pGoalAt 1 2).is_goal = true ∧
    BReachN 1 bG12 bG13 ∧ isGoalBoard bG13 ∧
    manhattan_distance bG12 = |(1 : ℤ) - 1| + |(2 : ℤ) - 3| ∧
    manhattan_distance bG12 ≤ 1 := by
  have h1 : goodBoard bG12 := by decide
  have h2 : pGoalAt 1 2 ∈ bG12.pieces := by decide
  have h3 : (pGoalAt 1 2).is_goal = true := by decide
  have h5 : bG13 ∈ succBoards bG12 := by decide
  have h4 : BReachN 1 bG12 bG13 := BReachN.step h5 (BReachN.refl bG13)
  have h6 : isGoalBoard bG13 := by decide
  exact ⟨h1, h2, h3, h4, h6, claim_C2.1 bG12 h1 (pGoalAt 1 2) h2 h3,
    claim_C2.2 bG12 h1 1 bG13 h4 h6⟩

/-- C3: on a state whose board satisfies the placement invariants,
`generate_successors` succeeds and returns exactly the boards of the legal
single-piece single-cell slides — those whose required destination cells
(the moved footprint minus the piece's current cells) are all inside the
4x5 grid and unoccupied — in enumeration order; each successor's depth is
the input depth plus one, and there is exactly one successor per legal
(piece, direction) tag, with no duplicated tag. -/
theorem claim_C3 (s : State) (hs : goodBoard s.board) :
    ∃ L, generate_successors s = some L ∧
      L.map State.board = slideBoards s.board ∧
      (∀ t ∈ L, t.depth = s.depth + 1) ∧
      (slideTags s.board).Nodup ∧
      L.length = (slideTags s.board).length := by
  obtain ⟨L, hL, hm, hf⟩ := generate_successors_spec s hs
  refine ⟨L, hL, hm, ?_, slideTags_nodup s.board hs, ?_⟩
  · intro t ht
    obtain ⟨b2, _, hte⟩ := hf t ht
    rw [hte]
    rfl
  · rw [← slideBoards_length_eq_tags s.board hs, ← hm, List.length_map]

/-- C3 witness: the goal-only board at (1, 2). -/
theorem claim_C3_witness :
    goodBoard sG12.board ∧
    ∃ L, generate_successors sG12 = some L ∧
      L.map State.board = slideBoards sG12.board ∧
      (∀ t ∈ L, t.depth = sG12.depth + 1) ∧
      (slideTags sG12.board).Nodup ∧
      L.length = (slideTags sG12.board).length :=
  ⟨by decide, claim_C3 sG12 (by decide)⟩

/-- C4: every board produced by `generate_successors` from an
invariant-satisfying board satisfies the same placement invariants
(well-formed pieces with pairwise disjoint in-grid footprints and exactly
one goal piece), and is constructed consistently from its piece list. -/
theorem claim_C4 (s : State) (hs : goodBoard s.board) :
    ∀ L, generate_successors s = some L → ∀ t ∈ L,
      piecesOk t.board.pieces ∧ goodBoard t.board := by
  intro L hL t ht
  obtain ⟨L2, hL2, _, hf⟩ := generate_successors_spec s hs
  rw [hL2, Option.some.injEq] at hL
  rw [← hL] at ht
  obtain ⟨b2, hgood, hte⟩ := hf t ht
  have htb : t.board = b2 := by rw [hte]; rfl
  rw [htb]
  exact ⟨hgood.1, hgood⟩

/-- C4 witness: the goal-only board at (1, 2). -/
theorem claim_C4_witness :
    goodBoard sG12.board ∧
    ∀ L, generate_successors sG12 = some L → ∀ t ∈ L,
      piecesOk t.board.pieces ∧ goodBoard t.board :=
  ⟨by decide, claim_C4 sG12 (by decide)⟩

/-- C9: `generate_successors` computes only with the input state's value
(in this pure embedding the `deepcopy` of the source is a value copy, so
the input board is never mutated), and every generated move yields a fresh
`Board` value: its piece list, its grid and the board itself all differ
from the predecessor's. -/
theorem claim_C9 (s : State) (hs : goodBoard s.board) :
    ∃ L, generate_successors s = some L ∧
      ∀ t ∈ L, t.board ≠ s.board ∧ t.board.pieces ≠ s.board.pieces ∧
        t.board.grid ≠ s.board.grid := by
  obtain ⟨L, hL, hm, hf⟩ := generate_successors_spec s hs
  refine ⟨L, hL, ?_⟩
  intro t ht
  have hbmem : t.board ∈ slideBoards s.board := by
    rw [← hm]
    exact List.mem_map_of_mem State.board ht
  obtain ⟨hgood, p, hp, d, hd, hok, hpieces⟩ := slideBoards_good s.board hs t.board hbmem
  have hgrid : t.board.grid ≠ s.board.grid := slide_grid_ne s.board hs t.board hbmem
  refine ⟨?_, ?_, hgrid⟩
  · intro h
    exact hgrid (congrArg Board.grid h)
  · rw [hpieces]
    exact map_replace_ne s.board.pieces p hp (movePiece p d) (movePiece_ne p d)

/-- C9 witness: the goal-only board at (1, 2). -/
theorem claim_C9_witness :
    goodBoard sG12.board ∧
    ∃ L, generate_successors sG12 = some L ∧
      ∀ t ∈ L, t.board ≠ sG12.board ∧ t.board.pieces ≠ sG12.board.pieces ∧
        t.board.grid ≠ sG12.board.grid :=
  ⟨by decide, claim_C9 sG12 (by decide)⟩

/-- C5 counterexample: an overlapping, invariant-violating piece list for
which `Board` construction nevertheless succeeds — no
`InvalidConfiguration` failure exists in the code. -/
theorem claim_C5_ce :
    ¬ piecesOk [pGoalAt 0 0, pSingleAt 0 0] ∧
    Board.build [pGoalAt 0 0, pSingleAt 0 0] = some bOv1 := by
  exact ⟨by decide, by decide⟩

/-- C5 amended: `Board` construction performs no invariant validation; it
succeeds on every piece list whose written cells are inside the grid,
overlapping pieces and missing or duplicate goal pieces included.  The
only construction-time failure is the index error of an out-of-range grid
write. -/
theorem claim_C5_amended (ps : List Piece)
    (h : ∀ p ∈ ps, ∀ c ∈ cells p, inGrid c) :
    ∃ b, Board.build ps = some b ∧ b.pieces = ps :=
  build_succeeds ps h

/-- C5 witness: the overlapping two-piece list constructs successfully. -/
theorem claim_C5_witness :
    (∀ p ∈ [pGoalAt 0 0, pSingleAt 0 0], ∀ c ∈ cells p, inGrid c) ∧
    ∃ b, Board.build [pGoalAt 0 0, pSingleAt 0 0] = some b ∧
      b.pieces = [pGoalAt 0 0, pSingleAt 0 0] :=
  ⟨by decide, claim_C5_amended [pGoalAt 0 0, pSingleAt 0 0] (by decide)⟩

/-- C6 counterexample: the state identity is the run's salted string hash
of the grid string; two runs with different hash seeds assign different
identity values to the very same state, so the identity is not a canonical
content hash of the piece configuration alone. -/
theorem claim_C6_ce :
    State.idval hashRunA sG12 ≠ State.idval hashRunB sG12 := by
  decide

/-- C6 amended: within one run — that is, for one fixed string-hash
function — the identity is a deterministic function of the board's grid
alone, so states with equal grids always receive equal identity values and
re-running a search in the same run reproduces its output; across runs the
language-default salted string hash carries no such guarantee. -/
theorem claim_C6 (pyhash : String → ℤ) (s1 s2 : State)
    (h : s1.board.grid = s2.board.grid) :
    State.idval pyhash s1 = State.idval pyhash s2 := by
  unfold State.idval
  rw [h]

/-- C6 witness: two states over the same board with different search
metadata share one identity under a fixed run hash. -/
theorem claim_C6_witness :
    (State.mk bG12 0 0 none).board.grid = (State.mk bG12 5 7 none).board.grid ∧
    State.idval hashCount (State.mk bG12 0 0 none) =
      State.idval hashCount (State.mk bG12 5 7 none) :=
  ⟨by decide, claim_C6 hashCount _ _ (by decide)⟩

/-- C10 counterexample: with overlapping pieces the grid depends on the
piece order (the later piece overwrites), so two boards with permuted
piece lists can produce different grid strings and hence different
identity values under the same run hash. -/
theorem claim_C10_ce :
    List.Perm bOv1.pieces bOv2.pieces ∧
    State.idval hashCount (State.mk bOv1 0 0 none) ≠
      State.idval hashCount (State.mk bOv2 0 0 none) := by
  constructor
  · decide
  · decide

/-- C10 amended: the identity is computed solely from the grid string, and
on boards satisfying the placement invariants the grid is determined by
the piece set; therefore two invariant-satisfying boards whose piece lists
are permutations of each other have equal grids and their states receive
equal identity values in any run. -/
theorem claim_C10 (pyhash : String → ℤ) (b1 b2 : Board) (h1 : goodBoard b1)
    (h2 : goodBoard b2) (hperm : List.Perm b1.pieces b2.pieces) :
    b1.grid = b2.grid ∧
    ∀ f1 d1 p1 f2 d2 p2,
      State.idval pyhash (State.mk b1 f1 d1 p1) =
        State.idval pyhash (State.mk b2 f2 d2 p2) := by
  have hg : b1.grid = b2.grid :=
    grid_eq_of_set b1 b2 h1 h2 fun p => hperm.mem_iff
  refine ⟨hg, ?_⟩
  intro f1 d1 p1 f2 d2 p2
  show pyhash (pyStrGrid b1.grid) = pyhash (pyStrGrid b2.grid)
  rw [hg]

/-- C10 witness: a goal piece and a single piece listed in both orders. -/
theorem claim_C10_witness :
    goodBoard bP1 ∧ goodBoard bP2 ∧ List.Perm bP1.pieces bP2.pieces ∧
    bP1.grid = bP2.grid ∧
    State.idval hashCount (State.mk bP1 0 0 none) =
      State.idval hashCount (State.mk bP2 0 0 none) := by
  have h1 : goodBoard bP1 := by decide
  have h2 : goodBoard bP2 := by decide
  have hp : List.Perm bP1.pieces bP2.pieces := by
    have e1 : bP1.pieces = [pGoalAt 1 3, pSingleAt 0 0] := by decide
    have e2 : bP2.pieces = [pSingleAt 0 0, pGoalAt 1 3] := by decide
    rw [e1, e2]
    exact List.Perm.swap _ _ _
  obtain ⟨hg, hid⟩ := claim_C10 hashCount bP1 bP2 h1 h2 hp
  exact ⟨h1, h2, hp, hg, hid 0 0 none 0 0 none⟩

theorem dfsLoop_mono (pyhash : String → ℤ) :
    ∀ (n : ℕ) (frontier : List State) (visited : List ℤ) (r : SearchOutcome),
      dfsLoop pyhash n frontier visited = some r →
      dfsLoop pyhash (n + 1) frontier visited = some r := by
  intro n
  induction n with
  | zero =>
    intro _ _ _ h
    simp [dfsLoop] at h
  | succ n ih =>
    intro frontier visited r h
    rcases hlast : frontier.getLast? with _ | curr
    · have hne : frontier = [] := List.getLast?_eq_none_iff.mp hlast
      subst hne
      rw [dfsLoop_empty] at h
      rw [dfsLoop_empty]
      exact h
    · rw [dfsLoop_pop pyhash n frontier visited curr hlast] at h
      rw [dfsLoop_pop pyhash (n + 1) frontier visited curr hlast]
      by_cases hv : curr.idval pyhash ∈ visited
      · rw [if_pos hv] at h ⊢
        exact ih _ _ _ h
      · rw [if_neg hv] at h ⊢
        by_cases hg : goal_test curr = true
        · rw [if_pos hg] at h ⊢
          exact h
        · rw [if_neg hg] at h ⊢
          rcases hL : generate_successors curr with _ | L
          · rw [hL] at h
            exact h
          · rw [hL] at h
            exact ih _ _ _ h

theorem dfsLoop_mono_le (pyhash : String → ℤ) (n m : ℕ) (hle : n ≤ m)
    (frontier : List State) (visited : List ℤ) (r : SearchOutcome)
    (h : dfsLoop pyhash n frontier visited = some r) :
    dfsLoop pyhash m frontier visited = some r := by
  induction m, hle using Nat.le_induction with
  | base => exact h
  | succ m _ ih => exact dfsLoop_mono pyhash m frontier visited r ih

theorem astarLoop_mono (pyhash : String → ℤ) :
    ∀ (n : ℕ) (frontier : List State) (visited : List ℤ) (r : SearchOutcome),
      astarLoop pyhash n frontier visited = some r →
      astarLoop pyhash (n + 1) frontier visited = some r := by
  intro n
  induction n with
  | zero =>
    intro _ _ _ h
    simp [astarLoop] at h
  | succ n ih =>
    intro frontier visited r h
    cases frontier with
    | nil =>
      rw [astarLoop_empty] at h
      rw [astarLoop_empty]
      exact h
    | cons curr rest =>
      rw [astarLoop_pop] at h
      rw [astarLoop_pop]
      by_cases hv : curr.idval pyhash ∈ visited
      · rw [if_pos hv] at h ⊢
        exact ih _ _ _ h
      · rw [if_neg hv] at h ⊢
        by_cases hg : goal_test curr = true
        · rw [if_pos hg] at h ⊢
          exact h
        · rw [if_neg hg] at h ⊢
          rcases hL : generate_successors curr with _ | L
          · rw [hL] at h
            exact h
          · rw [hL] at h
            exact ih _ _ _ h

theorem astarLoop_mono_le (pyhash : String → ℤ) (n m : ℕ) (hle : n ≤ m)
    (frontier : List State) (visited : List ℤ) (r : SearchOutcome)
    (h : astarLoop pyhash n frontier visited = some r) :
    astarLoop pyhash m frontier visited = some r := by
  induction m, hle using Nat.le_induction with
  | base => exact h
  | succ m _ ih => exact astarLoop_mono pyhash m frontier visited r ih

/-- C7: on an initial state whose board satisfies the placement
invariants, DFS terminates with a definite outcome — stable under any
larger fuel bound — which is never an exception: it is either a returned
state passing the goal test, or the `None` result of the emptied stack,
the defined "no solution" outcome. -/
theorem claim_C7 (pyhash : String → ℤ) (b : Board) (hb : goodBoard b) (f d : ℤ) :
    ∃ (n : ℕ) (r : SearchOutcome), DFS pyhash n (State.mk b f d none) = some r ∧
      (∀ m, n ≤ m → DFS pyhash m (State.mk b f d none) = some r) ∧
      r ≠ SearchOutcome.fault ∧
      (r = SearchOutcome.noSolution ∨
        ∃ t, r = SearchOutcome.found t ∧ goal_test t = true) := by
  set root := State.mk b f d none with hroot
  have hinv : ∀ t ∈ [root], goodBoard t.board ∧ kindsMatch b.pieces t.board.pieces ∧
      Lineage root t := by
    intro t ht
    rw [List.mem_singleton] at ht
    rw [ht, hroot]
    exact ⟨hb, kindsMatch_refl b.pieces, Lineage.base⟩
  set n0 := searchMeasure pyhash b.pieces [root] [] + 1 with hn0
  obtain ⟨r, hr, hcases⟩ := dfsLoop_total pyhash b.pieces root n0 [root] [] hinv (by omega)
  refine ⟨n0, r, hr, ?_, ?_, ?_⟩
  · intro m hm
    exact dfsLoop_mono_le pyhash n0 m hm [root] [] r hr
  · rcases hcases with h | ⟨t, ht, _⟩
    · rw [h]
      intro hcontra
      cases hcontra
    · rw [ht]
      intro hcontra
      cases hcontra
  · rcases hcases with h | ⟨t, ht, htg, _⟩
    · exact Or.inl h
    · exact Or.inr ⟨t, ht, htg⟩

/-- C7 witness: the goal-only board at (1, 2). -/
theorem claim_C7_witness :
    goodBoard bG12 ∧
    ∃ (n : ℕ) (r : SearchOutcome),
      DFS hashCount n (State.mk bG12 0 0 none) = some r ∧
      (∀ m, n ≤ m → DFS hashCount m (State.mk bG12 0 0 none) = some r) ∧
      r ≠ SearchOutcome.fault ∧
      (r = SearchOutcome.noSolution ∨
        ∃ t, r = SearchOutcome.found t ∧ goal_test t = true) :=
  ⟨by decide, claim_C7 hashCount bG12 (by decide) 0 0⟩

theorem heappush_nil (pyhash : String → ℤ) (s : State) :
    heappush pyhash [] s = [s] := rfl

/-- C8: every terminal state returned by DFS or by A_star over an
invariant-satisfying initial board has a parent chain that reaches the
root state (the one with `parent = None`) without cycles; reversing the
collected chain, as `write_to_file` does, yields a board sequence starting
at the initial board whose consecutive entries differ by exactly one legal
single-piece single-cell slide, ending at the terminal board, and whose
length equals the terminal state's depth. -/
theorem claim_C8 (pyhash : String → ℤ) (b : Board) (hb : goodBoard b)
    (fuel : ℕ) (r : State)
    (hrun : DFS pyhash fuel (State.mk b 0 0 none) = some (SearchOutcome.found r) ∨
      A_star pyhash fuel (State.mk b 0 0 none) = some (SearchOutcome.found r)) :
    rootOf r = State.mk b 0 0 none ∧
    ((all_states r).length : ℤ) = r.depth ∧
    List.Chain' (fun x y => y ∈ slideBoards x) (b :: (all_states r).map State.board) ∧
    (b :: (all_states r).map State.board).getLast? = some r.board := by
  set root := State.mk b 0 0 none with hroot
  have hinv : ∀ t ∈ [root], goodBoard t.board ∧ kindsMatch b.pieces t.board.pieces ∧
      Lineage root t := by
    intro t ht
    rw [List.mem_singleton] at ht
    rw [ht]
    exact ⟨hb, kindsMatch_refl b.pieces, Lineage.base⟩
  have hlin : Lineage root r := by
    rcases hrun with h | h
    · unfold DFS at h
      exact (dfsLoop_sound pyhash b.pieces root fuel [root] [] hinv r h).2.2.2
    · unfold A_star at h
      rw [heappush_nil] at h
      exact (astarLoop_sound pyhash b.pieces root fuel [root] [] hinv r h).2.2.2
  obtain ⟨hgood, hro, hdep, hlen, hchain, hlast2⟩ :=
    lineage_props root hb rfl r hlin
  refine ⟨?_, ?_, hchain, hlast2⟩
  · rw [hro]
    rfl
  · rw [hlen]
    show r.depth - (0 : ℤ) = r.depth
    omega

/-- C8 witness: a finished DFS run on the goal-only board. -/
theorem claim_C8_witness :
    goodBoard bG12 ∧
    DFS hashPos 40 (State.mk bG12 0 0 none) = some (SearchOutcome.found rDFS) ∧
    (rootOf rDFS = State.mk bG12 0 0 none ∧
      ((all_states rDFS).length : ℤ) = rDFS.depth ∧
      List.Chain' (fun x y => y ∈ slideBoards x)
        (bG12 :: (all_states rDFS).map State.board) ∧
      (bG12 :: (all_states rDFS).map State.board).getLast? = some rDFS.board) := by
  have hgood : goodBoard bG12 := by decide
  have hrun : DFS hashPos 40 (State.mk bG12 0 0 none) =
      some (SearchOutcome.found rDFS) := by rfl
  exact ⟨hgood, hrun, claim_C8 hashPos bG12 hgood 40 rDFS (Or.inl hrun)⟩

/-! ## Grid determinism: a good board's piece set can be read off its grid -/

theorem manhattan_nonneg (b : Board) : 0 ≤ manhattan_distance b := by
  unfold manhattan_distance
  positivity

theorem stateLe_f (pyhash : String → ℤ) (a b : State) (h : stateLe pyhash a b) :
    a.f ≤ b.f := by
  unfold stateLe stateLtb at h
  split_ifs at h with h1
  · omega
  · simp only [decide_eq_false_iff_not, not_lt] at h
    exact h

theorem sorted_head_f (pyhash : String → ℤ) (curr : State) (rest : List State)
    (h : List.Sorted (stateLe pyhash) (curr :: rest)) (s : State)
    (hs : s ∈ curr :: rest) : curr.f ≤ s.f := by
  rcases List.mem_cons.mp hs with rfl | hs2
  · exact le_refl _
  · exact stateLe_f pyhash curr s ((List.sorted_cons.mp h).1 s hs2)

theorem sorted_heappush (pyhash : String → ℤ) (F : List State) (item : State)
    (h : List.Sorted (stateLe pyhash) F) :
    List.Sorted (stateLe pyhash) (heappush pyhash F item) :=
  List.Sorted.orderedInsert item F h

theorem sorted_foldl_heappush (pyhash : String → ℤ) (L : List State) :
    ∀ F : List State, List.Sorted (stateLe pyhash) F →
      List.Sorted (stateLe pyhash) (L.foldl (heappush pyhash) F) := by
  induction L with
  | nil => intro F h; exact h
  | cons a l ih =>
    intro F h
    rw [List.foldl_cons]
    exact ih _ (sorted_heappush pyhash F a h)

theorem BReachN_snoc {n : ℕ} {a b c : Board} (h : BReachN n a b)
    (hc : c ∈ succBoards b) : BReachN (n + 1) a c := by
  induction h with
  | refl b0 => exact BReachN.step hc (BReachN.refl c)
  | step hstep _ ih => exact BReachN.step hstep (ih hc)

theorem BReachN_snoc_inv : ∀ (n : ℕ) (a b : Board), BReachN (n + 1) a b →
    ∃ b1, BReachN n a b1 ∧ b ∈ succBoards b1 := by
  intro n
  induction n with
  | zero =>
    intro a b h
    cases h with
    | step hstep hrest =>
      cases hrest
      exact ⟨a, BReachN.refl a, hstep⟩
  | succ n ih =>
    intro a b h
    cases h with
    | step hstep hrest =>
      rename_i c2
      obtain ⟨b1, hb1, hb⟩ := ih c2 b hrest
      exact ⟨b1, BReachN.step hstep hb1, hb⟩

theorem map_replace_mem_iff (l : List Piece) (p x q : Piece) (hp : p ∈ l) :
    q ∈ l.map (fun a => if a = p then x else a) ↔ q = x ∨ (q ∈ l ∧ q ≠ p) := by
  rw [List.mem_map]
  constructor
  · rintro ⟨a, ha, heq⟩
    by_cases hap : a = p
    · rw [if_pos hap] at heq
      exact Or.inl heq.symm
    · rw [if_neg hap] at heq
      exact Or.inr ⟨heq ▸ ha, heq ▸ hap⟩
  · rintro (rfl | ⟨hq, hne⟩)
    · exact ⟨p, hp, by rw [if_pos rfl]⟩
    · exact ⟨q, hq, by rw [if_neg hne]⟩

theorem piece_eq (p q : Piece) (h1 : p.is_goal = q.is_goal)
    (h2 : p.is_single = q.is_single) (h3 : p.coord_x = q.coord_x)
    (h4 : p.coord_y = q.coord_y) (h5 : p.orientation = q.orientation) : p = q := by
  cases p
  cases q
  simp_all

/-- What the character a good board's grid holds at one of a piece's cells
reveals about that piece: the anchor characters pin the piece completely,
and the goal character pins the kind. -/
theorem piece_of_anchor_char (b : Board) (hb : goodBoard b) (q : Piece)
    (hq : q ∈ b.pieces) (c : Cell) (hcq : c ∈ cells q) :
    (cellChar q c = '2' → q = ⟨false, true, c.1, c.2, none⟩) ∧
    (cellChar q c = '<' → q = ⟨false, false, c.1, c.2, some 'h'⟩) ∧
    (cellChar q c = '^' → q = ⟨false, false, c.1, c.2, some 'v'⟩) ∧
    (cellChar q c = '1' → q.is_goal = true) := by
  rcases (hb.1.1 q hq).1 with ⟨ha, hs, ho⟩ | ⟨ha, hs, ho⟩ | ⟨ha, hs, ho⟩
  · have hch : cellChar q c = '1' := by simp [cellChar, ha, char_goal]
    refine ⟨?_, ?_, ?_, fun _ => ha⟩ <;> intro hcontra <;> rw [hch] at hcontra <;>
      exact absurd hcontra (by decide)
  · have hch : cellChar q c = '2' := by simp [cellChar, ha, hs, char_single]
    have hc2 : c = (q.coord_x, q.coord_y) := by simpa [cells, ha, hs] using hcq
    refine ⟨fun _ => ?_, ?_, ?_, ?_⟩
    · apply piece_eq <;> simp [ha, hs, ho, hc2]
    · intro hcontra; rw [hch] at hcontra; exact absurd hcontra (by decide)
    · intro hcontra; rw [hch] at hcontra; exact absurd hcontra (by decide)
    · intro hcontra; rw [hch] at hcontra; exact absurd hcontra (by decide)
  · rcases ho with ho | ho
    · have hch : cellChar q c = if c.1 = q.coord_x then '<' else '>' := by
        unfold cellChar
        rw [if_neg (by simp [ha]), if_neg (by simp [hs]), if_pos ho]
      have hcm : c = (q.coord_x, q.coord_y) ∨ c = (q.coord_x + 1, q.coord_y) := by
        simpa [cells, ha, hs, ho] using hcq
      refine ⟨?_, fun h => ?_, ?_, ?_⟩
      · intro hcontra; rw [hch] at hcontra
        split_ifs at hcontra <;> exact absurd hcontra (by decide)
      · rw [hch] at h
        by_cases hxc : c.1 = q.coord_x
        · rcases hcm with hcm | hcm
          · apply piece_eq <;> simp [ha, hs, ho, hcm]
          · exfalso
            rw [hcm] at hxc
            have hx2 : q.coord_x + 1 = q.coord_x := hxc
            omega
        · rw [if_neg hxc] at h
          exact absurd h (by decide)
      · intro hcontra; rw [hch] at hcontra
        split_ifs at hcontra <;> exact absurd hcontra (by decide)
      · intro hcontra; rw [hch] at hcontra
        split_ifs at hcontra <;> exact absurd hcontra (by decide)
    · have hch : cellChar q c = if c.2 = q.coord_y then '^' else 'v' := by
        unfold cellChar
        rw [if_neg (by simp [ha]), if_neg (by simp [hs]), if_neg (by rw [ho]; decide)]
      have hcm : c = (q.coord_x, q.coord_y) ∨ c = (q.coord_x, q.coord_y + 1) := by
        simpa [cells, ha, hs, ho] using hcq
      refine ⟨?_, ?_, fun h => ?_, ?_⟩
      · intro hcontra; rw [hch] at hcontra
        split_ifs at hcontra <;> exact absurd hcontra (by decide)
      · intro hcontra; rw [hch] at hcontra
        split_ifs at hcontra <;> exact absurd hcontra (by decide)
      · rw [hch] at h
        by_cases hyc : c.2 = q.coord_y
        · rcases hcm with hcm | hcm
          · apply piece_eq <;> simp [ha, hs, ho, hcm]
          · exfalso
            rw [hcm] at hyc
            have hy2 : q.coord_y + 1 = q.coord_y := hyc
            omega
        · rw [if_neg hyc] at h
          exact absurd h (by decide)
      · intro hcontra; rw [hch] at hcontra
        split_ifs at hcontra <;> exact absurd hcontra (by decide)

/-- On good boards the grid determines the piece set: every piece of a
good board belongs to any good board with the same grid. -/
theorem piece_mem_of_grid (b1 b2 : Board) (h1 : goodBoard b1) (h2 : goodBoard b2)
    (hg : b1.grid = b2.grid) (p : Piece) (hp : p ∈ b1.pieces) : p ∈ b2.pieces := by
  have hwfin := h1.1.1 p hp
  have hcell : ∀ c ∈ cells p, ∃ q ∈ b2.pieces, c ∈ cells q ∧
      cellChar q c = cellChar p c := by
    intro c hc
    have hcin := hwfin.2 c hc
    have hb1c : cellAt b1.grid c = some (cellChar p c) :=
      (good_cell_facts b1 h1 c hcin).2 p hp hc
    have hb2c : cellAt b2.grid c = some (cellChar p c) := by rw [← hg]; exact hb1c
    by_cases hcov : ∃ q ∈ b2.pieces, c ∈ cells q
    · obtain ⟨q, hq, hcq⟩ := hcov
      have hqc := (good_cell_facts b2 h2 c hcin).2 q hq hcq
      rw [hb2c, Option.some.injEq] at hqc
      exact ⟨q, hq, hcq, hqc.symm⟩
    · push_neg at hcov
      have hemp := (good_cell_facts b2 h2 c hcin).1 hcov
      rw [hb2c, Option.some.injEq] at hemp
      exact absurd hemp (cellChar_ne_empty p c)
  rcases hwfin.1 with ⟨ha, hs, ho⟩ | ⟨ha, hs, ho⟩ | ⟨ha, hs, ho⟩
  · have hchp : ∀ c : Cell, cellChar p c = '1' := fun c => by
      simp [cellChar, ha, char_goal]
    have hc1 : (p.coord_x, p.coord_y) ∈ cells p := by simp [cells, ha]
    have hc4 : (p.coord_x + 1, p.coord_y + 1) ∈ cells p := by simp [cells, ha]
    obtain ⟨q1, hq1, hcq1, hch1⟩ := hcell _ hc1
    obtain ⟨q4, hq4, hcq4, hch4⟩ := hcell _ hc4
    obtain ⟨gp, hgp, hgpg, _, hgpu⟩ := good_goal b2 h2
    have hq1g : q1.is_goal = true :=
      (piece_of_anchor_char b2 h2 q1 hq1 _ hcq1).2.2.2 (by rw [hch1, hchp])
    have hq4g : q4.is_goal = true :=
      (piece_of_anchor_char b2 h2 q4 hq4 _ hcq4).2.2.2 (by rw [hch4, hchp])
    rw [hgpu q1 hq1 hq1g] at hcq1
    rw [hgpu q4 hq4 hq4g] at hcq4
    rcases (h2.1.1 gp hgp).1 with ⟨hga, hgs, hgo⟩ | ⟨hga, _, _⟩ | ⟨hga, _, _⟩
    · have hm1 : (p.coord_x, p.coord_y) = (gp.coord_x, gp.coord_y) ∨
          (p.coord_x, p.coord_y) = (gp.coord_x + 1, gp.coord_y) ∨
          (p.coord_x, p.coord_y) = (gp.coord_x, gp.coord_y + 1) ∨
          (p.coord_x, p.coord_y) = (gp.coord_x + 1, gp.coord_y + 1) := by
        simpa [cells, hga] using hcq1
      have hm4 : (p.coord_x + 1, p.coord_y + 1) = (gp.coord_x, gp.coord_y) ∨
          (p.coord_x + 1, p.coord_y + 1) = (gp.coord_x + 1, gp.coord_y) ∨
          (p.coord_x + 1, p.coord_y + 1) = (gp.coord_x, gp.coord_y + 1) ∨
          (p.coord_x + 1, p.coord_y + 1) = (gp.coord_x + 1, gp.coord_y + 1) := by
        simpa [cells, hga] using hcq4
      have hx : p.coord_x = gp.coord_x ∧ p.coord_y = gp.coord_y := by
        rcases hm1 with h | h | h | h <;> rcases hm4 with h4 | h4 | h4 | h4 <;>
          (rw [Prod.mk.injEq] at h h4; omega)
      have hpe : p = gp :=
        piece_eq p gp (by rw [ha, hgpg]) (by rw [hs, hgs]) hx.1 hx.2 (by rw [ho, hgo])
      rw [hpe]
      exact hgp
    · rw [hga] at hgpg
      exact absurd hgpg Bool.false_ne_true
    · rw [hga] at hgpg
      exact absurd hgpg Bool.false_ne_true
  · have hchp : cellChar p (p.coord_x, p.coord_y) = '2' := by
      simp [cellChar, ha, hs, char_single]
    have hc1 : (p.coord_x, p.coord_y) ∈ cells p := by simp [cells, ha, hs]
    obtain ⟨q, hq, hcq, hch⟩ := hcell _ hc1
    have hqe := (piece_of_anchor_char b2 h2 q hq _ hcq).1 (by rw [hch, hchp])
    have hpe : p = q := by
      rw [hqe]
      apply piece_eq <;> simp [ha, hs, ho]
    rw [hpe]
    exact hq
  · rcases ho with ho | ho
    · have hchp : cellChar p (p.coord_x, p.coord_y) = '<' := by
        unfold cellChar
        rw [if_neg (by simp [ha]), if_neg (by simp [hs]), if_pos ho, if_pos rfl]
      have hc1 : (p.coord_x, p.coord_y) ∈ cells p := by simp [cells, ha, hs, ho]
      obtain ⟨q, hq, hcq, hch⟩ := hcell _ hc1
      have hqe := (piece_of_anchor_char b2 h2 q hq _ hcq).2.1 (by rw [hch, hchp])
      have hpe : p = q := by
        rw [hqe]
        apply piece_eq <;> simp [ha, hs, ho]
      rw [hpe]
      exact hq
    · have hchp : cellChar p (p.coord_x, p.coord_y) = '^' := by
        unfold cellChar
        rw [if_neg (by simp [ha]), if_neg (by simp [hs]), if_neg (by rw [ho]; decide),
          if_pos rfl]
      have hc1 : (p.coord_x, p.coord_y) ∈ cells p := by simp [cells, ha, hs, ho]
      obtain ⟨q, hq, hcq, hch⟩ := hcell _ hc1
      have hqe := (piece_of_anchor_char b2 h2 q hq _ hcq).2.2.1 (by rw [hch, hchp])
      have hpe : p = q := by
        rw [hqe]
        apply piece_eq <;> simp [ha, hs, ho]
      rw [hpe]
      exact hq

theorem pieces_iff_of_grid (b1 b2 : Board) (h1 : goodBoard b1) (h2 : goodBoard b2)
    (hg : b1.grid = b2.grid) (p : Piece) : p ∈ b1.pieces ↔ p ∈ b2.pieces :=
  ⟨piece_mem_of_grid b1 b2 h1 h2 hg p, piece_mem_of_grid b2 b1 h2 h1 hg.symm p⟩

/-- Two good boards with the same grid track the same goal coordinates. -/
theorem goalcoords_of_grid (b1 b2 : Board) (h1 : goodBoard b1) (h2 : goodBoard b2)
    (hg : b1.grid = b2.grid) :
    b1.goal_piece_coordinates = b2.goal_piece_coordinates := by
  obtain ⟨gp1, hgp1, hg1g, hco1, _⟩ := good_goal b1 h1
  obtain ⟨gp2, hgp2, hg2g, hco2, hu2⟩ := good_goal b2 h2
  have hmem : gp1 ∈ b2.pieces := piece_mem_of_grid b1 b2 h1 h2 hg gp1 hgp1
  rw [hco1, hco2, hu2 gp1 hmem hg1g]

theorem goal_of_grid (b1 b2 : Board) (h1 : goodBoard b1) (h2 : goodBoard b2)
    (hg : b1.grid = b2.grid) : isGoalBoard b1 ↔ isGoalBoard b2 := by
  unfold isGoalBoard
  rw [goalcoords_of_grid b1 b2 h1 h2 hg]

theorem manhattan_of_grid (b1 b2 : Board) (h1 : goodBoard b1) (h2 : goodBoard b2)
    (hg : b1.grid = b2.grid) : manhattan_distance b1 = manhattan_distance b2 := by
  unfold manhattan_distance
  rw [goalcoords_of_grid b1 b2 h1 h2 hg]

theorem slideOk_of_grid (b1 b2 : Board) (h1 : goodBoard b1) (h2 : goodBoard b2)
    (hg : b1.grid = b2.grid) (p : Piece) (d : String) (hok : slideOk b1 p d) :
    slideOk b2 p d := by
  intro c hc
  obtain ⟨hcin, hfree⟩ := hok c hc
  exact ⟨hcin, fun q hq => hfree q (piece_mem_of_grid b2 b1 h2 h1 hg.symm q hq)⟩

/-- Grid-level successor transfer: two good boards with the same grid have
the same successor grids. -/
theorem slideBoards_grid (b1 b2 : Board) (h1 : goodBoard b1) (h2 : goodBoard b2)
    (hg : b1.grid = b2.grid) :
    ∀ c ∈ slideBoards b1, ∃ c2 ∈ slideBoards b2, c2.grid = c.grid := by
  intro c hc
  rw [mem_slideBoards_iff] at hc
  obtain ⟨p, hp, d, hd, hok, hsb⟩ := hc
  have hp2 : p ∈ b2.pieces := piece_mem_of_grid b1 b2 h1 h2 hg p hp
  have hok2 : slideOk b2 p d := slideOk_of_grid b1 b2 h1 h2 hg p d hok
  have hmv2 : piecesOk (b2.pieces.map fun q => if q = p then movePiece p d else q) :=
    slide_piecesOk b2.pieces h2.1 p hp2 d hok2
  obtain ⟨c2, hc2b, hc2good, hc2p⟩ := build_good _ hmv2
  have hmv1 : piecesOk (b1.pieces.map fun q => if q = p then movePiece p d else q) :=
    slide_piecesOk b1.pieces h1.1 p hp d hok
  obtain ⟨c1, hc1b, hc1good, hc1p⟩ := build_good _ hmv1
  unfold slideBoard at hsb
  rw [hc1b, Option.some.injEq] at hsb
  refine ⟨c2, ?_, ?_⟩
  · rw [mem_slideBoards_iff]
    refine ⟨p, hp2, d, hd, hok2, ?_⟩
    unfold slideBoard
    rw [hc2b]
  · rw [← hsb]
    apply grid_eq_of_set c2 c1 hc2good hc1good
    intro q
    rw [hc2p, hc1p, map_replace_mem_iff _ p _ q hp2, map_replace_mem_iff _ p _ q hp]
    constructor
    · rintro (h | ⟨hm, hne⟩)
      · exact Or.inl h
      · exact Or.inr ⟨piece_mem_of_grid b2 b1 h2 h1 hg.symm q hm, hne⟩
    · rintro (h | ⟨hm, hne⟩)
      · exact Or.inl h
      · exact Or.inr ⟨piece_mem_of_grid b1 b2 h1 h2 hg q hm, hne⟩

/-- Goal reachability transfers between good boards with the same grid. -/
theorem reach_goal_of_grid : ∀ (k : ℕ) (b1 b2 : Board), goodBoard b1 →
    goodBoard b2 → b1.grid = b2.grid → ∀ g, BReachN k b1 g → isGoalBoard g →
    ∃ g2, BReachN k b2 g2 ∧ isGoalBoard g2 := by
  intro k
  induction k with
  | zero =>
    intro b1 b2 h1 h2 hg g hr hgoal
    cases hr
    exact ⟨b2, BReachN.refl b2, (goal_of_grid b1 b2 h1 h2 hg).mp hgoal⟩
  | succ k ih =>
    intro b1 b2 h1 h2 hg g hr hgoal
    cases hr with
    | step hstep hrest =>
      rename_i c2
      rw [succBoards_eq b1 h1] at hstep
      obtain ⟨c2b, hc2bmem, hc2bgrid⟩ := slideBoards_grid b1 b2 h1 h2 hg c2 hstep
      have hc2good : goodBoard c2 := (slideBoards_good b1 h1 c2 hstep).1
      have hc2bgood : goodBoard c2b := (slideBoards_good b2 h2 c2b hc2bmem).1
      obtain ⟨g2, hg2r, hg2goal⟩ :=
        ih c2 c2b hc2good hc2bgood hc2bgrid.symm g hrest hgoal
      exact ⟨g2, BReachN.step ((succBoards_eq b2 h2).symm ▸ hc2bmem) hg2r, hg2goal⟩

/-- Consistency of the heuristic along any successor path: it drops by at
most one per slide. -/
theorem path_manhattan : ∀ (k : ℕ) (a b : Board), goodBoard a → BReachN k a b →
    manhattan_distance a ≤ manhattan_distance b + k := by
  intro k
  induction k with
  | zero =>
    intro a b _ hr
    cases hr
    simp
  | succ k ih =>
    intro a b ha hr
    cases hr with
    | step hstep hrest =>
      rename_i c2
      rw [succBoards_eq a ha] at hstep
      have hstep1 := manhattan_step a ha c2 hstep
      have hc2good : goodBoard c2 := (slideBoards_good a ha c2 hstep).1
      have hstep2 := ih c2 b hc2good hrest
      push_cast
      push_cast at hstep2
      linarith

/-- The frontier covers every unvisited reachable grid: some frontier
state sits on a same-length path to it, at a depth bounded by its position
on that path. -/
theorem key_cover (pyhash : String → ℤ) (b0 : Board) (hb0 : goodBoard b0)
    (hinj : GridInj pyhash b0) (F : List State) (V : List ℤ)
    (hIV : astarInv pyhash b0 F V) :
    ∀ (n : ℕ) (b : Board), BReachN n b0 b →
      pyhash (pyStrGrid b.grid) ∉ V →
      ∃ s ∈ F, ∃ i : ℕ, i ≤ n ∧ s.depth ≤ (i : ℤ) ∧
        ∃ gb, BReachN (n - i) s.board gb ∧ gb.grid = b.grid := by
  obtain ⟨hsort, hfr, ⟨E, hVE, hrec⟩, hroot⟩ := hIV
  intro n
  induction n with
  | zero =>
    intro b hr hnv
    cases hr
    rcases hroot with h | ⟨s, hs, hgrid, hdep⟩
    · exact absurd h hnv
    · exact ⟨s, hs, 0, le_refl 0, hdep, s.board, BReachN.refl _, hgrid⟩
  | succ n ih =>
    intro b hr hnv
    obtain ⟨b1, hr1, hstep⟩ := BReachN_snoc_inv n b0 b hr
    have hb1good : goodBoard b1 := BReachN_good hr1 hb0
    have hstepS : b ∈ slideBoards b1 := by rwa [succBoards_eq b1 hb1good] at hstep
    by_cases hv1 : pyhash (pyStrGrid b1.grid) ∈ V
    · obtain ⟨e, he, heq⟩ := (hVE _).mp hv1
      obtain ⟨hegood, hereach, _, hemin, hecover⟩ := hrec e he
      have hegrid : e.1.grid = b1.grid :=
        hinj e.1 b1 ⟨e.2, hereach⟩ ⟨n, hr1⟩ heq.symm
      obtain ⟨cp, hcpmem, hcpgrid⟩ :=
        slideBoards_grid b1 e.1 hb1good hegood hegrid.symm b hstepS
      rcases hecover cp hcpmem with hvis | ⟨s, hs, hsgrid, hsdep⟩
      · rw [hcpgrid] at hvis
        exact absurd hvis hnv
      · have hle : e.2 ≤ n := hemin n b1 hr1 hegrid.symm
        refine ⟨s, hs, n + 1, le_refl _, ?_, s.board, ?_, by rw [hsgrid, hcpgrid]⟩
        · omega
        · have h0 : n + 1 - (n + 1) = 0 := by omega
          rw [h0]
          exact BReachN.refl _
    · obtain ⟨s, hs, i, hin, hdep, gb, hgb, hgbgrid⟩ := ih b1 hr1 hv1
      have hsgood : goodBoard s.board := (hfr s hs).1
      have hgbgood : goodBoard gb := BReachN_good hgb hsgood
      obtain ⟨cp, hcpmem, hcpgrid⟩ :=
        slideBoards_grid b1 gb hb1good hgbgood hgbgrid.symm b hstepS
      refine ⟨s, hs, i, Nat.le_succ_of_le hin, hdep, cp, ?_, hcpgrid⟩
      have hsn : BReachN (n - i + 1) s.board cp := by
        refine BReachN_snoc hgb ?_
        rw [succBoards_eq gb hgbgood]
        exact hcpmem
      have heq2 : n + 1 - i = n - i + 1 := by omega
      rw [heq2]
      exact hsn

/-- The A* loop, run under the loop invariant with enough fuel, returns a
goal state whose depth is exactly the optimal goal distance `D`. -/
theorem astar_opt_loop (pyhash : String → ℤ) (b0 : Board) (hb0 : goodBoard b0)
    (hinj : GridInj pyhash b0) (D : ℕ)
    (hD : ∃ g, BReachN D b0 g ∧ isGoalBoard g)
    (hDmin : ∀ m g, BReachN m b0 g → isGoalBoard g → D ≤ m) :
    ∀ (n : ℕ) (F : List State) (V : List ℤ), astarInv pyhash b0 F V →
      searchMeasure pyhash b0.pieces F V < n →
      ∃ r, astarLoop pyhash n F V = some (SearchOutcome.found r) ∧
        isGoalBoard r.board ∧ r.depth = (D : ℤ) ∧ BReachN D b0 r.board := by
  obtain ⟨gD, hgD, hgDgoal⟩ := hD
  have hgDgood : goodBoard gD := BReachN_good hgD hb0
  intro n
  induction n with
  | zero =>
    intro F V _ hm
    omega
  | succ n ih =>
    intro F V hIV hm
    have hgnv : pyhash (pyStrGrid gD.grid) ∉ V := by
      intro hmem
      obtain ⟨E, hVE, hrec⟩ := hIV.2.2.1
      obtain ⟨e, he, heqv⟩ := (hVE _).mp hmem
      obtain ⟨hegood, hereach, hengoal, _, _⟩ := hrec e he
      have hegrid : e.1.grid = gD.grid :=
        hinj e.1 gD ⟨e.2, hereach⟩ ⟨D, hgD⟩ heqv.symm
      exact hengoal ((goal_of_grid e.1 gD hegood hgDgood hegrid).mpr hgDgoal)
    cases F with
    | nil =>
      obtain ⟨s, hs, _⟩ := key_cover pyhash b0 hb0 hinj [] V hIV D gD hgD hgnv
      exact absurd hs (List.not_mem_nil s)
    | cons curr rest =>
      obtain ⟨hsort, hfr, hEx, hrootcov⟩ := hIV
      obtain ⟨hcgood, hckinds, ⟨mc, hmc, hcreach⟩, hcf⟩ :=
        hfr curr (List.mem_cons_self curr rest)
      by_cases hv : curr.idval pyhash ∈ V
      · -- stale pop: skip it
        have hIV2 : astarInv pyhash b0 rest V := by
          refine ⟨(List.sorted_cons.mp hsort).2,
            fun s hs => hfr s (List.mem_cons_of_mem curr hs), ?_, ?_⟩
          · obtain ⟨E, hVE, hrec⟩ := hEx
            refine ⟨E, hVE, fun e he => ?_⟩
            obtain ⟨h1, h2, h3, h4, h5⟩ := hrec e he
            refine ⟨h1, h2, h3, h4, fun c hc => ?_⟩
            rcases h5 c hc with hvis | ⟨s, hsm, hsg, hsd⟩
            · exact Or.inl hvis
            · rcases List.mem_cons.mp hsm with rfl | hs2
              · left
                rw [← hsg]
                exact hv
              · exact Or.inr ⟨s, hs2, hsg, hsd⟩
          · rcases hrootcov with h | ⟨s, hsm, hsg, hsd⟩
            · exact Or.inl h
            · rcases List.mem_cons.mp hsm with rfl | hs2
              · left
                rw [← hsg]
                exact hv
              · exact Or.inr ⟨s, hs2, hsg, hsd⟩
        have hm2 : searchMeasure pyhash b0.pieces rest V < n := by
          unfold searchMeasure at hm ⊢
          simp only [List.length_cons] at hm
          omega
        obtain ⟨r, hr, hrest⟩ := ih rest V hIV2 hm2
        refine ⟨r, ?_, hrest⟩
        rw [astarLoop_pop pyhash n curr rest V, if_pos hv]
        exact hr
      · by_cases hgoal : goal_test curr = true
        · -- a goal state is popped: it is optimal
          have hgb : isGoalBoard curr.board := of_decide_eq_true hgoal
          have hlow : D ≤ mc := hDmin mc curr.board hcreach hgb
          obtain ⟨s, hs, i, hiD, hsdep, gb, hgbr, hgbgrid⟩ :=
            key_cover pyhash b0 hb0 hinj (curr :: rest) V
              ⟨hsort, hfr, hEx, hrootcov⟩ D gD hgD hgnv
          have hsgood : goodBoard s.board := (hfr s hs).1
          have hgbgood : goodBoard gb := BReachN_good hgbr hsgood
          have hgbgoal : isGoalBoard gb :=
            (goal_of_grid gb gD hgbgood hgDgood hgbgrid).mpr hgDgoal
          have hadm : manhattan_distance s.board ≤ ((D - i : ℕ) : ℤ) :=
            manhattan_admissible s.board (D - i) gb hgbr hgbgoal hsgood
          have hsf : s.f ≤ s.depth + manhattan_distance s.board := by
            rcases (hfr s hs).2.2.2 with h | ⟨hd0, hf0⟩
            · exact le_of_eq h
            · rw [hd0, hf0]
              simpa using manhattan_nonneg s.board
          have hcfle : curr.f ≤ s.f := sorted_head_f pyhash curr rest hsort s hs
          have hcd : curr.depth ≤ curr.f := by
            rcases hcf with h | ⟨h1, h2⟩
            · rw [h]
              have := manhattan_nonneg curr.board
              omega
            · rw [h1, h2]
          have hup : curr.depth ≤ (D : ℤ) := by omega
          refine ⟨curr, ?_, hgb, ?_, ?_⟩
          · rw [astarLoop_pop pyhash n curr rest V, if_neg hv, if_pos hgoal]
          · omega
          · have hmcD : mc = D := by omega
            rw [← hmcD]
            exact hcreach
        · -- expansion step
          have hcngoal : ¬ isGoalBoard curr.board := fun hP => hgoal (decide_eq_true hP)
          obtain ⟨L, hL, hmL, hfL⟩ := generate_successors_spec curr hcgood
          have hLmem : ∀ t ∈ L, t.board ∈ slideBoards curr.board := by
            intro t ht
            rw [← hmL]
            exact List.mem_map_of_mem State.board ht
          have hLfront : ∀ t ∈ L, frontInv b0 t := by
            intro t ht
            obtain ⟨b2, hb2good, hte⟩ := hfL t ht
            have htb : t.board = b2 := by rw [hte]; rfl
            have htd : t.depth = curr.depth + 1 := by rw [hte]; rfl
            have htf : t.f = curr.depth + 1 + manhattan_distance b2 := by rw [hte]; rfl
            obtain ⟨_, p, hp, d, hd, hok, hpieces⟩ :=
              slideBoards_good curr.board hcgood t.board (hLmem t ht)
            refine ⟨htb ▸ hb2good, ?_, ⟨mc + 1, ?_, ?_⟩, Or.inl ?_⟩
            · rw [hpieces]
              exact kindsMatch_map_replace b0.pieces curr.board.pieces hckinds p d
            · rw [htd, ← hmc]
              push_cast
              ring
            · refine BReachN_snoc hcreach ?_
              rw [succBoards_eq curr.board hcgood]
              exact hLmem t ht
            · rw [htf, htd, htb]
          have hcurrmin : ∀ m b, BReachN m b0 b → b.grid = curr.board.grid →
              mc ≤ m := by
            intro m b hrb hbg
            by_contra hlt
            push_neg at hlt
            have hbnv : pyhash (pyStrGrid b.grid) ∉ V := by
              rw [hbg]
              exact hv
            obtain ⟨s, hs, i, him, hsdep, gb, hgbr, hgbgrid⟩ :=
              key_cover pyhash b0 hb0 hinj (curr :: rest) V
                ⟨hsort, hfr, hEx, hrootcov⟩ m b hrb hbnv
            have hsgood : goodBoard s.board := (hfr s hs).1
            have hgbgood : goodBoard gb := BReachN_good hgbr hsgood
            have hpm : manhattan_distance s.board ≤
                manhattan_distance gb + ((m - i : ℕ) : ℤ) :=
              path_manhattan (m - i) s.board gb hsgood hgbr
            have hmg : manhattan_distance gb = manhattan_distance curr.board := by
              apply manhattan_of_grid gb curr.board hgbgood hcgood
              rw [hgbgrid, hbg]
            have hsf : s.f ≤ s.depth + manhattan_distance s.board := by
              rcases (hfr s hs).2.2.2 with h | ⟨hd0, hf0⟩
              · exact le_of_eq h
              · rw [hd0, hf0]
                simpa using manhattan_nonneg s.board
            have hcfle : curr.f ≤ s.f := sorted_head_f pyhash curr rest hsort s hs
            rcases hcf with h | ⟨h1, h2⟩
            · rw [hmg] at hpm
              omega
            · have hmc0 : (mc : ℤ) = 0 := by rw [hmc, h1]
              omega
          have hmemF2r : ∀ t, t ∈ rest ∨ t ∈ L →
              t ∈ L.foldl (heappush pyhash) rest := by
            intro t ht
            have hperm := foldl_heappush_perm pyhash L rest
            rw [hperm.mem_iff, List.mem_append]
            exact ht
          have hIV2 : astarInv pyhash b0 (L.foldl (heappush pyhash) rest)
              (curr.idval pyhash :: V) := by
            refine ⟨sorted_foldl_heappush pyhash L rest (List.sorted_cons.mp hsort).2,
              ?_, ?_, ?_⟩
            · intro s hsm
              rcases mem_foldl_heappush pyhash L rest s hsm with h1 | h2
              · exact hfr s (List.mem_cons_of_mem curr h1)
              · exact hLfront s h2
            · obtain ⟨E, hVE, hrec⟩ := hEx
              refine ⟨(curr.board, mc) :: E, ?_, ?_⟩
              · intro v
                simp only [List.mem_cons]
                constructor
                · rintro (rfl | hvV)
                  · exact ⟨(curr.board, mc), Or.inl rfl, rfl⟩
                  · obtain ⟨e, he, hee⟩ := (hVE v).mp hvV
                    exact ⟨e, Or.inr he, hee⟩
                · rintro ⟨e, (rfl | he), hee⟩
                  · exact Or.inl hee
                  · exact Or.inr ((hVE v).mpr ⟨e, he, hee⟩)
              · intro e hem
                rcases List.mem_cons.mp hem with rfl | he
                · refine ⟨hcgood, hcreach, hcngoal, hcurrmin, ?_⟩
                  intro c hc
                  right
                  obtain ⟨t, htL, htb⟩ : ∃ t ∈ L, t.board = c := by
                    have hcm : c ∈ L.map State.board := by
                      rw [hmL]
                      exact hc
                    rw [List.mem_map] at hcm
                    exact hcm
                  refine ⟨t, hmemF2r t (Or.inr htL), by rw [htb], ?_⟩
                  obtain ⟨b2, hb2good, hte⟩ := hfL t htL
                  have htd : t.depth = curr.depth + 1 := by rw [hte]; rfl
                  rw [htd, ← hmc]
                · obtain ⟨h1, h2, h3, h4, h5⟩ := hrec e he
                  refine ⟨h1, h2, h3, h4, fun c hc => ?_⟩
                  rcases h5 c hc with hvis | ⟨s, hsm, hsg, hsd⟩
                  · exact Or.inl (List.mem_cons_of_mem _ hvis)
                  · rcases List.mem_cons.mp hsm with rfl | hs2
                    · left
                      rw [← hsg]
                      exact List.mem_cons_self _ _
                    · exact Or.inr ⟨s, hmemF2r s (Or.inl hs2), hsg, hsd⟩
            · rcases hrootcov with h | ⟨s, hsm, hsg, hsd⟩
              · exact Or.inl (List.mem_cons_of_mem _ h)
              · rcases List.mem_cons.mp hsm with rfl | hs2
                · left
                  rw [← hsg]
                  exact List.mem_cons_self _ _
                · exact Or.inr ⟨s, hmemF2r s (Or.inl hs2), hsg, hsd⟩
          have hLlen : L.length ≤ 4 * b0.pieces.length := by
            have h1 : L.length = (slideBoards curr.board).length := by
              rw [← hmL, List.length_map]
            have h2 := slideBoards_length curr.board
            have h3 : curr.board.pieces.length = b0.pieces.length :=
              hckinds.length_eq.symm
            omega
          have hdrop := filter_unvisited_drop (candIds pyhash b0.pieces) V
            (curr.idval pyhash) (mem_candIds pyhash b0.pieces curr.board hcgood hckinds) hv
          have hm2 : searchMeasure pyhash b0.pieces (L.foldl (heappush pyhash) rest)
              (curr.idval pyhash :: V) < n := by
            unfold searchMeasure at hm ⊢
            have hflen : (L.foldl (heappush pyhash) rest).length =
                rest.length + L.length := by
              rw [(foldl_heappush_perm pyhash L rest).length_eq, List.length_append]
            rw [hflen]
            simp only [List.length_cons] at hm
            have hmul := Nat.mul_le_mul_right (4 * b0.pieces.length + 1) hdrop
            rw [Nat.succ_mul] at hmul
            exact measure_lt _ _ b0.pieces.length (rest.length + 1) _ n hmul
              (by omega) (by omega) hm
          obtain ⟨r, hr, hrrest⟩ :=
            ih (L.foldl (heappush pyhash) rest) (curr.idval pyhash :: V) hIV2 hm2
          refine ⟨r, ?_, hrrest⟩
          rw [astarLoop_pop pyhash n curr rest V, if_neg hv, if_neg hgoal, hL]
          exact hr

/-- A list of boards closed under successor generation contains everything
reachable from any of its members. -/
theorem reach_closed (R : List Board)
    (hcl : ∀ b ∈ R, ∀ c ∈ succBoards b, c ∈ R) :
    ∀ {n : ℕ} {a b : Board}, BReachN n a b → a ∈ R → b ∈ R := by
  intro n a b h
  induction h with
  | refl c =>
    intro hc
    exact hc
  | step hstep _ ih =>
    intro ha
    exact ih (hcl _ ha _ hstep)

/-- C1 counterexample: the claim as stated does not hold for every run.
`State.id` is Python's salted `hash` of the grid string; on a run whose
hash collides on all grids (modelled by a constant hash function), every
successor of the root carries the root's identity, so A* discards the
whole frontier and reports "no solution" on a solvable board satisfying
the placement invariants — it returns no goal state at all, at any fuel. -/
theorem claim_C1_ce :
    goodBoard bG12 ∧
    BReachN 1 bG12 bG13 ∧ isGoalBoard bG13 ∧
    A_star hashRunA 6 sG12 = some SearchOutcome.noSolution ∧
    ∀ (fuel : ℕ) (r : State),
      A_star hashRunA fuel sG12 ≠ some (SearchOutcome.found r) := by
  have hstep : bG13 ∈ succBoards bG12 := by decide
  have hns : A_star hashRunA 6 sG12 = some SearchOutcome.noSolution := by rfl
  refine ⟨by decide, BReachN.step hstep (BReachN.refl bG13), by decide, hns, ?_⟩
  intro fuel r hcontra
  have h1 : A_star hashRunA (max fuel 6) sG12 = some (SearchOutcome.found r) := by
    unfold A_star at hcontra ⊢
    exact astarLoop_mono_le hashRunA fuel (max fuel 6) (le_max_left _ _) _ _ _ hcontra
  have h2 : A_star hashRunA (max fuel 6) sG12 = some SearchOutcome.noSolution := by
    unfold A_star at hns ⊢
    exact astarLoop_mono_le hashRunA 6 (max fuel 6) (le_max_right _ _) _ _ _ hns
  rw [h1] at h2
  simp at h2

/-- C1 (amended): the stated optimality holds under the no-collision
hypothesis the spec's design note asks for.  For every initial state whose
board satisfies the piece-placement invariants and from which some goal
configuration is reachable, and every run hash that is injective on the
grids of reachable boards (`GridInj` — true of a canonical content hash,
not guaranteed for Python's salted default), A_star with enough fuel
returns a state whose board passes the goal test (goal piece at (1, 3))
and whose depth equals the minimum number of single-cell slides needed to
reach any goal configuration from the initial board. -/
theorem claim_C1 (pyhash : String → ℤ) (b0 : Board) (hb0 : goodBoard b0)
    (hinj : GridInj pyhash b0)
    (N : ℕ) (g : Board) (hreach : BReachN N b0 g) (hgoal : isGoalBoard g) :
    ∃ (fuel : ℕ) (r : State),
      A_star pyhash fuel (State.mk b0 0 0 none) = some (SearchOutcome.found r) ∧
      (∀ fuel2, fuel ≤ fuel2 →
        A_star pyhash fuel2 (State.mk b0 0 0 none) = some (SearchOutcome.found r)) ∧
      isGoalBoard r.board ∧
      (∃ m : ℕ, (m : ℤ) = r.depth ∧ BReachN m b0 r.board ∧
        ∀ k gb, BReachN k b0 gb → isGoalBoard gb → m ≤ k) := by
  have hne : {m : ℕ | ∃ gb, BReachN m b0 gb ∧ isGoalBoard gb}.Nonempty :=
    ⟨N, g, hreach, hgoal⟩
  set D := sInf {m : ℕ | ∃ gb, BReachN m b0 gb ∧ isGoalBoard gb} with hDdef
  have hDmem : ∃ gb, BReachN D b0 gb ∧ isGoalBoard gb := Nat.sInf_mem hne
  have hDmin : ∀ m gb, BReachN m b0 gb → isGoalBoard gb → D ≤ m :=
    fun m gb h1 h2 => Nat.sInf_le ⟨gb, h1, h2⟩
  have hIV0 : astarInv pyhash b0 [State.mk b0 0 0 none] [] := by
    refine ⟨List.sorted_singleton _, ?_, ⟨[], ?_, ?_⟩, ?_⟩
    · intro s hs
      rw [List.mem_singleton] at hs
      rw [hs]
      exact ⟨hb0, kindsMatch_refl b0.pieces, ⟨0, rfl, BReachN.refl b0⟩,
        Or.inr ⟨rfl, rfl⟩⟩
    · intro v
      simp
    · intro e he
      exact absurd he (List.not_mem_nil e)
    · exact Or.inr ⟨State.mk b0 0 0 none, List.mem_singleton_self _, rfl, le_refl 0⟩
  set n0 := searchMeasure pyhash b0.pieces [State.mk b0 0 0 none] [] + 1 with hn0
  obtain ⟨r, hr, hrgoal, hrdepth, hrreach⟩ :=
    astar_opt_loop pyhash b0 hb0 hinj D hDmem hDmin n0 _ _ hIV0 (by omega)
  refine ⟨n0, r, ?_, ?_, hrgoal, D, hrdepth.symm, hrreach, hDmin⟩
  · unfold A_star
    rw [heappush_nil]
    exact hr
  · intro fuel2 hle
    unfold A_star
    rw [heappush_nil]
    exact astarLoop_mono_le pyhash n0 fuel2 hle _ _ _ hr

/-- C1 witness: on the goal-only board one slide above the target, with a
content hash that separates the reachable grids, A* finds an optimal
solution. -/
theorem claim_C1_witness :
    ∃ (fuel : ℕ) (r : State),
      A_star hashPos fuel (State.mk bG12 0 0 none) = some (SearchOutcome.found r) ∧
      (∀ fuel2, fuel ≤ fuel2 →
        A_star hashPos fuel2 (State.mk bG12 0 0 none) =
          some (SearchOutcome.found r)) ∧
      isGoalBoard r.board ∧
      (∃ m : ℕ, (m : ℤ) = r.depth ∧ BReachN m bG12 r.board ∧
        ∀ k gb, BReachN k bG12 gb → isGoalBoard gb → m ≤ k) := by
  have hcl : ∀ b ∈ RG, ∀ c ∈ succBoards b, c ∈ RG := by decide
  have hmem : bG12 ∈ RG := by decide
  have hsep : ∀ x ∈ RG, ∀ y ∈ RG,
      hashPos (pyStrGrid x.grid) = hashPos (pyStrGrid y.grid) →
        x.grid = y.grid := by decide
  have hinj : GridInj hashPos bG12 := by
    intro b1 b2 h1 h2 heq
    obtain ⟨n1, hr1⟩ := h1
    obtain ⟨n2, hr2⟩ := h2
    exact hsep b1 (reach_closed RG hcl hr1 hmem) b2 (reach_closed RG hcl hr2 hmem) heq
  have hstep : bG13 ∈ succBoards bG12 := by decide
  exact claim_C1 hashPos bG12 (by decide) hinj 1 bG13
    (BReachN.step hstep (BReachN.refl bG13)) (by decide)
